import Mathlib

/-!
Verification of the sslstrip proxy core (sslstrip.go).

Strings are modelled as lists of characters (`Chars`).  The Go standard
library pieces the program depends on (net/url's Parse, String and
ResolveReference; strings helpers) are embedded at the level of detail the
program exercises: percent-escape sequences are validated exactly as Go
does but are kept verbatim rather than decoded and re-encoded (Go
serializes the raw form back whenever it is a valid encoding, so the two
agree on canonically escaped input; the one divergence, canonicalization
of valid escapes inside host names, is not relied on anywhere below).
-/

namespace SSLStrip

abbrev Chars := List Char

/-- The single-quote character. -/
def sq : Char := Char.ofNat 39

/-- The double-quote character. -/
def dq : Char := Char.ofNat 34

/-- Go strings.Contains: does sub occur inside s. -/
def containsSub (sub : Chars) : Chars → Bool
  | [] => sub.isEmpty
  | c :: cs => sub.isPrefixOf (c :: cs) || containsSub sub cs

/-- Go strings.LastIndex: start index of the last occurrence of sub in s. -/
def lastIndexOfSub (sub : Chars) : Chars → Option Nat
  | [] => if sub.isEmpty then some 0 else none
  | c :: cs =>
    match lastIndexOfSub sub cs with
    | some i => some (i + 1)
    | none => if sub.isPrefixOf (c :: cs) then some 0 else none

/-- Go url.split(s, sep, cutc): split s at the first occurrence of sep. -/
def splitAtChar (sep : Char) (cutc : Bool) (s : Chars) : Chars × Chars :=
  match s.dropWhile (fun c => c != sep) with
  | [] => (s.takeWhile (fun c => c != sep), [])
  | _ :: rest =>
    (s.takeWhile (fun c => c != sep), if cutc then rest else sep :: rest)

/-- Go strings.TrimPrefix. -/
def trimPre (pre s : Chars) : Chars :=
  if pre.isPrefixOf s then s.drop pre.length else s

/-- Go strings.Split(s, "/"). -/
def splitOnSlash : Chars → List Chars
  | [] => [[]]
  | c :: rest =>
    if c = '/' then [] :: splitOnSlash rest
    else
      match splitOnSlash rest with
      | [] => [[c]]
      | seg :: segs => (c :: seg) :: segs

def isUpperAZ (c : Char) : Bool := ('A' ≤ c) && (c ≤ 'Z')

def isLowerAZ (c : Char) : Bool := ('a' ≤ c) && (c ≤ 'z')

def isAlphaC (c : Char) : Bool := isLowerAZ c || isUpperAZ c

def isDigitC (c : Char) : Bool := ('0' ≤ c) && (c ≤ '9')

def isHexDigitC (c : Char) : Bool :=
  isDigitC c || (('a' ≤ c) && (c ≤ 'f')) || (('A' ≤ c) && (c ≤ 'F'))

/-- Value of the first hex digit after a percent sign (Go unhex). -/
def unhexVal (c : Char) : Nat :=
  if isDigitC c then c.toNat - 48
  else if ('a' ≤ c) && (c ≤ 'f') then c.toNat - 87
  else if ('A' ≤ c) && (c ≤ 'F') then c.toNat - 55
  else 0

/-- Go stringContainsCTLByte. -/
def isCTL (c : Char) : Bool := c.toNat < 32 || c.toNat == 127

/-- Characters allowed after the first one in a scheme (Go getScheme). -/
def isSchemeTailChar (c : Char) : Bool :=
  isAlphaC c || isDigitC c || c == '+' || c == '-' || c == '.'

/-- Every percent sign starts a valid two-hex-digit escape
(Go unescape's escape validation for paths, fragments, userinfo). -/
def validEscapes : Chars → Bool
  | [] => true
  | '%' :: rest =>
    match rest with
    | a :: b :: t => isHexDigitC a && isHexDigitC b && validEscapes t
    | _ => false
  | _ :: rest => validEscapes rest

/-- Host escapes must be %25 or at least %80 (Go unescape, encodeHost mode). -/
def validHostEscapes : Chars → Bool
  | [] => true
  | '%' :: rest =>
    match rest with
    | a :: b :: t =>
      isHexDigitC a && isHexDigitC b && ((a == '2' && b == '5') || 8 ≤ unhexVal a) &&
        validHostEscapes t
    | _ => false
  | _ :: rest => validHostEscapes rest

/-- ASCII characters Go allows unescaped in a host
(Go shouldEscape, encodeHost mode); non-ASCII is passed through. -/
def validHostChar (c : Char) : Bool :=
  if 128 ≤ c.toNat then true
  else
    isAlphaC c || isDigitC c ||
    c == '-' || c == '.' || c == '_' || c == '~' ||
    c == '!' || c == '$' || c == '&' || c == sq || c == '(' || c == ')' ||
    c == '*' || c == '+' || c == ',' || c == ';' || c == '=' || c == ':' ||
    c == '[' || c == ']' || c == '<' || c == '>' || c == dq || c == '%'

/-- Characters Go's validUserinfo accepts. -/
def validUserinfoChar (c : Char) : Bool :=
  isAlphaC c || isDigitC c ||
  c == '-' || c == '.' || c == '_' || c == ':' || c == '~' || c == '!' ||
  c == '$' || c == '&' || c == sq || c == '(' || c == ')' || c == '*' ||
  c == '+' || c == ',' || c == ';' || c == '=' || c == '%' || c == '@'

/-- Go validUserinfo combined with setUser's escape validation. -/
def validUserinfo (s : Chars) : Bool := s.all validUserinfoChar && validEscapes s

/-- Go validOptionalPort. -/
def validOptionalPort (p : Chars) : Bool :=
  match p with
  | [] => true
  | c :: digits => c == ':' && digits.all isDigitC

/-- Go net/url.URL, restricted to the fields this program exercises.
Empty lists encode Go's empty strings; fragment and query semantics
follow Go (an empty fragment/query is not serialized). -/
structure URL where
  scheme : Chars := []
  opq : Chars := []
  user : Option Chars := none
  host : Chars := []
  path : Chars := []
  omitHost : Bool := false
  forceQuery : Bool := false
  rawQuery : Chars := []
  fragment : Chars := []
deriving DecidableEq, Repr

/-- Go getScheme's scan loop; acc holds the characters read so far. -/
def getSchemeAux (orig : Chars) (acc : Chars) : Chars → Except String (Chars × Chars)
  | [] => .ok ([], orig)
  | c :: cs =>
    if isAlphaC c then getSchemeAux orig (acc ++ [c]) cs
    else if isDigitC c || c == '+' || c == '-' || c == '.' then
      if acc.isEmpty then .ok ([], orig) else getSchemeAux orig (acc ++ [c]) cs
    else if c == ':' then
      if acc.isEmpty then .error ("missing protocol scheme") else .ok (acc, cs)
    else .ok ([], orig)

/-- Go getScheme. -/
def getScheme (s : Chars) : Except String (Chars × Chars) := getSchemeAux s [] s

def toLowerC (c : Char) : Char :=
  if isUpperAZ c then Char.ofNat (c.toNat + 32) else c

def toLowerS (s : Chars) : Chars := s.map toLowerC

/-- Go strings.HasPrefix via List.isPrefixOf; first path segment helper. -/
def firstSegment (p : Chars) : Chars := p.takeWhile (fun c => c != '/')

/-- Go parseHost: bracket and port validation, then character and escape
validation; the (validated) raw text is kept. -/
def parseHost (host : Chars) : Except String Chars :=
  let charsOk := host.all validHostChar && validHostEscapes host
  if (['[']).isPrefixOf host then
    match lastIndexOfSub ([']']) host with
    | none => .error ("missing right bracket in host")
    | some i =>
      if validOptionalPort (host.drop (i + 1)) then
        if charsOk then .ok host else .error ("invalid character in host name")
      else .error ("invalid port after host")
  else
    match lastIndexOfSub ([':']) host with
    | some i =>
      if validOptionalPort (host.drop i) then
        if charsOk then .ok host else .error ("invalid character in host name")
      else .error ("invalid port after host")
    | none => if charsOk then .ok host else .error ("invalid character in host name")

/-- Go parseAuthority: split at the last at-sign into userinfo and host. -/
def parseAuthority (authority : Chars) : Except String (Option Chars × Chars) :=
  match lastIndexOfSub (['@']) authority with
  | none =>
    match parseHost authority with
    | .error e => .error e
    | .ok h => .ok (none, h)
  | some i =>
    match parseHost (authority.drop (i + 1)) with
    | .error e => .error e
    | .ok h =>
      if validUserinfo (authority.take i) then .ok (some (authority.take i), h)
      else .error ("invalid userinfo")

/-- Go url.parse(rawURL, viaRequest=false) on the part before the fragment. -/
def parsePart (s : Chars) : Except String URL :=
  if s.any isCTL then .error ("invalid control character in URL")
  else if s = ['*'] then .ok { path := ['*'] }
  else
    match getScheme s with
    | .error e => .error e
    | .ok (sc, rest0) =>
      let scheme := toLowerS sc
      let q :=
        if (rest0.getLast? = some '?') ∧ ¬ containsSub (['?']) rest0.dropLast then
          (rest0.dropLast, true, ([] : Chars))
        else
          let p := splitAtChar '?' true rest0
          (p.1, false, p.2)
      let rest := q.1
      if (¬ (['/']).isPrefixOf rest) ∧ scheme ≠ [] then
        .ok { scheme := scheme, opq := rest, forceQuery := q.2.1, rawQuery := q.2.2 }
      else if (¬ (['/']).isPrefixOf rest) ∧ containsSub ([':']) (firstSegment rest) then
        .error ("first path segment in URL cannot contain colon")
      else if (scheme ≠ [] ∨ ¬ (['/', '/', '/']).isPrefixOf rest) ∧
          (['/', '/']).isPrefixOf rest then
        match parseAuthority ((rest.drop 2).takeWhile (fun c => c != '/')) with
        | .error e => .error e
        | .ok uh =>
          let rest2 := (rest.drop 2).dropWhile (fun c => c != '/')
          if validEscapes rest2 then
            .ok { scheme := scheme, user := uh.1, host := uh.2, path := rest2,
                  forceQuery := q.2.1, rawQuery := q.2.2 }
          else .error ("invalid URL escape")
      else
        if validEscapes rest then
          .ok { scheme := scheme, path := rest,
                omitHost := decide (scheme ≠ []) && (['/']).isPrefixOf rest,
                forceQuery := q.2.1, rawQuery := q.2.2 }
        else .error ("invalid URL escape")

/-- The tail of parsePart once the scheme and the query have been
extracted; spelled out separately so the round-trip proof can reuse it. -/
def parseAfterQuery (scheme rest : Chars) (fq : Bool) (rq : Chars) : Except String URL :=
  if (¬ (['/']).isPrefixOf rest) ∧ scheme ≠ [] then
    .ok { scheme := scheme, opq := rest, forceQuery := fq, rawQuery := rq }
  else if (¬ (['/']).isPrefixOf rest) ∧ containsSub ([':']) (firstSegment rest) then
    .error ("first path segment in URL cannot contain colon")
  else if (scheme ≠ [] ∨ ¬ (['/', '/', '/']).isPrefixOf rest) ∧
      (['/', '/']).isPrefixOf rest then
    match parseAuthority ((rest.drop 2).takeWhile (fun c => c != '/')) with
    | .error e => .error e
    | .ok uh =>
      let rest2 := (rest.drop 2).dropWhile (fun c => c != '/')
      if validEscapes rest2 then
        .ok { scheme := scheme, user := uh.1, host := uh.2, path := rest2,
              forceQuery := fq, rawQuery := rq }
      else .error ("invalid URL escape")
  else
    if validEscapes rest then
      .ok { scheme := scheme, path := rest,
            omitHost := decide (scheme ≠ []) && (['/']).isPrefixOf rest,
            forceQuery := fq, rawQuery := rq }
    else .error ("invalid URL escape")

/-- Go url.Parse: cut the fragment, parse the rest, validate the fragment. -/
def parseURLChars (s : Chars) : Except String URL :=
  let p := splitAtChar '#' true s
  match parsePart p.1 with
  | .error e => .error e
  | .ok u =>
    if p.2 = [] then .ok u
    else if validEscapes p.2 then .ok { u with fragment := p.2 }
    else .error ("invalid URL escape in fragment")

/-- Go (*URL).String. -/
def urlString (u : URL) : Chars :=
  let schemePart := if u.scheme ≠ [] then u.scheme ++ [':'] else []
  let mainPart :=
    if u.opq ≠ [] then u.opq
    else
      let auth :=
        if u.scheme ≠ [] ∨ u.host ≠ [] ∨ u.user.isSome then
          if u.omitHost ∧ u.host = [] ∧ u.user = none then []
          else
            (if u.host ≠ [] ∨ u.path ≠ [] ∨ u.user.isSome then ['/', '/'] else []) ++
              (match u.user with
               | some ui => ui ++ ['@']
               | none => []) ++
              u.host
        else []
      let slash :=
        if u.path ≠ [] ∧ u.path.head? ≠ some '/' ∧ u.host ≠ [] then ['/'] else []
      let dotSlash :=
        if schemePart ++ auth ++ slash = [] ∧ containsSub ([':']) (firstSegment u.path) then
          ['.', '/']
        else []
      auth ++ slash ++ dotSlash ++ u.path
  let queryPart := if u.forceQuery ∨ u.rawQuery ≠ [] then '?' :: u.rawQuery else []
  let fragPart := if u.fragment ≠ [] then '#' :: u.fragment else []
  schemePart ++ mainPart ++ queryPart ++ fragPart

/-- sslstrip.go normalizeUrl: parse, force an empty path to "/", re-serialize. -/
def fixPath (u : URL) : URL := if u.path = [] then { u with path := ['/'] } else u

def normalizeUrl (link : Chars) : Except String Chars :=
  match parseURLChars link with
  | .error e => .error e
  | .ok u => .ok (urlString (fixPath u))

/-- sslstrip.go normalizeIP: the part of RemoteAddr before the first colon. -/
def normalizeIP (remoteAddr : Chars) : Chars :=
  remoteAddr.takeWhile (fun c => c != ':')

/-- Go resolvePath (RFC 3986 merge and remove-dot-segments). -/
def resolvePath (base ref : Chars) : Chars :=
  let full :=
    if ref = [] then base
    else if ref.head? ≠ some '/' then
      (match lastIndexOfSub (['/']) base with
       | some i => base.take (i + 1) ++ ref
       | none => ref)
    else ref
  if full = [] then []
  else
    let src := splitOnSlash full
    let dst := src.foldl
      (fun dst elem =>
        if elem = (['.']) then dst
        else if elem = (['.', '.']) then dst.dropLast
        else dst ++ [elem]) []
    let dst2 :=
      match src.getLast? with
      | some l => if l = (['.']) ∨ l = (['.', '.']) then dst ++ [[]] else dst
      | none => dst
    '/' :: trimPre (['/']) (List.intercalate (['/']) dst2)

/-- Go (*URL).ResolveReference. -/
def resolveReference (u ref : URL) : URL :=
  let url1 := if ref.scheme = [] then { ref with scheme := u.scheme } else ref
  if ref.scheme ≠ [] ∨ ref.host ≠ [] ∨ ref.user.isSome then
    { url1 with path := resolvePath ref.path [] }
  else if ref.opq ≠ [] then
    { url1 with user := none, host := [], path := [] }
  else
    let url2 :=
      if ref.path = [] ∧ ¬ ref.forceQuery ∧ ref.rawQuery = [] then
        let url2a := { url1 with rawQuery := u.rawQuery }
        if ref.fragment = [] then { url2a with fragment := u.fragment } else url2a
      else url1
    { url2 with host := u.host, user := u.user, path := resolvePath u.path ref.path }

/-- Go (*URL).Parse: parse ref and resolve it against u. -/
def urlParse (u : URL) (ref : Chars) : Except String URL :=
  match parseURLChars ref with
  | .error e => .error e
  | .ok refURL => .ok (resolveReference u refURL)

/-- sslstrip.go clientLink: client ip and url pair used as the cache key. -/
structure ClientLink where
  clientIP : Chars
  url : Chars
deriving DecidableEq, Repr

/-- The storedLinks map, modelled as an association list where a later
store shadows an earlier one for the same key (last write wins). -/
abbrev LinkMap := List (ClientLink × Chars)

/-- sslstrip.go getLink. -/
def getLink (m : LinkMap) (cl : ClientLink) : Option Chars :=
  match m with
  | [] => none
  | kv :: rest => if kv.1 = cl then some kv.2 else getLink rest cl

/-- sslstrip.go setLink. -/
def setLink (m : LinkMap) (cl : ClientLink) (link : Chars) : LinkMap :=
  (cl, link) :: m

/-- Go http.Header: header keys (in canonical form) with their value lists. -/
abbrev Header := List (Chars × List Chars)

def headerLookup (k : Chars) : Header → Option (List Chars)
  | [] => none
  | kv :: rest => if kv.1 = k then some kv.2 else headerLookup k rest

/-- Go Header.Get: first value for the key, or empty. -/
def headerGet (k : Chars) (h : Header) : Chars :=
  match headerLookup k h with
  | some (v :: _) => v
  | _ => []

/-- Go Header.Set: replace the entry with a single value, adding it if absent. -/
def headerSet (k v : Chars) : Header → Header
  | [] => [(k, [v])]
  | kv :: rest => if kv.1 = k then (k, [v]) :: rest else kv :: headerSet k v rest

/-- sslstrip.go http.Request fields the rewriter reads. -/
structure Request where
  url : URL
  host : Chars
  remoteAddr : Chars

/-- sslstrip.go http.Response fields the rewriter reads. -/
structure Response where
  statusCode : Nat
  header : Header
  body : Chars

def secureLit : Chars := ("Secure").data

def setCookieLit : Chars := ("Set-Cookie").data

def locationLit : Chars := ("Location").data

def contentTypeLit : Chars := ("Content-Type").data

def contentEncodingLit : Chars := ("Content-Encoding").data

def gzipLit : Chars := ("gzip").data

def httpsLit : Chars := ("https://").data

def httpsPre : Chars := ("https").data

def httpPre : Chars := ("http").data

def textCssLit : Chars := ("text/css").data

/-- sslstrip.go lines 154-157: splice out the last occurrence of "Secure". -/
def desecureCookie (cookie : Chars) : Chars :=
  match lastIndexOfSub secureLit cookie with
  | none => cookie
  | some idx => cookie.take idx ++ cookie.drop (idx + 6)

/-- sslstrip.go lines 152-159: desecure every Set-Cookie value in place. -/
def desecureCookies (h : Header) : Header :=
  h.map (fun kv => if kv.1 = setCookieLit then (kv.1, kv.2.map desecureCookie) else kv)

/-- sslstrip.go lines 50-54. -/
def ignoredRequestHeaders : List Chars :=
  [("Cache-Control").data, ("If-Modified-Since").data, ("If-None-Match").data]

/-- sslstrip.go lines 58-65. -/
def ignoredResponseHeaders : List Chars :=
  [("Content-Length").data, ("Public-Key-Pins").data,
   ("Public-Key-Pins-Report-Only").data, ("Strict-Transport-Security").data]

/-- sslstrip.go lines 305-309: copy response headers except the ignored ones. -/
def copyResponseHeaders (h : Header) : Header :=
  h.filter (fun kv => decide (kv.1 ∉ ignoredResponseHeaders))

/-- The character class of the body-rewrite regular expression
(https://[a-zA-Z0-9_:#@%/;$()~_?+-=\.&]*): note that +-= inside the
class is a character range from plus (43) to equals (61), which also
admits comma and the angle bracket. -/
def isLinkChar (c : Char) : Bool :=
  isAlphaC c || isDigitC c ||
  c == '_' || c == ':' || c == '#' || c == '@' || c == '%' || c == '/' ||
  c == ';' || c == '$' || c == '(' || c == ')' || c == '~' || c == '?' ||
  (('+' ≤ c) && (c ≤ '=')) || c == '.' || c == '&'

/-- The character class of the CSS url() regular expression
(url\(['"]?([a-zA-Z0-9_:#@%/;$~_?+-=\.&]*)['"]?\)): the link class
without the parentheses; +-= is again a range. -/
def isCssChar (c : Char) : Bool :=
  isAlphaC c || isDigitC c ||
  c == '_' || c == ':' || c == '#' || c == '@' || c == '%' || c == '/' ||
  c == ';' || c == '$' || c == '~' || c == '?' ||
  (('+' ≤ c) && (c ≤ '=')) || c == '.' || c == '&'

/-- The character class of the specification's forbidden-substring pattern
https://[A-Za-z0-9_:#@%/;$()~_?+\-=.&]+ (the dash here is escaped, so
plus, dash and equals are individual characters, not a range). -/
def isSpecLinkChar (c : Char) : Bool :=
  isAlphaC c || isDigitC c ||
  c == '_' || c == ':' || c == '#' || c == '@' || c == '%' || c == '/' ||
  c == ';' || c == '$' || c == '(' || c == ')' || c == '~' || c == '?' ||
  c == '+' || c == '-' || c == '=' || c == '.' || c == '&'

/-- Does the specification pattern https://[class]+ match at the head. -/
def specMatchAt (s : Chars) : Bool :=
  httpsLit.isPrefixOf s &&
    (match s.drop 8 with
     | c :: _ => isSpecLinkChar c
     | [] => false)

/-- Does some substring match the specification pattern https://[class]+. -/
def containsHttpsRef : Chars → Bool
  | [] => false
  | c :: cs => specMatchAt (c :: cs) || containsHttpsRef cs

/-- sslstrip.go lines 170-186: the replacement function applied to one
match of the body-rewrite regular expression; returns the replacement
text and the Link Map entries stored. -/
def htmlReplace (clientIP : Chars) (m : Chars) : Chars × List (ClientLink × Chars) :=
  match normalizeUrl (("http://").data ++ m.drop 8) with
  | .error _ => (m, [])
  | .ok strippedUrl => (strippedUrl, [(⟨clientIP, strippedUrl⟩, m)])

/-- sslstrip.go lines 169-186: regexp.ReplaceAllFunc over the body.  A
match starts at each leftmost occurrence of "https://" and extends over
the longest run of class characters; scanning resumes after the match.
The fuel argument only bounds the recursion structurally (a match skips
ahead); it never runs out when it starts at the input length, which the
wrapper below supplies.  Returns the rewritten body, the entries stored,
and (as instrumentation for the statements below) the list of matches. -/
def htmlRewriteGo (clientIP : Chars) : Nat → Chars →
    Chars × List (ClientLink × Chars) × List Chars
  | _, [] => ([], [], [])
  | 0, c :: cs => (c :: cs, [], [])
  | fuel + 1, c :: cs =>
    if httpsLit.isPrefixOf (c :: cs) then
      let n := 8 + (((c :: cs).drop 8).takeWhile isLinkChar).length
      let m := (c :: cs).take n
      let p := htmlReplace clientIP m
      let q := htmlRewriteGo clientIP fuel ((c :: cs).drop n)
      (p.1 ++ q.1, p.2 ++ q.2.1, m :: q.2.2)
    else
      let q := htmlRewriteGo clientIP fuel cs
      (c :: q.1, q.2)

def htmlRewrite (clientIP : Chars) (s : Chars) :
    Chars × List (ClientLink × Chars) × List Chars :=
  htmlRewriteGo clientIP s.length s

def urlParenLit : Chars := ("url(").data

/-- The CSS regular expression after "url(": a run of class characters
with an optional quote on either side, then the closing parenthesis;
returns the consumed text (including the parenthesis) and the rest. -/
def cssCore (t : Chars) : Option (Chars × Chars) :=
  let run := t.takeWhile isCssChar
  match t.dropWhile isCssChar with
  | c :: rest2 =>
    if c = ')' then some (run ++ [')'], rest2)
    else if c = sq ∨ c = dq then
      match rest2 with
      | c2 :: rest =>
        if c2 = ')' then some (run ++ [c, ')'], rest) else none
      | [] => none
    else none
  | [] => none

/-- The optional opening quote of the CSS pattern, with the backtracking
the regular expression engine performs when taking the quote fails. -/
def cssAfterOpen (t : Chars) : Option (Chars × Chars) :=
  match t with
  | c :: rest =>
    if c = sq ∨ c = dq then
      match cssCore rest with
      | some p => some (c :: p.1, p.2)
      | none => cssCore t
    else cssCore t
  | [] => none

/-- A match of the CSS url() regular expression starting at the head. -/
def tryCssMatch (s : Chars) : Option (Chars × Chars) :=
  if urlParenLit.isPrefixOf s then
    match cssAfterOpen (s.drop 4) with
    | some p => some (urlParenLit ++ p.1, p.2)
    | none => none
  else none

/-- sslstrip.go lines 190-229: the replacement function applied to one
url() match; returns the replacement text and the entries stored. -/
def cssReplace (req : Request) (m : Chars) : Chars × List (ClientLink × Chars) :=
  if (urlParenLit ++ [sq] ++ httpPre).isPrefixOf m ∨
     (urlParenLit ++ [dq] ++ httpPre).isPrefixOf m ∨
     (urlParenLit ++ httpPre).isPrefixOf m ∨
     containsSub (("base64").data) m then
    (m, [])
  else
    let base := req.url.scheme ++ ("://").data ++ req.host
    let absoluteUrl :=
      if (urlParenLit ++ [sq, '/']).isPrefixOf m ∨ (urlParenLit ++ [dq, '/']).isPrefixOf m then
        base ++ (m.drop 5).dropLast
      else if (urlParenLit ++ ['/']).isPrefixOf m then
        base ++ (m.drop 4).dropLast
      else if (urlParenLit ++ [sq]).isPrefixOf m ∨ (urlParenLit ++ [dq]).isPrefixOf m then
        base ++ req.url.path ++ ['/'] ++ (m.drop 5).dropLast
      else
        base ++ req.url.path ++ ['/'] ++ (m.drop 4).dropLast
    let strippedUrl :=
      if req.url.scheme = httpsPre then httpPre ++ absoluteUrl.drop 5 else absoluteUrl
    (urlParenLit ++ [sq] ++ strippedUrl ++ [sq, ')'],
     [(⟨normalizeIP req.remoteAddr, strippedUrl⟩, absoluteUrl)])

/-- sslstrip.go lines 189-229: ReplaceAllFunc with the CSS regular
expression; positions where no match starts are copied through.  As for
the body rewrite, fuel only bounds the recursion structurally and never
runs out when started at the input length. -/
def cssRewriteGo (req : Request) : Nat → Chars → Chars × List (ClientLink × Chars)
  | _, [] => ([], [])
  | 0, c :: cs => (c :: cs, [])
  | fuel + 1, c :: cs =>
    match tryCssMatch (c :: cs) with
    | some p =>
      let r := cssReplace req p.1
      let q := cssRewriteGo req fuel ((c :: cs).drop p.1.length)
      (r.1 ++ q.1, r.2 ++ q.2)
    | none =>
      let q := cssRewriteGo req fuel cs
      (c :: q.1, q.2)

def cssRewrite (req : Request) (s : Chars) : Chars × List (ClientLink × Chars) :=
  cssRewriteGo req s.length s

/-- sslstrip.go lines 133-149: downgrade the Location header and record
the original in the Link Map. -/
def stripLocation (req : Request) (h : Header) :
    Except String (Header × List (ClientLink × Chars)) :=
  if httpsPre.isPrefixOf (headerGet locationLit h) then
    match normalizeUrl (httpPre ++ (headerGet locationLit h).drop 5) with
    | .error e => .error e
    | .ok strippedLocation =>
      .ok (headerSet locationLit strippedLocation h,
           [(⟨normalizeIP req.remoteAddr, strippedLocation⟩, headerGet locationLit h)])
  else .ok (h, [])

/-- sslstrip.go stripResponse: Location downgrade, cookie desecuring,
body rewrite, and the CSS pass for text/css responses.  Returns the
rewritten body, the mutated headers, and the Link Map entries stored
(in store order). -/
def stripResponse (req : Request) (res : Response) :
    Except String (Chars × Header × List (ClientLink × Chars)) :=
  match stripLocation req res.header with
  | .error e => .error e
  | .ok (h1, es1) =>
    let h2 := desecureCookies h1
    let p := htmlRewrite (normalizeIP req.remoteAddr) res.body
    if containsSub textCssLit (headerGet contentTypeLit h2) then
      let q := cssRewrite req p.1
      .ok (q.1, h2, es1 ++ p.2.1 ++ q.2)
    else
      .ok (p.1, h2, es1 ++ p.2.1)

/-- sslstrip.go makeRequest: look the normalized request URL up in the
Link Map and return the URL actually dispatched upstream (the parse
error of the normalization is discarded exactly as in the source). -/
def makeRequest (links : LinkMap) (req : Request) : Except String URL :=
  let u :=
    match normalizeUrl (urlString req.url) with
    | .ok v => v
    | .error _ => []
  let cl : ClientLink := ⟨normalizeIP req.remoteAddr, u⟩
  match getLink links cl with
  | some link => urlParse req.url link
  | none => .ok req.url

/-- Modelled from the spec: Go's compress/gzip writer and reader
(standard library, absent from src/), abstracted to an encoder/decoder
pair for which, per the gzip round-trip law of the spec, decoding an
encoded body yields the body back. -/
structure GzipCodec where
  enc : Chars → Chars
  dec : Chars → Except String Chars
  dec_enc : ∀ b, dec (enc b) = .ok b

/-- What ServeHTTP writes back to the victim. -/
structure Emitted where
  statusCode : Nat
  header : Header
  body : Chars

/-- sslstrip.go ServeHTTP lines 272-314, after makeRequest has returned:
gzip decode, stripResponse, gzip re-encode, header projection, status
write, body write. -/
def servePost (g : GzipCodec) (req : Request) (res : Response) : Except String Emitted :=
  match (if headerGet contentEncodingLit res.header = gzipLit
         then g.dec res.body else .ok res.body) with
  | .error e => .error e
  | .ok body0 =>
    match stripResponse req { res with body := body0 } with
    | .error e => .error e
    | .ok (strippedBody, h2, _) =>
      let finalBody :=
        if headerGet contentEncodingLit h2 = gzipLit then g.enc strippedBody
        else strippedBody
      .ok { statusCode := res.statusCode, header := copyResponseHeaders h2,
            body := finalBody }

/-- Modelled from the spec: the CSS resolution table of section 4.5
(root-relative references resolve as scheme://host + reference, all other
references as scheme://host + request-path + "/" + reference), written
from the spec's words for comparison with cssReplace. -/
def cssResolveSpecTable (scheme host path reference : Chars) (rootRel : Bool) : Chars :=
  if rootRel then scheme ++ ("://").data ++ host ++ reference
  else scheme ++ ("://").data ++ host ++ path ++ ['/'] ++ reference

/-- What the CSS rewriter does to a downgradable occurrence whose
resolved absolute URL is absoluteUrl, on an https request: emit
url('<downgraded>') and store (client, downgraded) → absoluteUrl, where
downgraded is absoluteUrl with its first five characters replaced by
"http". -/
def cssDowngraded (req : Request) (absoluteUrl : Chars) :
    Chars × List (ClientLink × Chars) :=
  (urlParenLit ++ [sq] ++ (httpPre ++ absoluteUrl.drop 5) ++ [sq, ')'],
   [(⟨normalizeIP req.remoteAddr, httpPre ++ absoluteUrl.drop 5⟩, absoluteUrl)])

/-- The identity codec: a degenerate GzipCodec used to instantiate
codec-parameterized statements at a concrete value. -/
def idCodec : GzipCodec := ⟨fun b => b, fun b => .ok b, fun _ => rfl⟩

/-- Shape invariant satisfied by every URL value produced by
parseURLChars (and preserved by fixPath): exactly the facts needed for
urlString's output to parse back to the same value. -/
structure WF (u : URL) : Prop where
  scheme_ok : u.scheme = [] ∨ ∃ c cs, u.scheme = c :: cs ∧ isLowerAZ c = true ∧
    ∀ x ∈ cs, (isLowerAZ x || isDigitC x || x == '+' || x == '-' || x == '.') = true
  opq_scheme : u.opq ≠ [] → u.scheme ≠ []
  opq_slash : u.opq.head? ≠ some '/'
  opq_clean : ∀ c ∈ u.opq, isCTL c = false ∧ c ≠ '#' ∧ c ≠ '?'
  opq_rest : u.opq ≠ [] → u.host = [] ∧ u.user = none ∧ u.omitHost = false
  user_ok : ∀ ui, u.user = some ui → validUserinfo ui = true
  host_ok : parseHost u.host = .ok u.host
  path_esc : validEscapes u.path = true
  path_clean : ∀ c ∈ u.path, isCTL c = false ∧ c ≠ '#' ∧ c ≠ '?'
  path_slash : (u.host ≠ [] ∨ u.user.isSome ∨ (u.scheme ≠ [] ∧ u.opq = [])) →
    u.path = [] ∨ u.path.head? = some '/'
  path_rootless : u.scheme = [] ∧ u.host = [] ∧ u.user = none →
    containsSub ([':']) (firstSegment u.path) = false
  path_dslash : u.scheme = [] ∧ u.host = [] ∧ u.user = none →
    (['/', '/']).isPrefixOf u.path = true → (['/', '/', '/']).isPrefixOf u.path = true
  omit_ok : u.omitHost = true → u.scheme ≠ [] ∧ u.host = [] ∧ u.user = none ∧
    u.opq = [] ∧ u.path.head? = some '/' ∧ (['/', '/']).isPrefixOf u.path = false
  fq_ok : u.forceQuery = true → u.rawQuery = []
  query_clean : ∀ c ∈ u.rawQuery, isCTL c = false ∧ c ≠ '#'
  frag_esc : validEscapes u.fragment = true

/-- The one piece of a URL that serialization forgets: the path is not
written when the URL is opaque, so re-parsing returns it empty. -/
def eraseOpqPath (u : URL) : URL :=
  if u.opq = [] then u else { u with path := [] }

/-! ### List utilities -/

theorem takeWhile_append_all {p : Char → Bool} {a : Chars} (b : Chars)
    (h : ∀ c ∈ a, p c = true) : (a ++ b).takeWhile p = a ++ b.takeWhile p := by
  induction a with
  | nil => rfl
  | cons c cs ih =>
    simp [h c (by simp), ih (fun x hx => h x (by simp [hx]))]

theorem dropWhile_append_all {p : Char → Bool} {a : Chars} (b : Chars)
    (h : ∀ c ∈ a, p c = true) : (a ++ b).dropWhile p = b.dropWhile p := by
  induction a with
  | nil => rfl
  | cons c cs ih =>
    simp only [List.cons_append, List.dropWhile_cons, h c (by simp)]
    exact ih (fun x hx => h x (by simp [hx]))

theorem takeWhile_all {p : Char → Bool} {a : Chars}
    (h : ∀ c ∈ a, p c = true) : a.takeWhile p = a := by
  have := takeWhile_append_all (p := p) (a := a) [] h
  simpa using this

theorem dropWhile_all {p : Char → Bool} {a : Chars}
    (h : ∀ c ∈ a, p c = true) : a.dropWhile p = [] := by
  have := dropWhile_append_all (p := p) (a := a) [] h
  simpa using this

theorem prefix_of_isPrefixOf {a b : Chars} (h : a.isPrefixOf b = true) :
    ∃ t, b = a ++ t := by
  rcases List.isPrefixOf_iff_prefix.mp h with ⟨t, ht⟩
  exact ⟨t, ht.symm⟩

theorem isPrefixOf_append_self (a t : Chars) : a.isPrefixOf (a ++ t) = true :=
  List.isPrefixOf_iff_prefix.mpr ⟨t, rfl⟩

theorem lastIndexOfSub_none {sub s : Chars} (h : lastIndexOfSub sub s = none) :
    ∀ j, sub.isPrefixOf (s.drop j) = false := by
  induction s with
  | nil =>
    intro j
    simp only [lastIndexOfSub] at h
    cases hs : sub.isEmpty with
    | true => simp [hs] at h
    | false =>
      cases sub with
      | nil => simp [List.isEmpty] at hs
      | cons x xs => simp [List.isPrefixOf]
  | cons c cs ih =>
    intro j
    simp only [lastIndexOfSub] at h
    cases hrec : lastIndexOfSub sub cs with
    | some i => simp [hrec] at h
    | none =>
      rw [hrec] at h
      cases hp : sub.isPrefixOf (c :: cs) with
      | true => simp [hp] at h
      | false =>
        cases j with
        | zero => simpa using hp
        | succ j' => simpa using ih hrec j'

theorem lastIndexOfSub_some_prefix {sub s : Chars} {i : Nat}
    (h : lastIndexOfSub sub s = some i) : sub.isPrefixOf (s.drop i) = true := by
  induction s generalizing i with
  | nil =>
    simp only [lastIndexOfSub] at h
    cases hs : sub.isEmpty with
    | false => simp [hs] at h
    | true =>
      simp [hs] at h
      cases sub with
      | nil => simp [List.isPrefixOf]
      | cons x xs => simp [List.isEmpty] at hs
  | cons c cs ih =>
    simp only [lastIndexOfSub] at h
    cases hrec : lastIndexOfSub sub cs with
    | some i0 =>
      rw [hrec] at h
      injection h with h
      subst h
      simpa using ih hrec
    | none =>
      rw [hrec] at h
      cases hp : sub.isPrefixOf (c :: cs) with
      | false => simp [hp] at h
      | true =>
        simp [hp] at h
        subst h
        simpa using hp

theorem lastIndexOfSub_some_max {sub s : Chars} {i : Nat} (hsub : sub ≠ [])
    (h : lastIndexOfSub sub s = some i) :
    ∀ j, sub.isPrefixOf (s.drop j) = true → j ≤ i := by
  induction s generalizing i with
  | nil =>
    simp only [lastIndexOfSub] at h
    cases sub with
    | nil => exact absurd rfl hsub
    | cons x xs => simp [List.isEmpty] at h
  | cons c cs ih =>
    intro j hj
    simp only [lastIndexOfSub] at h
    cases hrec : lastIndexOfSub sub cs with
    | some i0 =>
      rw [hrec] at h
      injection h with h
      subst h
      cases j with
      | zero => omega
      | succ j' =>
        have := ih hrec j' (by simpa using hj)
        omega
    | none =>
      rw [hrec] at h
      cases hp : sub.isPrefixOf (c :: cs) with
      | false => simp [hp] at h
      | true =>
        simp [hp] at h
        subst h
        cases j with
        | zero => omega
        | succ j' =>
          have := lastIndexOfSub_none hrec j'
          simp only [List.drop_succ_cons] at hj
          rw [this] at hj
          cases hj

theorem containsSub_iff {sub s : Chars} :
    containsSub sub s = true ↔ ∃ j, sub.isPrefixOf (s.drop j) = true := by
  induction s with
  | nil =>
    simp only [containsSub]
    constructor
    · intro h
      exact ⟨0, by cases sub with
        | nil => simp [List.isPrefixOf]
        | cons x xs => simp [List.isEmpty] at h⟩
    · rintro ⟨j, hj⟩
      cases sub with
      | nil => simp [List.isEmpty]
      | cons x xs => simp [List.isPrefixOf] at hj
  | cons c cs ih =>
    simp only [containsSub, Bool.or_eq_true]
    constructor
    · rintro (h | h)
      · exact ⟨0, h⟩
      · rcases ih.mp h with ⟨j, hj⟩
        exact ⟨j + 1, by simpa using hj⟩
    · rintro ⟨j, hj⟩
      cases j with
      | zero => exact Or.inl (by simpa using hj)
      | succ j' => exact Or.inr (ih.mpr ⟨j', by simpa using hj⟩)

theorem drop_of_prefix_at {sub s : Chars} {i : Nat}
    (h : sub.isPrefixOf (s.drop i) = true) :
    s = s.take i ++ sub ++ s.drop (i + sub.length) := by
  rcases prefix_of_isPrefixOf h with ⟨t, ht⟩
  have hdd : s.drop (i + sub.length) = t := by
    have : (s.drop i).drop sub.length = t := by
      rw [ht]
      simp
    rw [← this, List.drop_drop]
  calc s = s.take i ++ s.drop i := (List.take_append_drop i s).symm
    _ = s.take i ++ (sub ++ t) := by rw [ht]
    _ = s.take i ++ sub ++ s.drop (i + sub.length) := by rw [hdd, List.append_assoc]

/-! ### C5: cookie desecuring -/

/-- C5 (amended): desecuring splices out exactly the six characters of the
last occurrence of "Secure" (no later occurrence exists), leaving every
other byte unchanged, and leaves values without the substring untouched;
because only that one occurrence is removed, the emitted value can still
contain "Secure". -/
theorem c5_desecure_splice :
    (∀ (v : Chars) (i : Nat), lastIndexOfSub secureLit v = some i →
      v = v.take i ++ secureLit ++ v.drop (i + 6) ∧
      desecureCookie v = v.take i ++ v.drop (i + 6) ∧
      containsSub secureLit (v.drop (i + 6)) = false) ∧
    (∀ v : Chars, containsSub secureLit v = false → desecureCookie v = v) := by
  constructor
  · intro v i h
    have hpre := lastIndexOfSub_some_prefix h
    have hlen : secureLit.length = 6 := rfl
    refine ⟨by simpa [hlen] using drop_of_prefix_at hpre, ?_, ?_⟩
    · simp [desecureCookie, h]
    · by_contra hc
      rcases containsSub_iff.mp (by simpa using hc) with ⟨j, hj⟩
      rw [List.drop_drop] at hj
      have := lastIndexOfSub_some_max (by decide) h (i + 6 + j) hj
      omega
  · intro v h
    cases hl : lastIndexOfSub secureLit v with
    | none => simp [desecureCookie, hl]
    | some i =>
      have := lastIndexOfSub_some_prefix hl
      rw [containsSub_iff.mpr ⟨i, this⟩] at h
      cases h

/-- C5 witness: the splice law evaluated on the cookie value "xSecure". -/
theorem c5_desecure_splice_witness :
    ("xSecure").data = (("xSecure").data).take 1 ++ secureLit ++ (("xSecure").data).drop 7 ∧
    desecureCookie (("xSecure").data) =
      (("xSecure").data).take 1 ++ (("xSecure").data).drop 7 ∧
    containsSub secureLit ((("xSecure").data).drop 7) = false :=
  c5_desecure_splice.1 (("xSecure").data) 1 (by decide)

/-- C5 counterexample: the upstream Set-Cookie value "SecureSecure" is
emitted as "Secure", which still contains the exact substring "Secure";
the claim that emitted values never contain it is false. -/
theorem c5_counterexample :
    desecureCookie (("SecureSecure").data) = ("Secure").data ∧
    containsSub secureLit (desecureCookie (("SecureSecure").data)) = true := by
  constructor
  · decide
  · decide

/-! ### Header operations -/

theorem headerGet_set_self (k v : Chars) (h : Header) :
    headerGet k (headerSet k v h) = v := by
  induction h with
  | nil => simp [headerSet, headerGet, headerLookup]
  | cons kv rest ih =>
    by_cases hk : kv.1 = k
    · simp [headerSet, hk, headerGet, headerLookup]
    · simp only [headerSet, hk, if_false]
      simpa [headerGet, headerLookup, hk] using ih

theorem headerLookup_set_ne {k k' : Chars} (hne : k' ≠ k) (v : Chars) (h : Header) :
    headerLookup k' (headerSet k v h) = headerLookup k' h := by
  induction h with
  | nil => simp [headerSet, headerLookup, Ne.symm hne]
  | cons kv rest ih =>
    by_cases hk : kv.1 = k
    · simp [headerSet, hk, headerLookup, Ne.symm hne]
    · simp only [headerSet, hk, if_false, headerLookup]
      rw [ih]

theorem headerLookup_desecure_ne {k : Chars} (hne : k ≠ setCookieLit) (h : Header) :
    headerLookup k (desecureCookies h) = headerLookup k h := by
  induction h with
  | nil => rfl
  | cons kv rest ih =>
    simp only [desecureCookies, List.map_cons]
    by_cases hc : kv.1 = setCookieLit
    · have hk : kv.1 ≠ k := fun hh => hne (by rw [← hh, hc])
      simp only [if_pos hc, headerLookup, hk, if_false]
      simpa [desecureCookies] using ih
    · simp only [if_neg hc, headerLookup]
      by_cases hk : kv.1 = k
      · simp [hk]
      · simp only [hk, if_false]
        simpa [desecureCookies] using ih

theorem copy_lookup_ignored {k : Chars} (hk : k ∈ ignoredResponseHeaders) (h : Header) :
    headerLookup k (copyResponseHeaders h) = none := by
  induction h with
  | nil => rfl
  | cons kv rest ih =>
    simp only [copyResponseHeaders, List.filter_cons] at *
    by_cases hmem : kv.1 ∈ ignoredResponseHeaders
    · simpa [hmem] using ih
    · have hne : kv.1 ≠ k := fun hh => hmem (hh ▸ hk)
      simpa [hmem, headerLookup, hne] using ih

theorem copy_lookup_kept {k : Chars} (hk : k ∉ ignoredResponseHeaders) (h : Header) :
    headerLookup k (copyResponseHeaders h) = headerLookup k h := by
  induction h with
  | nil => rfl
  | cons kv rest ih =>
    simp only [copyResponseHeaders, List.filter_cons] at *
    by_cases hmem : kv.1 ∈ ignoredResponseHeaders
    · have hne : kv.1 ≠ k := fun hh => hk (hh ▸ hmem)
      simpa [hmem, headerLookup, hne] using ih
    · by_cases hkk : kv.1 = k
      · simp [hmem, headerLookup, hkk, hk]
      · simpa [hmem, headerLookup, hkk] using ih

/-! ### C7: response header projection -/

/-- C7: the header set emitted to the victim is exactly the response
header set at projection time minus the deny-listed keys Content-Length,
Public-Key-Pins, Public-Key-Pins-Report-Only and Strict-Transport-Security;
every retained key keeps its full value list, and ServeHTTP passes the
upstream status code through unchanged. -/
theorem c7_header_projection :
    (∀ (h : Header) (k : Chars), k ∈ ignoredResponseHeaders →
      headerLookup k (copyResponseHeaders h) = none) ∧
    (∀ (h : Header) (k : Chars), k ∉ ignoredResponseHeaders →
      headerLookup k (copyResponseHeaders h) = headerLookup k h) ∧
    (∀ (g : GzipCodec) (req : Request) (res : Response) (em : Emitted),
      servePost g req res = .ok em → em.statusCode = res.statusCode) := by
  refine ⟨fun h k hk => copy_lookup_ignored hk h,
          fun h k hk => copy_lookup_kept hk h, ?_⟩
  intro g req res em h
  unfold servePost at h
  split at h
  · exact Except.noConfusion h
  · split at h
    · exact Except.noConfusion h
    · injection h with h
      rw [← h]

/-- C7 witness: the projection evaluated on a two-entry header set and
the status passthrough on a concrete transaction. -/
theorem c7_header_projection_witness :
    headerLookup (("Content-Length").data)
      (copyResponseHeaders
        [((("Content-Length").data), [("5").data]), ((("X-A").data), [("b").data])]) = none ∧
    headerLookup (("X-A").data)
      (copyResponseHeaders
        [((("Content-Length").data), [("5").data]), ((("X-A").data), [("b").data])]) =
      headerLookup (("X-A").data)
        [((("Content-Length").data), [("5").data]), ((("X-A").data), [("b").data])] ∧
    ({ statusCode := 200, header := [], body := [] } : Emitted).statusCode =
      ({ statusCode := 200, header := [], body := [] } : Response).statusCode :=
  ⟨c7_header_projection.1 _ _ (by decide),
   c7_header_projection.2.1 _ _ (by decide),
   c7_header_projection.2.2 idCodec { url := {}, host := [], remoteAddr := [] }
     { statusCode := 200, header := [], body := [] }
     { statusCode := 200, header := [], body := [] } rfl⟩

/-! ### C3: Location downgrade -/

/-- C3: when the Location value begins with "https" (and its scheme-swapped
form normalizes), the emitted Location header is the normalization of the
value with its first five characters replaced by "http", and the Link Map
gains ((client identifier, stripped value), original value); a response
whose Location value is empty is passed through with no entry stored and
no Location header added. -/
theorem c3_location_downgrade :
    (∀ (req : Request) (h : Header) (st : Chars),
      httpsPre.isPrefixOf (headerGet locationLit h) = true →
      normalizeUrl (httpPre ++ (headerGet locationLit h).drop 5) = .ok st →
      stripLocation req h =
        .ok (headerSet locationLit st h,
             [(⟨normalizeIP req.remoteAddr, st⟩, headerGet locationLit h)]) ∧
      headerGet locationLit (headerSet locationLit st h) = st) ∧
    (∀ (req : Request) (h : Header), headerGet locationLit h = [] →
      stripLocation req h = .ok (h, [])) := by
  constructor
  · intro req h st hpre hnorm
    refine ⟨?_, headerGet_set_self _ _ _⟩
    simp only [stripLocation, hpre, if_true, hnorm]
  · intro req h hloc
    simp only [stripLocation, hloc]
    rw [if_neg (by decide : ¬ (httpsPre.isPrefixOf ([] : Chars) = true))]

/-- C3 witness: the Location downgrade evaluated on
"https://bank.example/login". -/
theorem c3_location_downgrade_witness :
    stripLocation { url := {}, host := [], remoteAddr := ("9.9.9.9:4242").data }
        [(locationLit, [("https://bank.example/login").data])] =
      .ok (headerSet locationLit (("http://bank.example/login").data)
             [(locationLit, [("https://bank.example/login").data])],
           [(⟨("9.9.9.9").data, ("http://bank.example/login").data⟩,
             ("https://bank.example/login").data)]) ∧
    headerGet locationLit
        (headerSet locationLit (("http://bank.example/login").data)
          [(locationLit, [("https://bank.example/login").data])]) =
      ("http://bank.example/login").data :=
  c3_location_downgrade.1
    { url := {}, host := [], remoteAddr := ("9.9.9.9:4242").data }
    [(locationLit, [("https://bank.example/login").data])]
    (("http://bank.example/login").data) (by decide) rfl

/-! ### C2: request dispatch through the Link Map -/

/-- C2: for every incoming request, if the Link Map holds an entry for
(client identifier of the peer, normalized request URL) then the dispatch
target is the stored original URL parsed relative to the current target;
if no entry is present the request is dispatched with its target
unchanged. -/
theorem c2_dispatch :
    ∀ (links : LinkMap) (req : Request) (n : Chars),
      normalizeUrl (urlString req.url) = .ok n →
      (∀ link, getLink links ⟨normalizeIP req.remoteAddr, n⟩ = some link →
        makeRequest links req = urlParse req.url link) ∧
      (getLink links ⟨normalizeIP req.remoteAddr, n⟩ = none →
        makeRequest links req = .ok req.url) := by
  intro links req n hn
  constructor
  · intro link hl
    simp only [makeRequest, hn, hl]
  · intro hl
    simp only [makeRequest, hn, hl]

/-- C2 witness: a cached entry redirects the dispatch target of
http://bank.example/login to the stored https original; with an empty
map the target is unchanged. -/
theorem c2_dispatch_witness :
    makeRequest
        [(⟨("9.9.9.9").data, ("http://bank.example/login").data⟩,
          ("https://bank.example/login").data)]
        { url := { scheme := ("http").data, host := ("bank.example").data,
                   path := ("/login").data },
          host := ("bank.example").data, remoteAddr := ("9.9.9.9:4242").data } =
      urlParse
        { scheme := ("http").data, host := ("bank.example").data,
          path := ("/login").data }
        (("https://bank.example/login").data) ∧
    makeRequest []
        { url := { scheme := ("http").data, host := ("bank.example").data,
                   path := ("/login").data },
          host := ("bank.example").data, remoteAddr := ("9.9.9.9:4242").data } =
      .ok { scheme := ("http").data, host := ("bank.example").data,
            path := ("/login").data } :=
  ⟨(c2_dispatch
      [(⟨("9.9.9.9").data, ("http://bank.example/login").data⟩,
        ("https://bank.example/login").data)]
      { url := { scheme := ("http").data, host := ("bank.example").data,
                 path := ("/login").data },
        host := ("bank.example").data, remoteAddr := ("9.9.9.9:4242").data }
      (("http://bank.example/login").data) rfl).1 _ rfl,
   (c2_dispatch []
      { url := { scheme := ("http").data, host := ("bank.example").data,
                 path := ("/login").data },
        host := ("bank.example").data, remoteAddr := ("9.9.9.9:4242").data }
      (("http://bank.example/login").data) rfl).2 rfl⟩

/-! ### C8: gzip round trip -/

theorem stripLocation_headers {req : Request} {h h1 : Header}
    {es1 : List (ClientLink × Chars)} (hh : stripLocation req h = .ok (h1, es1)) :
    h1 = h ∨ ∃ st, h1 = headerSet locationLit st h := by
  unfold stripLocation at hh
  split at hh
  · split at hh
    · exact Except.noConfusion hh
    · injection hh with hh
      exact Or.inr ⟨_, (congrArg Prod.fst hh).symm⟩
  · injection hh with hh
    exact Or.inl (congrArg Prod.fst hh).symm

theorem headerGet_desecure_ne {k : Chars} (hne : k ≠ setCookieLit) (h : Header) :
    headerGet k (desecureCookies h) = headerGet k h := by
  unfold headerGet
  rw [headerLookup_desecure_ne hne]

theorem headerGet_set_ne {k k' : Chars} (hne : k' ≠ k) (v : Chars) (h : Header) :
    headerGet k' (headerSet k v h) = headerGet k' h := by
  unfold headerGet
  rw [headerLookup_set_ne hne]

theorem stripResponse_ce {req : Request} {res : Response} {b : Chars} {h2 : Header}
    {es : List (ClientLink × Chars)} (h : stripResponse req res = .ok (b, h2, es)) :
    headerGet contentEncodingLit h2 = headerGet contentEncodingLit res.header := by
  unfold stripResponse at h
  cases hsl : stripLocation req res.header with
  | error e => rw [hsl] at h; exact Except.noConfusion h
  | ok p =>
    rw [hsl] at h
    dsimp only at h
    have hh2 : h2 = desecureCookies p.1 := by
      split at h
      · injection h with h
        exact (congrArg (fun x => x.2.1) h).symm
      · injection h with h
        exact (congrArg (fun x => x.2.1) h).symm
    subst hh2
    rw [headerGet_desecure_ne (by decide)]
    rcases stripLocation_headers hsl with h1 | ⟨st, h1⟩
    · rw [h1]
    · rw [h1, headerGet_set_ne (by decide)]

/-- C8: if the upstream response is gzip-encoded and the rewriting passes
leave the decompressed body unchanged, then gzip-decoding the body
emitted to the victim yields the original (decompressed) upstream bytes. -/
theorem c8_gzip_roundtrip :
    ∀ (g : GzipCodec) (req : Request) (res : Response) (plain : Chars)
      (h2 : Header) (es : List (ClientLink × Chars)) (em : Emitted),
      headerGet contentEncodingLit res.header = gzipLit →
      g.dec res.body = .ok plain →
      stripResponse req { res with body := plain } = .ok (plain, h2, es) →
      servePost g req res = .ok em →
      g.dec em.body = .ok plain := by
  intro g req res plain h2 es em hce hdec hstrip hserve
  unfold servePost at hserve
  rw [if_pos hce, hdec] at hserve
  dsimp only at hserve
  rw [hstrip] at hserve
  dsimp only at hserve
  have hce2 : headerGet contentEncodingLit h2 = gzipLit := by
    rw [stripResponse_ce hstrip]
    exact hce
  rw [if_pos hce2] at hserve
  injection hserve with hserve
  rw [← hserve]
  exact g.dec_enc plain

/-- C8 witness: the identity codec on a one-byte gzip-marked body that the
rewriter leaves unchanged. -/
theorem c8_gzip_roundtrip_witness :
    idCodec.dec
      ({ statusCode := 200,
         header := copyResponseHeaders [(contentEncodingLit, [gzipLit])],
         body := ("x").data } : Emitted).body = .ok (("x").data) :=
  c8_gzip_roundtrip idCodec { url := {}, host := [], remoteAddr := [] }
    { statusCode := 200, header := [(contentEncodingLit, [gzipLit])],
      body := ("x").data }
    (("x").data) [(contentEncodingLit, [gzipLit])] [] _ rfl rfl rfl rfl

/-! ### C9: CSS url() rewriting -/

theorem isPrefixOf_app_app (a b c : Chars) :
    (a ++ b).isPrefixOf (a ++ c) = b.isPrefixOf c := by
  induction a with
  | nil => rfl
  | cons x xs ih => simpa [List.isPrefixOf] using ih

theorem head_cons_ne {c d : Char} (h : c ≠ d) (t : Chars) :
    (c :: t).head? ≠ some d :=
  fun hh => h (Option.some.inj hh)

theorem isPrefixOf_head_false {c : Char} {b t : Chars} (h : t.head? ≠ some c) :
    (c :: b).isPrefixOf t = false := by
  cases t with
  | nil => rfl
  | cons d ds =>
    have hne : (c == d) = false :=
      beq_eq_false_iff_ne.mpr (fun hh => h (by simp [hh]))
    simp [List.isPrefixOf, hne]

theorem isPrefixOf_concat_false {b a : Chars} {c : Char}
    (hb : b.isPrefixOf a = false) (hc : c ∉ b) : b.isPrefixOf (a ++ [c]) = false := by
  by_contra hcon
  have hpre : b <+: a ++ [c] :=
    List.isPrefixOf_iff_prefix.mp (by revert hcon; cases b.isPrefixOf (a ++ [c]) <;> simp)
  by_cases hlen : b.length ≤ a.length
  · have : b <+: a := List.prefix_of_prefix_length_le hpre (List.prefix_append a [c]) hlen
    rw [List.isPrefixOf_iff_prefix.mpr this] at hb
    cases hb
  · have hle : b.length ≤ a.length + 1 := by
      have := hpre.length_le
      simpa using this
    have heq : b = a ++ [c] := List.IsPrefix.eq_of_length hpre (by simp; omega)
    exact hc (heq ▸ (by simp : c ∈ a ++ [c]))

theorem not_bor1 {a : Bool} (ha : a = false) : ¬ (a = true) := by simp [ha]

theorem not_bor2 {a b : Bool} (ha : a = false) (hb : b = false) :
    ¬ (a = true ∨ b = true) := by simp [ha, hb]

theorem not_bor4 {a b c d : Bool} (ha : a = false) (hb : b = false)
    (hc : c = false) (hd : d = false) :
    ¬ (a = true ∨ b = true ∨ c = true ∨ d = true) := by simp [ha, hb, hc, hd]

/-- C9: on an https request, every url() occurrence whose inner value
does not begin with http and does not contain base64 is resolved per the
specification's table against the request's scheme, host and path, the
absolute URL is downgraded to http, the Link Map gains
(client, downgraded) → absolute, and the occurrence is emitted as
url('<downgraded>'); one conjunct per syntactic form (root-relative and
relative, quoted and unquoted; a closing quote, when present, is part of
the resolved reference exactly as in the source). -/
theorem c9_css_resolution :
    ∀ (req : Request) (inner : Chars), req.url.scheme = httpsPre →
      (containsSub (("base64").data) (urlParenLit ++ ['/'] ++ inner ++ [')']) = false →
        cssReplace req (urlParenLit ++ ['/'] ++ inner ++ [')']) =
          cssDowngraded req
            (cssResolveSpecTable req.url.scheme req.host req.url.path ('/' :: inner) true)) ∧
      (∀ q, (q = sq ∨ q = dq) →
        containsSub (("base64").data) (urlParenLit ++ [q, '/'] ++ inner ++ [')']) = false →
        cssReplace req (urlParenLit ++ [q, '/'] ++ inner ++ [')']) =
          cssDowngraded req
            (cssResolveSpecTable req.url.scheme req.host req.url.path ('/' :: inner) true)) ∧
      (inner.head? ≠ some '/' → inner.head? ≠ some sq → inner.head? ≠ some dq →
        httpPre.isPrefixOf inner = false →
        containsSub (("base64").data) (urlParenLit ++ inner ++ [')']) = false →
        cssReplace req (urlParenLit ++ inner ++ [')']) =
          cssDowngraded req
            (cssResolveSpecTable req.url.scheme req.host req.url.path inner false)) ∧
      (∀ q, (q = sq ∨ q = dq) → inner.head? ≠ some '/' →
        httpPre.isPrefixOf inner = false →
        containsSub (("base64").data) (urlParenLit ++ [q] ++ inner ++ [')']) = false →
        cssReplace req (urlParenLit ++ [q] ++ inner ++ [')']) =
          cssDowngraded req
            (cssResolveSpecTable req.url.scheme req.host req.url.path inner false)) := by
  intro req inner hscheme
  have hdrop4 : ∀ t : Chars, (urlParenLit ++ t).drop 4 = t := fun _ => rfl
  have hdrop5 : ∀ (q : Char) (t : Chars), (urlParenLit ++ (q :: t)).drop 5 = t :=
    fun _ _ => rfl
  have hlast : ∀ t : Chars, (t ++ [')']).dropLast = t := fun _ => List.dropLast_concat
  have hfin : ∀ absoluteUrl : Chars,
      (urlParenLit ++ [sq] ++
        ((if req.url.scheme = httpsPre then httpPre ++ absoluteUrl.drop 5 else absoluteUrl)) ++
        [sq, ')'],
       [(⟨normalizeIP req.remoteAddr,
          (if req.url.scheme = httpsPre then httpPre ++ absoluteUrl.drop 5 else absoluteUrl)⟩,
         absoluteUrl)]) = cssDowngraded req absoluteUrl := by
    intro a
    rw [if_pos hscheme]
    rfl
  refine ⟨?_, ?_, ?_, ?_⟩
  · intro hb64
    have hm : urlParenLit ++ ['/'] ++ inner ++ [')'] =
        urlParenLit ++ ('/' :: (inner ++ [')'])) := by simp
    rw [hm] at hb64 ⊢
    have hA : (urlParenLit ++ [sq] ++ httpPre).isPrefixOf
        (urlParenLit ++ ('/' :: (inner ++ [')']))) = false := by
      rw [List.append_assoc, isPrefixOf_app_app]
      exact isPrefixOf_head_false (head_cons_ne (by decide) _)
    have hB : (urlParenLit ++ [dq] ++ httpPre).isPrefixOf
        (urlParenLit ++ ('/' :: (inner ++ [')']))) = false := by
      rw [List.append_assoc, isPrefixOf_app_app]
      exact isPrefixOf_head_false (head_cons_ne (by decide) _)
    have hC : (urlParenLit ++ httpPre).isPrefixOf
        (urlParenLit ++ ('/' :: (inner ++ [')']))) = false := by
      rw [isPrefixOf_app_app]
      exact isPrefixOf_head_false (head_cons_ne (by decide) _)
    have hBr1 : (urlParenLit ++ [sq, '/']).isPrefixOf
        (urlParenLit ++ ('/' :: (inner ++ [')']))) = false := by
      rw [isPrefixOf_app_app]
      exact isPrefixOf_head_false (head_cons_ne (by decide) _)
    have hBr2 : (urlParenLit ++ [dq, '/']).isPrefixOf
        (urlParenLit ++ ('/' :: (inner ++ [')']))) = false := by
      rw [isPrefixOf_app_app]
      exact isPrefixOf_head_false (head_cons_ne (by decide) _)
    have hBr3 : (urlParenLit ++ ['/']).isPrefixOf
        (urlParenLit ++ ('/' :: (inner ++ [')']))) = true := by
      rw [isPrefixOf_app_app]
      simp [List.isPrefixOf]
    simp only [cssReplace]
    rw [if_neg (not_bor4 hA hB hC hb64), if_neg (not_bor2 hBr1 hBr2),
      if_pos hBr3, hdrop4]
    have : ('/' :: (inner ++ [')'])).dropLast = '/' :: inner := by
      have h2 : ('/' :: (inner ++ [')'])) = ('/' :: inner) ++ [')'] := by simp
      rw [h2]
      exact hlast _
    rw [this]
    rw [show req.url.scheme ++ ("://").data ++ req.host ++ ('/' :: inner) =
      cssResolveSpecTable req.url.scheme req.host req.url.path ('/' :: inner) true from by
        simp [cssResolveSpecTable]]
    exact hfin _
  · rintro q hq hb64
    have hdl : ('/' :: (inner ++ [')'])).dropLast = '/' :: inner := by
      have h2 : ('/' :: (inner ++ [')'])) = ('/' :: inner) ++ [')'] := by simp
      rw [h2]
      exact hlast _
    have habs : req.url.scheme ++ ("://").data ++ req.host ++ ('/' :: inner) =
        cssResolveSpecTable req.url.scheme req.host req.url.path ('/' :: inner) true := by
      simp [cssResolveSpecTable]
    rcases hq with rfl | rfl
    · have hm : urlParenLit ++ [sq, '/'] ++ inner ++ [')'] =
          urlParenLit ++ (sq :: ('/' :: (inner ++ [')']))) := by simp
      rw [hm] at hb64 ⊢
      have hA : (urlParenLit ++ [sq] ++ httpPre).isPrefixOf
          (urlParenLit ++ (sq :: ('/' :: (inner ++ [')'])))) = false := by
        rw [List.append_assoc, isPrefixOf_app_app]
        show (sq :: httpPre).isPrefixOf _ = false
        simp only [List.isPrefixOf, beq_self_eq_true, Bool.true_and]
        exact isPrefixOf_head_false (head_cons_ne (by decide) _)
      have hB : (urlParenLit ++ [dq] ++ httpPre).isPrefixOf
          (urlParenLit ++ (sq :: ('/' :: (inner ++ [')'])))) = false := by
        rw [List.append_assoc, isPrefixOf_app_app]
        exact isPrefixOf_head_false (head_cons_ne (by decide) _)
      have hC : (urlParenLit ++ httpPre).isPrefixOf
          (urlParenLit ++ (sq :: ('/' :: (inner ++ [')'])))) = false := by
        rw [isPrefixOf_app_app]
        exact isPrefixOf_head_false (head_cons_ne (by decide) _)
      have hBr1 : (urlParenLit ++ [sq, '/']).isPrefixOf
          (urlParenLit ++ (sq :: ('/' :: (inner ++ [')'])))) = true := by
        rw [isPrefixOf_app_app]
        simp [List.isPrefixOf]
      simp only [cssReplace]
      rw [if_neg (not_bor4 hA hB hC hb64), if_pos (Or.inl hBr1), hdrop5, hdl, habs]
      exact hfin _
    · have hm : urlParenLit ++ [dq, '/'] ++ inner ++ [')'] =
          urlParenLit ++ (dq :: ('/' :: (inner ++ [')']))) := by simp
      rw [hm] at hb64 ⊢
      have hA : (urlParenLit ++ [sq] ++ httpPre).isPrefixOf
          (urlParenLit ++ (dq :: ('/' :: (inner ++ [')'])))) = false := by
        rw [List.append_assoc, isPrefixOf_app_app]
        exact isPrefixOf_head_false (head_cons_ne (by decide) _)
      have hB : (urlParenLit ++ [dq] ++ httpPre).isPrefixOf
          (urlParenLit ++ (dq :: ('/' :: (inner ++ [')'])))) = false := by
        rw [List.append_assoc, isPrefixOf_app_app]
        show (dq :: httpPre).isPrefixOf _ = false
        simp only [List.isPrefixOf, beq_self_eq_true, Bool.true_and]
        exact isPrefixOf_head_false (head_cons_ne (by decide) _)
      have hC : (urlParenLit ++ httpPre).isPrefixOf
          (urlParenLit ++ (dq :: ('/' :: (inner ++ [')'])))) = false := by
        rw [isPrefixOf_app_app]
        exact isPrefixOf_head_false (head_cons_ne (by decide) _)
      have hBr2 : (urlParenLit ++ [dq, '/']).isPrefixOf
          (urlParenLit ++ (dq :: ('/' :: (inner ++ [')'])))) = true := by
        rw [isPrefixOf_app_app]
        simp [List.isPrefixOf]
      simp only [cssReplace]
      rw [if_neg (not_bor4 hA hB hC hb64), if_pos (Or.inr hBr2), hdrop5, hdl, habs]
      exact hfin _
  · intro hs hsq hdq hhttp hb64
    have hm : urlParenLit ++ inner ++ [')'] = urlParenLit ++ (inner ++ [')']) := by simp
    rw [hm] at hb64 ⊢
    have hhead : ∀ c : Char, inner.head? ≠ some c → c ≠ ')' →
        (inner ++ [')']).head? ≠ some c := by
      intro c h1 h2
      cases inner with
      | nil => exact fun hh => h2 (Option.some.inj hh).symm
      | cons x xs => exact fun hh => h1 hh
    have hA : (urlParenLit ++ [sq] ++ httpPre).isPrefixOf
        (urlParenLit ++ (inner ++ [')'])) = false := by
      rw [List.append_assoc, isPrefixOf_app_app]
      exact isPrefixOf_head_false (hhead sq hsq (by decide))
    have hB : (urlParenLit ++ [dq] ++ httpPre).isPrefixOf
        (urlParenLit ++ (inner ++ [')'])) = false := by
      rw [List.append_assoc, isPrefixOf_app_app]
      exact isPrefixOf_head_false (hhead dq hdq (by decide))
    have hC : (urlParenLit ++ httpPre).isPrefixOf
        (urlParenLit ++ (inner ++ [')'])) = false := by
      rw [isPrefixOf_app_app]
      exact isPrefixOf_concat_false hhttp (by decide)
    have hBr1 : (urlParenLit ++ [sq, '/']).isPrefixOf
        (urlParenLit ++ (inner ++ [')'])) = false := by
      rw [isPrefixOf_app_app]
      exact isPrefixOf_head_false (hhead sq hsq (by decide))
    have hBr2 : (urlParenLit ++ [dq, '/']).isPrefixOf
        (urlParenLit ++ (inner ++ [')'])) = false := by
      rw [isPrefixOf_app_app]
      exact isPrefixOf_head_false (hhead dq hdq (by decide))
    have hBr3 : (urlParenLit ++ ['/']).isPrefixOf
        (urlParenLit ++ (inner ++ [')'])) = false := by
      rw [isPrefixOf_app_app]
      exact isPrefixOf_head_false (hhead '/' hs (by decide))
    have hBr4 : (urlParenLit ++ [sq]).isPrefixOf
        (urlParenLit ++ (inner ++ [')'])) = false := by
      rw [isPrefixOf_app_app]
      exact isPrefixOf_head_false (hhead sq hsq (by decide))
    have hBr5 : (urlParenLit ++ [dq]).isPrefixOf
        (urlParenLit ++ (inner ++ [')'])) = false := by
      rw [isPrefixOf_app_app]
      exact isPrefixOf_head_false (hhead dq hdq (by decide))
    simp only [cssReplace]
    rw [if_neg (not_bor4 hA hB hC hb64),
      if_neg (not_bor2 hBr1 hBr2), if_neg (not_bor1 hBr3),
      if_neg (not_bor2 hBr4 hBr5), hdrop4, hlast]
    rw [show req.url.scheme ++ ("://").data ++ req.host ++ req.url.path ++ ['/'] ++ inner =
      cssResolveSpecTable req.url.scheme req.host req.url.path inner false from by
        simp [cssResolveSpecTable]]
    exact hfin _
  · rintro q hq hs hhttp hb64
    have hhead : ∀ c : Char, inner.head? ≠ some c → c ≠ ')' →
        (inner ++ [')']).head? ≠ some c := by
      intro c h1 h2
      cases inner with
      | nil => exact fun hh => h2 (Option.some.inj hh).symm
      | cons x xs => exact fun hh => h1 hh
    have habs : req.url.scheme ++ ("://").data ++ req.host ++ req.url.path ++ ['/'] ++ inner =
        cssResolveSpecTable req.url.scheme req.host req.url.path inner false := by
      simp [cssResolveSpecTable]
    rcases hq with rfl | rfl
    · have hm : urlParenLit ++ [sq] ++ inner ++ [')'] =
          urlParenLit ++ (sq :: (inner ++ [')'])) := by simp
      rw [hm] at hb64 ⊢
      have hA : (urlParenLit ++ [sq] ++ httpPre).isPrefixOf
          (urlParenLit ++ (sq :: (inner ++ [')'])))= false := by
        rw [List.append_assoc, isPrefixOf_app_app]
        show (sq :: httpPre).isPrefixOf _ = false
        simp only [List.isPrefixOf, beq_self_eq_true, Bool.true_and]
        exact isPrefixOf_concat_false hhttp (by decide)
      have hB : (urlParenLit ++ [dq] ++ httpPre).isPrefixOf
          (urlParenLit ++ (sq :: (inner ++ [')'])))= false := by
        rw [List.append_assoc, isPrefixOf_app_app]
        exact isPrefixOf_head_false (head_cons_ne (by decide) _)
      have hC : (urlParenLit ++ httpPre).isPrefixOf
          (urlParenLit ++ (sq :: (inner ++ [')'])))= false := by
        rw [isPrefixOf_app_app]
        exact isPrefixOf_head_false (head_cons_ne (by decide) _)
      have hBr1 : (urlParenLit ++ [sq, '/']).isPrefixOf
          (urlParenLit ++ (sq :: (inner ++ [')'])))= false := by
        rw [isPrefixOf_app_app]
        show (sq :: ['/']).isPrefixOf _ = false
        simp only [List.isPrefixOf, beq_self_eq_true, Bool.true_and]
        exact isPrefixOf_head_false (hhead '/' hs (by decide))
      have hBr2 : (urlParenLit ++ [dq, '/']).isPrefixOf
          (urlParenLit ++ (sq :: (inner ++ [')'])))= false := by
        rw [isPrefixOf_app_app]
        exact isPrefixOf_head_false (head_cons_ne (by decide) _)
      have hBr3 : (urlParenLit ++ ['/']).isPrefixOf
          (urlParenLit ++ (sq :: (inner ++ [')'])))= false := by
        rw [isPrefixOf_app_app]
        exact isPrefixOf_head_false (head_cons_ne (by decide) _)
      have hBr4 : (urlParenLit ++ [sq]).isPrefixOf
          (urlParenLit ++ (sq :: (inner ++ [')'])))= true := by
        rw [isPrefixOf_app_app]
        simp [List.isPrefixOf]
      simp only [cssReplace]
      rw [if_neg (not_bor4 hA hB hC hb64), if_neg (not_bor2 hBr1 hBr2),
        if_neg (not_bor1 hBr3), if_pos (Or.inl hBr4), hdrop5, hlast, habs]
      exact hfin _
    · have hm : urlParenLit ++ [dq] ++ inner ++ [')'] =
          urlParenLit ++ (dq :: (inner ++ [')'])) := by simp
      rw [hm] at hb64 ⊢
      have hA : (urlParenLit ++ [sq] ++ httpPre).isPrefixOf
          (urlParenLit ++ (dq :: (inner ++ [')'])))= false := by
        rw [List.append_assoc, isPrefixOf_app_app]
        exact isPrefixOf_head_false (head_cons_ne (by decide) _)
      have hB : (urlParenLit ++ [dq] ++ httpPre).isPrefixOf
          (urlParenLit ++ (dq :: (inner ++ [')'])))= false := by
        rw [List.append_assoc, isPrefixOf_app_app]
        show (dq :: httpPre).isPrefixOf _ = false
        simp only [List.isPrefixOf, beq_self_eq_true, Bool.true_and]
        exact isPrefixOf_concat_false hhttp (by decide)
      have hC : (urlParenLit ++ httpPre).isPrefixOf
          (urlParenLit ++ (dq :: (inner ++ [')'])))= false := by
        rw [isPrefixOf_app_app]
        exact isPrefixOf_head_false (head_cons_ne (by decide) _)
      have hBr1 : (urlParenLit ++ [sq, '/']).isPrefixOf
          (urlParenLit ++ (dq :: (inner ++ [')'])))= false := by
        rw [isPrefixOf_app_app]
        exact isPrefixOf_head_false (head_cons_ne (by decide) _)
      have hBr2 : (urlParenLit ++ [dq, '/']).isPrefixOf
          (urlParenLit ++ (dq :: (inner ++ [')'])))= false := by
        rw [isPrefixOf_app_app]
        show (dq :: ['/']).isPrefixOf _ = false
        simp only [List.isPrefixOf, beq_self_eq_true, Bool.true_and]
        exact isPrefixOf_head_false (hhead '/' hs (by decide))
      have hBr3 : (urlParenLit ++ ['/']).isPrefixOf
          (urlParenLit ++ (dq :: (inner ++ [')'])))= false := by
        rw [isPrefixOf_app_app]
        exact isPrefixOf_head_false (head_cons_ne (by decide) _)
      have hBr4 : (urlParenLit ++ [sq]).isPrefixOf
          (urlParenLit ++ (dq :: (inner ++ [')'])))= false := by
        rw [isPrefixOf_app_app]
        exact isPrefixOf_head_false (head_cons_ne (by decide) _)
      have hBr5 : (urlParenLit ++ [dq]).isPrefixOf
          (urlParenLit ++ (dq :: (inner ++ [')'])))= true := by
        rw [isPrefixOf_app_app]
        simp [List.isPrefixOf]
      simp only [cssReplace]
      rw [if_neg (not_bor4 hA hB hC hb64), if_neg (not_bor2 hBr1 hBr2),
        if_neg (not_bor1 hBr3), if_pos (Or.inr hBr5), hdrop5, hlast, habs]
      exact hfin _

/-- C9 witness: the spec's scenario 5, url(/img/bg.png) in a text/css body
for the https request to site.test/style.css. -/
theorem c9_css_resolution_witness :
    cssReplace
        { url := { scheme := ("https").data, path := ("/style.css").data },
          host := ("site.test").data, remoteAddr := ("1.2.3.4:5131").data }
        (urlParenLit ++ ['/'] ++ ("img/bg.png").data ++ [')']) =
      cssDowngraded
        { url := { scheme := ("https").data, path := ("/style.css").data },
          host := ("site.test").data, remoteAddr := ("1.2.3.4:5131").data }
        (cssResolveSpecTable (("https").data) (("site.test").data)
          (("/style.css").data) ('/' :: ("img/bg.png").data) true) :=
  (c9_css_resolution
    { url := { scheme := ("https").data, path := ("/style.css").data },
      host := ("site.test").data, remoteAddr := ("1.2.3.4:5131").data }
    (("img/bg.png").data) rfl).1 (by decide)

/-! ### C4: leftover https references in emitted bodies -/

/-- C4 counterexample: the body "see https://a:b!" (Content-Type
text/html, no url( and no base64 anywhere) is emitted unchanged, because
normalizing "http://a:b" fails on the invalid port; the emitted body
still contains a substring matching the forbidden pattern
https://[class]+ outside any CSS-left portion, so the claim as stated is
false. -/
theorem c4_counterexample :
    stripResponse
        { url := {}, host := [], remoteAddr := ("1.2.3.4:5").data }
        { statusCode := 200, header := [(contentTypeLit, [("text/html").data])],
          body := ("see https://a:b!").data } =
      .ok (("see https://a:b!").data, [(contentTypeLit, [("text/html").data])], []) ∧
    containsHttpsRef (("see https://a:b!").data) = true ∧
    containsSub (("url(").data) (("see https://a:b!").data) = false ∧
    containsSub (("base64").data) (("see https://a:b!").data) = false := by
  refine ⟨rfl, by decide, by decide, by decide⟩

/-! ### Character facts -/

theorem char_ne_of_toNat {c d : Char} (h : c.toNat ≠ d.toNat) : c ≠ d :=
  fun hh => h (hh ▸ rfl)

theorem isLowerAZ_range {c : Char} (h : isLowerAZ c = true) :
    97 ≤ c.toNat ∧ c.toNat ≤ 122 := by
  unfold isLowerAZ at h
  rw [Bool.and_eq_true] at h
  exact ⟨of_decide_eq_true h.1, of_decide_eq_true h.2⟩

theorem isUpperAZ_range {c : Char} (h : isUpperAZ c = true) :
    65 ≤ c.toNat ∧ c.toNat ≤ 90 := by
  unfold isUpperAZ at h
  rw [Bool.and_eq_true] at h
  exact ⟨of_decide_eq_true h.1, of_decide_eq_true h.2⟩

theorem isDigitC_range {c : Char} (h : isDigitC c = true) :
    48 ≤ c.toNat ∧ c.toNat ≤ 57 := by
  unfold isDigitC at h
  rw [Bool.and_eq_true] at h
  exact ⟨of_decide_eq_true h.1, of_decide_eq_true h.2⟩

theorem isCTL_false_of_ge {c : Char} (h : 32 ≤ c.toNat) (h2 : c.toNat ≠ 127) :
    isCTL c = false := by
  unfold isCTL
  simp only [Bool.or_eq_false_iff, decide_eq_false_iff_not, not_lt]
  refine ⟨by omega, by simpa using h2⟩

theorem ne_of_class_false {c d : Char} (P : Char → Bool) (h : P c = true)
    (hd : P d = false) : c ≠ d :=
  fun hh => by rw [hh, hd] at h; cases h

theorem schemeTail_range {c : Char}
    (h : (isLowerAZ c || isDigitC c || c == '+' || c == '-' || c == '.') = true) :
    33 ≤ c.toNat ∧ c.toNat ≤ 126 := by
  simp only [Bool.or_eq_true, beq_iff_eq] at h
  iterate 8 (all_goals try (rcases h with h | h))
  all_goals first
    | (have hr2 := isLowerAZ_range h; omega)
    | (have hr2 := isUpperAZ_range h; omega)
    | (have hr2 := isDigitC_range h; omega)
    | (subst h; decide)
    | decide

/-- The clean-character facts for scheme characters: not a control
character and none of the structural delimiters. -/
theorem schemeChar_facts {c : Char}
    (h : (isLowerAZ c || isDigitC c || c == '+' || c == '-' || c == '.') = true) :
    isCTL c = false ∧ c ≠ '#' ∧ c ≠ '?' ∧ c ≠ ':' ∧ c ≠ '/' ∧ c ≠ '*' := by
  have hr := schemeTail_range h
  refine ⟨isCTL_false_of_ge (by omega) (by omega), ?_, ?_, ?_, ?_, ?_⟩ <;>
    exact ne_of_class_false
      (fun x => isLowerAZ x || isDigitC x || x == '+' || x == '-' || x == '.')
      h (by decide)

theorem validUserinfoChar_range {c : Char} (h : validUserinfoChar c = true) :
    33 ≤ c.toNat ∧ c.toNat ≤ 126 := by
  unfold validUserinfoChar isAlphaC at h
  simp only [Bool.or_eq_true, beq_iff_eq] at h
  iterate 25 (all_goals try (rcases h with h | h))
  all_goals first
    | (have hr2 := isLowerAZ_range h; omega)
    | (have hr2 := isUpperAZ_range h; omega)
    | (have hr2 := isDigitC_range h; omega)
    | (subst h; decide)
    | decide

/-- Clean-character facts for userinfo characters. -/
theorem userinfoChar_facts {c : Char} (h : validUserinfoChar c = true) :
    isCTL c = false ∧ c ≠ '#' ∧ c ≠ '?' ∧ c ≠ '/' := by
  have hr := validUserinfoChar_range h
  exact ⟨isCTL_false_of_ge (by omega) (by omega),
    ne_of_class_false validUserinfoChar h (by decide),
    ne_of_class_false validUserinfoChar h (by decide),
    ne_of_class_false validUserinfoChar h (by decide)⟩

theorem validHostChar_range {c : Char} (h : validHostChar c = true) :
    33 ≤ c.toNat ∧ c.toNat ≠ 127 := by
  unfold validHostChar isAlphaC at h
  by_cases h128 : 128 ≤ c.toNat
  · omega
  · rw [if_neg (by simpa using h128)] at h
    simp only [Bool.or_eq_true, beq_iff_eq] at h
    iterate 30 (all_goals try (rcases h with h | h))
    all_goals first
      | (have hr2 := isLowerAZ_range h; omega)
      | (have hr2 := isUpperAZ_range h; omega)
      | (have hr2 := isDigitC_range h; omega)
      | (subst h; decide)
      | decide

/-- Clean-character facts for host characters. -/
theorem hostChar_facts {c : Char} (h : validHostChar c = true) :
    isCTL c = false ∧ c ≠ '#' ∧ c ≠ '?' ∧ c ≠ '/' ∧ c ≠ '@' := by
  have hr := validHostChar_range h
  exact ⟨isCTL_false_of_ge (by omega) (by omega),
    ne_of_class_false validHostChar h (by decide),
    ne_of_class_false validHostChar h (by decide),
    ne_of_class_false validHostChar h (by decide),
    ne_of_class_false validHostChar h (by decide)⟩

/-! ### getScheme and split lemmas -/

theorem getSchemeAux_found {orig acc : Chars} {sc : Chars} (r : Chars)
    (hsc : ∀ x ∈ sc, isSchemeTailChar x = true) (hacc : acc ≠ []) :
    getSchemeAux orig acc (sc ++ ':' :: r) = .ok (acc ++ sc, r) := by
  induction sc generalizing acc with
  | nil =>
    simp only [List.nil_append, getSchemeAux]
    rw [if_neg (by decide), if_neg (by decide), if_pos (by decide),
      if_neg (by simpa [List.isEmpty_iff] using hacc)]
    simp
  | cons x xs ih =>
    have hx := hsc x (by simp)
    simp only [List.cons_append, getSchemeAux, List.append_eq]
    have step : ∀ acc2 : Chars, acc2 ≠ [] →
        getSchemeAux orig acc2 (xs ++ ':' :: r) = .ok (acc2 ++ xs, r) :=
      fun acc2 h2 => ih (fun y hy => hsc y (by simp [hy])) h2
    by_cases hal : isAlphaC x = true
    · rw [if_pos hal]
      rw [step (acc ++ [x]) (by simp)]
      simp
    · rw [if_neg (not_bor1 (by revert hal; cases isAlphaC x <;> simp))]
      have hd : (isDigitC x || x == '+' || x == '-' || x == '.') = true := by
        unfold isSchemeTailChar at hx
        simp only [Bool.or_eq_true] at hx ⊢
        rcases hx with (((h | h) | h) | h) | h
        · exact absurd h hal
        · exact Or.inl (Or.inl (Or.inl h))
        · exact Or.inl (Or.inl (Or.inr h))
        · exact Or.inl (Or.inr h)
        · exact Or.inr h
      rw [if_pos hd, if_neg (by simpa [List.isEmpty_iff] using hacc)]
      rw [step (acc ++ [x]) (by simp)]
      simp

theorem getScheme_found {c : Char} {cs : Chars} (r : Chars) (hc : isAlphaC c = true)
    (hcs : ∀ x ∈ cs, isSchemeTailChar x = true) :
    getScheme ((c :: cs) ++ ':' :: r) = .ok (c :: cs, r) := by
  unfold getScheme
  simp only [List.cons_append, getSchemeAux, List.append_eq]
  rw [if_pos hc]
  rw [getSchemeAux_found r hcs (by simp)]
  simp

theorem getScheme_none_of_head {c : Char} (cs : Chars) (h1 : isAlphaC c = false)
    (h2 : (c == ':') = false) : getScheme (c :: cs) = .ok ([], c :: cs) := by
  unfold getScheme getSchemeAux
  rw [if_neg (not_bor1 h1)]
  split
  · rw [if_pos (by decide)]
  · rw [if_neg (not_bor1 h2)]

theorem getSchemeAux_none_run {orig : Chars} :
    ∀ (rem : Chars) (acc : Chars), acc ≠ [] →
      (rem.dropWhile isSchemeTailChar).head? ≠ some ':' →
      getSchemeAux orig acc rem = .ok ([], orig) := by
  intro rem
  induction rem with
  | nil => intro acc hacc hh; rfl
  | cons d ds ih =>
    intro acc hacc hh
    by_cases hd : isSchemeTailChar d = true
    · rw [List.dropWhile_cons, if_pos hd] at hh
      unfold getSchemeAux
      unfold isSchemeTailChar at hd
      simp only [Bool.or_eq_true] at hd
      by_cases hal : isAlphaC d = true
      · rw [if_pos hal]
        exact ih _ (by simp) hh
      · rw [if_neg (not_bor1 (by revert hal; cases isAlphaC d <;> simp))]
        have : (isDigitC d || d == '+' || d == '-' || d == '.') = true := by
          simp only [Bool.or_eq_true]
          rcases hd with (((h | h) | h) | h) | h
          · exact absurd h hal
          · exact Or.inl (Or.inl (Or.inl h))
          · exact Or.inl (Or.inl (Or.inr h))
          · exact Or.inl (Or.inr h)
          · exact Or.inr h
        rw [if_pos this, if_neg (by simpa [List.isEmpty_iff] using hacc)]
        exact ih _ (by simp) hh
    · rw [List.dropWhile_cons, if_neg hd] at hh
      simp only [List.head?_cons] at hh
      have hne : (d == ':') = false := by
        refine beq_eq_false_iff_ne.mpr (fun hh2 => hh ?_)
        rw [hh2]
      unfold getSchemeAux
      rw [if_neg (not_bor1 (by
        revert hd
        unfold isSchemeTailChar isAlphaC
        cases isLowerAZ d <;> cases isUpperAZ d <;> simp))]
      rw [if_neg (not_bor1 (by
        revert hd
        unfold isSchemeTailChar isAlphaC
        cases isDigitC d <;> cases d == '+' <;> cases d == '-' <;> cases d == '.' <;> simp))]
      rw [if_neg (not_bor1 hne)]

theorem getScheme_none_run {c : Char} {cs : Chars} (hc : isSchemeTailChar c = true)
    (hh : ((c :: cs).dropWhile isSchemeTailChar).head? ≠ some ':') :
    getScheme (c :: cs) = .ok ([], c :: cs) := by
  rw [List.dropWhile_cons, if_pos hc] at hh
  unfold getScheme getSchemeAux
  unfold isSchemeTailChar at hc
  simp only [Bool.or_eq_true] at hc
  by_cases hal : isAlphaC c = true
  · rw [if_pos hal]
    exact getSchemeAux_none_run cs _ (by simp) hh
  · rw [if_neg (not_bor1 (by revert hal; cases isAlphaC c <;> simp))]
    have : (isDigitC c || c == '+' || c == '-' || c == '.') = true := by
      simp only [Bool.or_eq_true]
      rcases hc with (((h | h) | h) | h) | h
      · exact absurd h hal
      · exact Or.inl (Or.inl (Or.inl h))
      · exact Or.inl (Or.inl (Or.inr h))
      · exact Or.inl (Or.inr h)
      · exact Or.inr h
    rw [if_pos this, if_pos (by decide)]

theorem splitAtChar_not_mem {sep : Char} (cutc : Bool) {s : Chars}
    (h : ∀ c ∈ s, c ≠ sep) : splitAtChar sep cutc s = (s, []) := by
  unfold splitAtChar
  rw [dropWhile_all (fun c hc => by simpa using h c hc),
    takeWhile_all (fun c hc => by simpa using h c hc)]

theorem splitAtChar_found {sep : Char} (cutc : Bool) {a : Chars} (b : Chars)
    (ha : ∀ c ∈ a, c ≠ sep) :
    splitAtChar sep cutc (a ++ sep :: b) = (a, if cutc then b else sep :: b) := by
  unfold splitAtChar
  rw [dropWhile_append_all _ (fun c hc => by simpa using ha c hc),
    takeWhile_append_all _ (fun c hc => by simpa using ha c hc)]
  rw [List.dropWhile_cons, if_neg (by simp), List.takeWhile_cons, if_neg (by simp)]
  simp

/-! ### Support lemmas for the parse round trip -/

theorem containsSub_single_false {x : Char} {s : Chars} (h : ∀ c ∈ s, c ≠ x) :
    containsSub [x] s = false := by
  induction s with
  | nil => rfl
  | cons c cs ih =>
    simp only [containsSub, Bool.or_eq_false_iff]
    refine ⟨?_, ih (fun d hd => h d (by simp [hd]))⟩
    simp only [List.isPrefixOf, Bool.and_eq_false_iff]
    exact Or.inl (beq_eq_false_iff_ne.mpr (fun hh => h c (by simp) hh.symm))

theorem containsSub_single_at {x : Char} (a b : Chars) :
    containsSub [x] (a ++ x :: b) = true := by
  refine containsSub_iff.mpr ⟨a.length, ?_⟩
  rw [List.drop_left]
  simp [List.isPrefixOf]

theorem lastIndexOfSub_single_none {x : Char} {s : Chars} (h : ∀ c ∈ s, c ≠ x) :
    lastIndexOfSub [x] s = none := by
  cases hl : lastIndexOfSub [x] s with
  | none => rfl
  | some i =>
    have hp := lastIndexOfSub_some_prefix hl
    rcases prefix_of_isPrefixOf hp with ⟨t, ht⟩
    have hx : x ∈ s := by
      have : x ∈ s.drop i := by rw [ht]; simp
      exact List.mem_of_mem_drop this
    exact absurd rfl (h x hx)

theorem lastIndexOfSub_single_found {x : Char} (a : Chars) {b : Chars}
    (h : ∀ c ∈ b, c ≠ x) : lastIndexOfSub [x] (a ++ x :: b) = some a.length := by
  induction a with
  | nil =>
    simp only [List.nil_append, lastIndexOfSub, lastIndexOfSub_single_none h]
    rw [if_pos (by simp [List.isPrefixOf])]
    rfl
  | cons c cs ih =>
    simp only [List.cons_append, lastIndexOfSub, List.append_eq, ih]
    rfl

theorem parseAuthority_recon_none {host : Chars} (hhost : parseHost host = .ok host)
    (hat : ∀ c ∈ host, c ≠ '@') : parseAuthority host = .ok (none, host) := by
  unfold parseAuthority
  rw [lastIndexOfSub_single_none hat, hhost]

theorem parseAuthority_recon_some {ui host : Chars} (hhost : parseHost host = .ok host)
    (hui : validUserinfo ui = true) (hat : ∀ c ∈ host, c ≠ '@') :
    parseAuthority (ui ++ '@' :: host) = .ok (some ui, host) := by
  unfold parseAuthority
  rw [lastIndexOfSub_single_found ui hat]
  dsimp only
  rw [show (ui ++ '@' :: host).drop (ui.length + 1) = host from by
    have h2 : ui ++ '@' :: host = (ui ++ ['@']) ++ host := by simp
    rw [h2, show ui.length + 1 = (ui ++ ['@']).length from by simp]
    exact List.drop_left _ _]
  rw [hhost]
  rw [show (ui ++ '@' :: host).take ui.length = ui from List.take_left ui _]
  dsimp only
  rw [if_pos hui]

theorem mem_of_getLast?_eq : ∀ {s : Chars} {d : Char}, s.getLast? = some d → d ∈ s := by
  intro s
  induction s with
  | nil => intro d h; cases h
  | cons c cs ih =>
    intro d h
    cases cs with
    | nil =>
      simp only [List.getLast?_singleton, Option.some.injEq] at h
      simp [h]
    | cons e es =>
      rw [List.getLast?_cons_cons] at h
      exact List.mem_cons_of_mem c (ih h)

theorem getLast?_concat_char (s : Chars) (x : Char) :
    (s ++ [x]).getLast? = some x := by
  induction s with
  | nil => rfl
  | cons c cs ih =>
    cases cs with
    | nil => rfl
    | cons e es =>
      show (c :: e :: (es ++ [x])).getLast? = some x
      rw [List.getLast?_cons_cons]
      exact ih

theorem dropLast_append_ne {a b : Chars} (hb : b ≠ []) :
    (a ++ b).dropLast = a ++ b.dropLast := by
  induction a with
  | nil => rfl
  | cons c cs ih =>
    rw [List.cons_append, List.dropLast_cons_of_ne_nil (by simp [hb]), ih,
      List.cons_append]

theorem query_split_shape (main rq : Chars) (fq : Bool)
    (hmain : ∀ c ∈ main, c ≠ '?') (hfq : fq = true → rq = []) :
    (if (main ++ (if fq = true ∨ rq ≠ [] then '?' :: rq else [])).getLast? = some '?' ∧
        ¬ containsSub (['?'])
          (main ++ (if fq = true ∨ rq ≠ [] then '?' :: rq else [])).dropLast then
      ((main ++ (if fq = true ∨ rq ≠ [] then '?' :: rq else [])).dropLast, true, ([] : Chars))
    else
      ((splitAtChar '?' true (main ++ (if fq = true ∨ rq ≠ [] then '?' :: rq else []))).1,
        false,
        (splitAtChar '?' true (main ++ (if fq = true ∨ rq ≠ [] then '?' :: rq else []))).2)) =
    (main, fq, rq) := by
  by_cases hf : fq = true
  · have hrq := hfq hf
    subst hrq
    rw [if_pos (Or.inl hf)]
    rw [if_pos ⟨getLast?_concat_char main '?',
      by rw [show (main ++ ['?']).dropLast = main from List.dropLast_concat,
        containsSub_single_false hmain]; simp⟩]
    rw [show (main ++ ['?']).dropLast = main from List.dropLast_concat]
    rw [hf]
  · have hf' : fq = false := by revert hf; cases fq <;> simp
    subst hf'
    by_cases hr : rq = []
    · subst hr
      rw [if_neg (show ¬ (false = true ∨ ([] : Chars) ≠ []) from by simp)]
      simp only [List.append_nil]
      have hnc : ¬ (main.getLast? = some '?' ∧
          ¬ containsSub (['?']) main.dropLast = true) :=
        fun hc => hmain _ (mem_of_getLast?_eq hc.1) rfl
      rw [if_neg hnc]
      rw [splitAtChar_not_mem true hmain]
    · rw [if_pos (Or.inr hr)]
      rw [if_neg (fun hc => hc.2 (by
        rw [dropLast_append_ne (by simp), List.dropLast_cons_of_ne_nil hr]
        exact containsSub_single_at main rq.dropLast))]
      rw [splitAtChar_found true rq hmain]
      rfl

theorem any_eq_false_of {p : Char → Bool} :
    ∀ {l : Chars}, (∀ c ∈ l, p c = false) → l.any p = false := by
  intro l
  induction l with
  | nil => intro h; rfl
  | cons c cs ih =>
    intro h
    simp only [List.any_cons, Bool.or_eq_false_iff]
    exact ⟨h c (by simp), ih (fun d hd => h d (by simp [hd]))⟩

theorem isUpperAZ_false {c : Char} (h : c.toNat < 65 ∨ 90 < c.toNat) :
    isUpperAZ c = false := by
  unfold isUpperAZ
  simp only [Bool.and_eq_false_iff, decide_eq_false_iff_not]
  rcases h with h | h
  · exact Or.inl (fun hle => absurd (show (65 : Nat) ≤ c.toNat from hle) (by omega))
  · exact Or.inr (fun hle => absurd (show c.toNat ≤ 90 from hle) (by omega))

theorem schemeClass_upper_false {c : Char}
    (h : (isLowerAZ c || isDigitC c || c == '+' || c == '-' || c == '.') = true) :
    isUpperAZ c = false := by
  simp only [Bool.or_eq_true, beq_iff_eq] at h
  rcases h with (((h1 | h1) | h1) | h1) | h1
  · exact isUpperAZ_false (Or.inr (by have := isLowerAZ_range h1; omega))
  · exact isUpperAZ_false (Or.inl (by have := isDigitC_range h1; omega))
  · subst h1; decide
  · subst h1; decide
  · subst h1; decide

theorem toLowerS_fixed {s : Chars}
    (h : ∀ c ∈ s, (isLowerAZ c || isDigitC c || c == '+' || c == '-' || c == '.') = true) :
    toLowerS s = s := by
  unfold toLowerS
  induction s with
  | nil => rfl
  | cons c cs ih =>
    simp only [List.map_cons]
    rw [show toLowerC c = c from by
      unfold toLowerC; rw [schemeClass_upper_false (h c (by simp))]; simp]
    rw [ih (fun d hd => h d (by simp [hd]))]

theorem schemeClass_tail {c : Char}
    (h : (isLowerAZ c || isDigitC c || c == '+' || c == '-' || c == '.') = true) :
    isSchemeTailChar c = true := by
  unfold isSchemeTailChar isAlphaC
  simp only [Bool.or_eq_true] at h ⊢
  rcases h with (((h1 | h1) | h1) | h1) | h1
  · exact Or.inl (Or.inl (Or.inl (Or.inl (Or.inl h1))))
  · exact Or.inl (Or.inl (Or.inl (Or.inr h1)))
  · exact Or.inl (Or.inl (Or.inr h1))
  · exact Or.inl (Or.inr h1)
  · exact Or.inr h1

theorem parseHost_ok_chars {host h2 : Chars} (h : parseHost host = .ok h2) :
    (host.all validHostChar && validHostEscapes host) = true := by
  unfold parseHost at h
  dsimp only at h
  by_cases hc : (host.all validHostChar && validHostEscapes host) = true
  · exact hc
  · exfalso
    rw [if_neg hc] at h
    by_cases hbr : (['[']).isPrefixOf host = true
    · rw [if_pos hbr] at h
      cases hli : lastIndexOfSub ([']']) host with
      | none => rw [hli] at h; exact Except.noConfusion h
      | some i =>
        rw [hli] at h
        dsimp only at h
        by_cases hvp : validOptionalPort (host.drop (i + 1)) = true
        · rw [if_pos hvp] at h; exact Except.noConfusion h
        · rw [if_neg hvp] at h; exact Except.noConfusion h
    · rw [if_neg hbr] at h
      cases hli : lastIndexOfSub ([':']) host with
      | some i =>
        rw [hli] at h
        dsimp only at h
        by_cases hvp : validOptionalPort (host.drop i) = true
        · rw [if_pos hvp] at h; exact Except.noConfusion h
        · rw [if_neg hvp] at h; exact Except.noConfusion h
      | none => rw [hli] at h; exact Except.noConfusion h

theorem wf_scheme_chars {u : URL} (hwf : WF u) :
    ∀ c ∈ u.scheme,
      (isLowerAZ c || isDigitC c || c == '+' || c == '-' || c == '.') = true := by
  rcases hwf.scheme_ok with h | ⟨c0, cs, heq, hc0, hcs⟩
  · rw [h]; intro c hc; cases hc
  · rw [heq]
    intro c hc
    rcases List.mem_cons.mp hc with rfl | hc
    · simp [hc0]
    · exact hcs c hc

theorem wf_host_chars {u : URL} (hwf : WF u) :
    ∀ c ∈ u.host, validHostChar c = true := by
  have h := parseHost_ok_chars hwf.host_ok
  rw [Bool.and_eq_true] at h
  exact fun c hc => List.all_eq_true.mp h.1 c hc

theorem validUserinfo_chars {ui : Chars} (h : validUserinfo ui = true) :
    ∀ c ∈ ui, validUserinfoChar c = true := by
  unfold validUserinfo at h
  rw [Bool.and_eq_true] at h
  exact fun c hc => List.all_eq_true.mp h.1 c hc

theorem qp_facts {fq : Bool} {rq : Chars} (h : ∀ c ∈ rq, isCTL c = false ∧ c ≠ '#') :
    ∀ c ∈ (if fq = true ∨ rq ≠ [] then '?' :: rq else []),
      isCTL c = false ∧ c ≠ '#' := by
  split
  · intro c hc
    rcases List.mem_cons.mp hc with rfl | hc
    · exact ⟨by decide, by decide⟩
    · exact h c hc
  · intro c hc; cases hc

theorem ne_star_of_head {c : Char} {t : Chars} (h : c ≠ '*') : c :: t ≠ ['*'] := by
  intro he
  injection he with h1 h2
  exact h h1

theorem schemeTailChar_facts {c : Char} (h : isSchemeTailChar c = true) :
    c ≠ '/' ∧ c ≠ ':' ∧ c ≠ '?' ∧ c ≠ '#' := by
  unfold isSchemeTailChar isAlphaC at h
  simp only [Bool.or_eq_true, beq_iff_eq] at h
  refine ⟨?_, ?_, ?_, ?_⟩ <;>
    (rcases h with ((((h | h) | h) | h) | h) | h
     <;> first
      | exact ne_of_class_false isLowerAZ h (by decide)
      | exact ne_of_class_false isUpperAZ h (by decide)
      | exact ne_of_class_false isDigitC h (by decide)
      | (subst h; decide))

theorem takeWhile_slash_stop {path : Chars} (h : path = [] ∨ path.head? = some '/') :
    path.takeWhile (fun c => c != '/') = [] := by
  rcases h with h | h
  · rw [h]; rfl
  · cases path with
    | nil => rfl
    | cons c t =>
      simp only [List.head?_cons, Option.some.injEq] at h
      subst h
      rw [List.takeWhile_cons, if_neg (by simp)]

theorem dropWhile_slash_stop {path : Chars} (h : path = [] ∨ path.head? = some '/') :
    path.dropWhile (fun c => c != '/') = path := by
  rcases h with h | h
  · rw [h]; rfl
  · cases path with
    | nil => rfl
    | cons c t =>
      simp only [List.head?_cons, Option.some.injEq] at h
      subst h
      rw [List.dropWhile_cons, if_neg (by simp)]

theorem dropWhile_scan_stop {qp : Chars}
    (hqp : qp = [] ∨ ∃ t, qp = '?' :: t) :
    ∀ {main : Chars}, containsSub ([':']) (firstSegment main) = false →
      ((main ++ qp).dropWhile isSchemeTailChar).head? ≠ some ':' := by
  intro main
  induction main with
  | nil =>
    intro _
    rcases hqp with h | ⟨t, h⟩ <;> subst h
    · simp
    · rw [List.nil_append, List.dropWhile_cons, if_neg (by decide)]
      simp
  | cons c cs ih =>
    intro hseg
    by_cases hc : isSchemeTailChar c = true
    · rw [List.cons_append, List.dropWhile_cons, if_pos hc]
      have hslash : (c != '/') = true := by
        simp only [bne_iff_ne]
        exact (schemeTailChar_facts hc).1
      unfold firstSegment at hseg
      rw [List.takeWhile_cons, if_pos hslash] at hseg
      unfold containsSub at hseg
      rw [Bool.or_eq_false_iff] at hseg
      exact ih hseg.2
    · rw [List.cons_append, List.dropWhile_cons, if_neg hc]
      simp only [List.head?_cons, ne_eq, Option.some.injEq]
      intro he
      subst he
      unfold firstSegment at hseg
      rw [List.takeWhile_cons, if_pos (by decide)] at hseg
      unfold containsSub at hseg
      rw [Bool.or_eq_false_iff] at hseg
      have := hseg.1
      simp [List.isPrefixOf] at this

theorem parseAfterQuery_auth_eval {scheme : Chars} {A path : Chars}
    {user : Option Chars} {host : Chars} (fq : Bool) (rq : Chars)
    (hA : ∀ c ∈ A, (c != '/') = true)
    (hauth : parseAuthority A = .ok (user, host))
    (hpath : path = [] ∨ path.head? = some '/')
    (hesc : validEscapes path = true)
    (h3 : scheme ≠ [] ∨ (['/', '/', '/']).isPrefixOf ('/' :: '/' :: (A ++ path)) = false) :
    parseAfterQuery scheme ('/' :: '/' :: (A ++ path)) fq rq =
      .ok { scheme := scheme, user := user, host := host, path := path,
            forceQuery := fq, rawQuery := rq } := by
  unfold parseAfterQuery
  rw [if_neg (fun hcond => hcond.1 (by simp [List.isPrefixOf]))]
  rw [if_neg (fun hcond => hcond.1 (by simp [List.isPrefixOf]))]
  rw [if_pos ⟨by
      rcases h3 with h3 | h3
      · exact Or.inl h3
      · exact Or.inr (not_bor1 h3),
    by simp [List.isPrefixOf]⟩]
  rw [show ('/' :: '/' :: (A ++ path)).drop 2 = A ++ path from rfl]
  rw [takeWhile_append_all path hA, takeWhile_slash_stop hpath, List.append_nil]
  rw [hauth]
  dsimp only
  rw [dropWhile_append_all path hA, dropWhile_slash_stop hpath]
  rw [if_pos hesc]

theorem isPrefixOf_single_head {c : Char} {s : Chars} (h : s.head? = some c) :
    ([c]).isPrefixOf s = true := by
  cases s with
  | nil => cases h
  | cons d t =>
    simp only [List.head?_cons, Option.some.injEq] at h
    subst h
    simp [List.isPrefixOf]

theorem append_eq_singleton_cases {a b : Chars} {x : Char} (h : a ++ b = [x]) :
    (a = [] ∧ b = [x]) ∨ (a = [x] ∧ b = []) := by
  cases a with
  | nil => exact Or.inl ⟨rfl, h⟩
  | cons c t =>
    rw [List.cons_append] at h
    injection h with h1 h2
    rcases List.append_eq_nil.mp h2 with ⟨h3, h4⟩
    subst h1 h3 h4
    exact Or.inr ⟨rfl, rfl⟩

theorem getScheme_rootless {path qp : Chars}
    (hqp : qp = [] ∨ ∃ t, qp = '?' :: t)
    (hroot : containsSub ([':']) (firstSegment path) = false) :
    getScheme (path ++ qp) = .ok ([], path ++ qp) := by
  cases path with
  | nil =>
    rcases hqp with h | ⟨t, h⟩ <;> subst h
    · rfl
    · exact getScheme_none_of_head t (by decide) (by decide)
  | cons c cs =>
    by_cases hc : isSchemeTailChar c = true
    · exact getScheme_none_run hc (dropWhile_scan_stop hqp hroot)
    · have hcol : (c == ':') = false := by
        refine beq_eq_false_iff_ne.mpr (fun he => ?_)
        subst he
        unfold firstSegment at hroot
        rw [List.takeWhile_cons, if_pos (by decide)] at hroot
        unfold containsSub at hroot
        rw [Bool.or_eq_false_iff] at hroot
        have := hroot.1
        simp [List.isPrefixOf] at this
      have hal : isAlphaC c = false := by
        revert hc
        unfold isSchemeTailChar
        cases isAlphaC c <;> simp
      exact getScheme_none_of_head _ hal hcol

theorem parsePart_decomp {s : Chars} (hctl : s.any isCTL = false) (hstar : s ≠ ['*'])
    {sc rest0 : Chars} (hgs : getScheme s = .ok (sc, rest0))
    {main : Chars} {fq : Bool} {rq : Chars}
    (hq : (if rest0.getLast? = some '?' ∧ ¬ containsSub (['?']) rest0.dropLast then
        (rest0.dropLast, true, ([] : Chars))
      else
        ((splitAtChar '?' true rest0).1, false, (splitAtChar '?' true rest0).2)) =
      (main, fq, rq)) :
    parsePart s = parseAfterQuery (toLowerS sc) main fq rq := by
  unfold parsePart
  rw [hctl, if_neg (show ¬ (false = true) from by simp), if_neg hstar, hgs]
  dsimp only
  rw [hq]
  rfl


theorem parsePart_scheme_auth {c0 : Char} {cs A path rq : Chars}
    {user : Option Chars} {host : Chars} {fq : Bool}
    (hc0 : isLowerAZ c0 = true)
    (hcs : ∀ x ∈ cs, (isLowerAZ x || isDigitC x || x == '+' || x == '-' || x == '.') = true)
    (hAF : ∀ c ∈ A, isCTL c = false ∧ c ≠ '#' ∧ c ≠ '?' ∧ c ≠ '/')
    (hpathF : ∀ c ∈ path, isCTL c = false ∧ c ≠ '#' ∧ c ≠ '?')
    (hqF : ∀ c ∈ rq, isCTL c = false ∧ c ≠ '#')
    (hfq : fq = true → rq = [])
    (hauth : parseAuthority A = .ok (user, host))
    (hpth : path = [] ∨ path.head? = some '/')
    (hesc : validEscapes path = true) :
    parsePart ((c0 :: cs) ++ ':' :: (('/' :: '/' :: (A ++ path)) ++
        (if fq = true ∨ rq ≠ [] then '?' :: rq else []))) =
      .ok { scheme := c0 :: cs, user := user, host := host, path := path,
            forceQuery := fq, rawQuery := rq } ∧
    ∀ c ∈ (c0 :: cs) ++ ':' :: (('/' :: '/' :: (A ++ path)) ++
        (if fq = true ∨ rq ≠ [] then '?' :: rq else [])), c ≠ '#' := by
  have hscls : ∀ c ∈ c0 :: cs,
      (isLowerAZ c || isDigitC c || c == '+' || c == '-' || c == '.') = true :=
    List.forall_mem_cons.mpr ⟨by simp [hc0], hcs⟩
  have hschemeF : ∀ c ∈ c0 :: cs,
      isCTL c = false ∧ c ≠ '#' ∧ c ≠ '?' ∧ c ≠ ':' ∧ c ≠ '/' ∧ c ≠ '*' :=
    fun c hc => schemeChar_facts (hscls c hc)
  have hqpF := @qp_facts fq _ hqF
  have hmainF : ∀ c ∈ '/' :: '/' :: (A ++ path), isCTL c = false ∧ c ≠ '#' ∧ c ≠ '?' := by
    refine List.forall_mem_cons.mpr ⟨⟨by decide, by decide, by decide⟩, ?_⟩
    refine List.forall_mem_cons.mpr ⟨⟨by decide, by decide, by decide⟩, ?_⟩
    exact List.forall_mem_append.mpr
      ⟨fun c hc => ⟨(hAF c hc).1, (hAF c hc).2.1, (hAF c hc).2.2.1⟩, hpathF⟩
  have hcleanALL : ∀ c ∈ (c0 :: cs) ++ ':' :: (('/' :: '/' :: (A ++ path)) ++
      (if fq = true ∨ rq ≠ [] then '?' :: rq else [])),
      isCTL c = false ∧ c ≠ '#' := by
    refine List.forall_mem_append.mpr
      ⟨fun c hc => ⟨(hschemeF c hc).1, (hschemeF c hc).2.1⟩, ?_⟩
    refine List.forall_mem_cons.mpr ⟨⟨by decide, by decide⟩, ?_⟩
    exact List.forall_mem_append.mpr
      ⟨fun c hc => ⟨(hmainF c hc).1, (hmainF c hc).2.1⟩, hqpF⟩
  have hctl := any_eq_false_of (fun c hc => (hcleanALL c hc).1)
  have hstar : ((c0 :: cs) ++ ':' :: (('/' :: '/' :: (A ++ path)) ++
      (if fq = true ∨ rq ≠ [] then '?' :: rq else []))) ≠ ['*'] :=
    ne_star_of_head (hschemeF c0 (by simp)).2.2.2.2.2
  have hgs := getScheme_found
    (('/' :: '/' :: (A ++ path)) ++ (if fq = true ∨ rq ≠ [] then '?' :: rq else []))
    (show isAlphaC c0 = true from by simp [isAlphaC, hc0])
    (fun x hx => schemeClass_tail (hcs x hx))
  have hq := query_split_shape ('/' :: '/' :: (A ++ path)) rq fq
    (fun c hc => (hmainF c hc).2.2) hfq
  refine ⟨?_, fun c hc => (hcleanALL c hc).2⟩
  rw [parsePart_decomp hctl hstar hgs hq, toLowerS_fixed hscls]
  exact parseAfterQuery_auth_eval fq rq
    (fun c hc => bne_iff_ne.mpr (hAF c hc).2.2.2)
    hauth hpth hesc (Or.inl (by simp))

theorem parsePart_plain_auth {A path rq : Chars}
    {user : Option Chars} {host : Chars} {fq : Bool}
    (hAF : ∀ c ∈ A, isCTL c = false ∧ c ≠ '#' ∧ c ≠ '?' ∧ c ≠ '/')
    (hpathF : ∀ c ∈ path, isCTL c = false ∧ c ≠ '#' ∧ c ≠ '?')
    (hqF : ∀ c ∈ rq, isCTL c = false ∧ c ≠ '#')
    (hfq : fq = true → rq = [])
    (hauth : parseAuthority A = .ok (user, host))
    (hpth : path = [] ∨ path.head? = some '/')
    (hesc : validEscapes path = true)
    (hA0 : (A ++ path).head? ≠ some '/') :
    parsePart (('/' :: '/' :: (A ++ path)) ++
        (if fq = true ∨ rq ≠ [] then '?' :: rq else [])) =
      .ok { scheme := [], user := user, host := host, path := path,
            forceQuery := fq, rawQuery := rq } ∧
    ∀ c ∈ ('/' :: '/' :: (A ++ path)) ++
        (if fq = true ∨ rq ≠ [] then '?' :: rq else []), c ≠ '#' := by
  have hqpF := @qp_facts fq _ hqF
  have hmainF : ∀ c ∈ '/' :: '/' :: (A ++ path), isCTL c = false ∧ c ≠ '#' ∧ c ≠ '?' := by
    refine List.forall_mem_cons.mpr ⟨⟨by decide, by decide, by decide⟩, ?_⟩
    refine List.forall_mem_cons.mpr ⟨⟨by decide, by decide, by decide⟩, ?_⟩
    exact List.forall_mem_append.mpr
      ⟨fun c hc => ⟨(hAF c hc).1, (hAF c hc).2.1, (hAF c hc).2.2.1⟩, hpathF⟩
  have hcleanALL : ∀ c ∈ ('/' :: '/' :: (A ++ path)) ++
      (if fq = true ∨ rq ≠ [] then '?' :: rq else []),
      isCTL c = false ∧ c ≠ '#' :=
    List.forall_mem_append.mpr
      ⟨fun c hc => ⟨(hmainF c hc).1, (hmainF c hc).2.1⟩, hqpF⟩
  have hctl := any_eq_false_of (fun c hc => (hcleanALL c hc).1)
  have hstar : (('/' :: '/' :: (A ++ path)) ++
      (if fq = true ∨ rq ≠ [] then '?' :: rq else [])) ≠ ['*'] :=
    ne_star_of_head (by decide)
  have hgs : getScheme (('/' :: '/' :: (A ++ path)) ++
      (if fq = true ∨ rq ≠ [] then '?' :: rq else [])) =
      .ok ([], ('/' :: '/' :: (A ++ path)) ++
        (if fq = true ∨ rq ≠ [] then '?' :: rq else [])) :=
    getScheme_none_of_head _ (by decide) (by decide)
  have hq := query_split_shape ('/' :: '/' :: (A ++ path)) rq fq
    (fun c hc => (hmainF c hc).2.2) hfq
  refine ⟨?_, fun c hc => (hcleanALL c hc).2⟩
  rw [parsePart_decomp hctl hstar hgs hq,
    show toLowerS [] = [] from rfl]
  exact parseAfterQuery_auth_eval fq rq
    (fun c hc => bne_iff_ne.mpr (hAF c hc).2.2.2)
    hauth hpth hesc
    (Or.inr (by
      rw [show (['/', '/', '/']).isPrefixOf ('/' :: '/' :: (A ++ path)) =
        (['/']).isPrefixOf (A ++ path) from by simp [List.isPrefixOf]]
      exact isPrefixOf_head_false hA0))

theorem parsePart_urlString {u : URL} (hwf : WF u) (hfrag : u.fragment = []) :
    parsePart (urlString u) = .ok (eraseOpqPath u) ∧ ∀ c ∈ urlString u, c ≠ '#' := by
  obtain ⟨sc, opq, user, host, path, omt, fq, rq, frag⟩ := u
  have hfrag' : frag = [] := hfrag
  subst hfrag'
  have hqF : ∀ c ∈ rq, isCTL c = false ∧ c ≠ '#' := hwf.query_clean
  have hfq : fq = true → rq = [] := hwf.fq_ok
  have hqpF := @qp_facts fq _ hqF
  by_cases hopq : opq = []
  · subst hopq
    by_cases homit : omt = true
    · -- omitted-host case
      obtain ⟨hscne, hh, hu, _, hphead, hpnp⟩ := hwf.omit_ok homit
      have hh' : host = [] := hh
      have hu' : user = none := hu
      have hom' : omt = true := homit
      subst hh' hu' hom'
      rcases hwf.scheme_ok with hbad | ⟨c0, cs, hsceq, hc0, hcs⟩
      · exact absurd hbad hscne
      have hsceq' : sc = c0 :: cs := hsceq
      subst hsceq'
      have ht0 : urlString ⟨c0 :: cs, [], none, [], path, true, fq, rq, []⟩ =
          (c0 :: cs) ++ ':' ::
            (path ++ (if fq = true ∨ rq ≠ [] then '?' :: rq else [])) := by
        simp [urlString]
      have hschemeF : ∀ c ∈ c0 :: cs,
          isCTL c = false ∧ c ≠ '#' ∧ c ≠ '?' ∧ c ≠ ':' ∧ c ≠ '/' ∧ c ≠ '*' :=
        fun c hc => schemeChar_facts (wf_scheme_chars hwf c hc)
      have hpathF : ∀ c ∈ path, isCTL c = false ∧ c ≠ '#' ∧ c ≠ '?' := hwf.path_clean
      have hcleanALL : ∀ c ∈ (c0 :: cs) ++ ':' ::
          (path ++ (if fq = true ∨ rq ≠ [] then '?' :: rq else [])),
          isCTL c = false ∧ c ≠ '#' := by
        refine List.forall_mem_append.mpr
          ⟨fun c hc => ⟨(hschemeF c hc).1, (hschemeF c hc).2.1⟩, ?_⟩
        refine List.forall_mem_cons.mpr ⟨⟨by decide, by decide⟩, ?_⟩
        exact List.forall_mem_append.mpr
          ⟨fun c hc => ⟨(hpathF c hc).1, (hpathF c hc).2.1⟩, hqpF⟩
      have hctl := any_eq_false_of (fun c hc => (hcleanALL c hc).1)
      have hstar : ((c0 :: cs) ++ ':' ::
          (path ++ (if fq = true ∨ rq ≠ [] then '?' :: rq else []))) ≠ ['*'] :=
        ne_star_of_head (hschemeF c0 (by simp)).2.2.2.2.2
      have hgs := getScheme_found
        (path ++ (if fq = true ∨ rq ≠ [] then '?' :: rq else []))
        (show isAlphaC c0 = true from by simp [isAlphaC, hc0])
        (fun x hx => schemeClass_tail (hcs x hx))
      have hq := query_split_shape path rq fq (fun c hc => (hpathF c hc).2.2) hfq
      have hpre : (['/']).isPrefixOf path = true := isPrefixOf_single_head hphead
      constructor
      · rw [ht0, parsePart_decomp hctl hstar hgs hq,
          toLowerS_fixed (wf_scheme_chars hwf)]
        unfold parseAfterQuery
        rw [if_neg (fun hcond => hcond.1 hpre)]
        rw [if_neg (fun hcond => hcond.1 hpre)]
        rw [if_neg (fun hcond => (not_bor1 hpnp) hcond.2)]
        rw [if_pos hwf.path_esc]
        rw [show (decide ((c0 :: cs) ≠ []) && (['/']).isPrefixOf path) = true from by
          rw [hpre]; simp]
        unfold eraseOpqPath
        rw [if_pos rfl]
      · rw [ht0]
        exact fun c hc => (hcleanALL c hc).2
    · have hom' : omt = false := by revert homit; cases omt <;> simp
      subst hom'
      by_cases hsc : sc = []
      · have hsc' : sc = [] := hsc
        subst hsc'
        by_cases hhu : host = [] ∧ user = none
        · obtain ⟨hh, hu⟩ := hhu
          have hh' : host = [] := hh
          have hu' : user = none := hu
          subst hh' hu'
          have hroot : containsSub ([':']) (firstSegment path) = false :=
            hwf.path_rootless ⟨rfl, rfl, rfl⟩
          have hdsl : (['/', '/']).isPrefixOf path = true →
              (['/', '/', '/']).isPrefixOf path = true :=
            hwf.path_dslash ⟨rfl, rfl, rfl⟩
          have hpathF : ∀ c ∈ path, isCTL c = false ∧ c ≠ '#' ∧ c ≠ '?' := hwf.path_clean
          have ht0 : urlString ⟨[], [], none, [], path, false, fq, rq, []⟩ =
              path ++ (if fq = true ∨ rq ≠ [] then '?' :: rq else []) := by
            simp [urlString, hroot]
          have hcleanALL : ∀ c ∈ path ++ (if fq = true ∨ rq ≠ [] then '?' :: rq else []),
              isCTL c = false ∧ c ≠ '#' :=
            List.forall_mem_append.mpr
              ⟨fun c hc => ⟨(hpathF c hc).1, (hpathF c hc).2.1⟩, hqpF⟩
          by_cases hstar : path ++ (if fq = true ∨ rq ≠ [] then '?' :: rq else []) = ['*']
          · rcases append_eq_singleton_cases hstar with ⟨hp, hqe⟩ | ⟨hp, hqe⟩
            · exfalso
              by_cases hcond : fq = true ∨ rq ≠ []
              · rw [if_pos hcond] at hqe
                injection hqe with h1 h2
                exact absurd h1 (by decide)
              · rw [if_neg hcond] at hqe
                cases hqe
            · have hp' : path = ['*'] := hp
              have hfr : fq = false ∧ rq = [] := by
                by_cases hcond : fq = true ∨ rq ≠ []
                · rw [if_pos hcond] at hqe
                  cases hqe
                · refine ⟨by revert hcond; cases fq <;> simp, ?_⟩
                  by_contra hr
                  exact hcond (Or.inr hr)
              obtain ⟨hfq', hrq'⟩ := hfr
              subst hp' hfq' hrq'
              constructor
              · rw [ht0]
                rfl
              · rw [ht0]
                intro c hc
                simp at hc
                subst hc
                decide
          · have hqpShape : (if fq = true ∨ rq ≠ [] then '?' :: rq else []) = [] ∨
                ∃ t, (if fq = true ∨ rq ≠ [] then '?' :: rq else []) = '?' :: t := by
              split
              · exact Or.inr ⟨rq, rfl⟩
              · exact Or.inl rfl
            have hgs := getScheme_rootless hqpShape hroot
            have hq := query_split_shape path rq fq (fun c hc => (hpathF c hc).2.2) hfq
            have hctl := any_eq_false_of (fun c hc => (hcleanALL c hc).1)
            constructor
            · rw [ht0, parsePart_decomp hctl hstar hgs hq,
                show toLowerS [] = [] from rfl]
              unfold parseAfterQuery
              rw [if_neg (fun hcond => hcond.2 rfl)]
              rw [if_neg (fun hcond => (not_bor1 hroot) hcond.2)]
              rw [if_neg (fun hcond => by
                rcases hcond.1 with h1 | h1
                · exact h1 rfl
                · exact h1 (hdsl hcond.2))]
              rw [if_pos hwf.path_esc]
              rw [show (decide (([] : Chars) ≠ []) && (['/']).isPrefixOf path) = false from
                by simp]
              unfold eraseOpqPath
              rw [if_pos rfl]
            · rw [ht0]
              exact fun c hc => (hcleanALL c hc).2
        · -- authority written, no scheme
          have hhostF : ∀ c ∈ host, isCTL c = false ∧ c ≠ '#' ∧ c ≠ '?' ∧ c ≠ '/' :=
            fun c hc => by
              have hf := hostChar_facts (wf_host_chars hwf c hc)
              exact ⟨hf.1, hf.2.1, hf.2.2.1, hf.2.2.2.1⟩
          have hhost_at : ∀ c ∈ host, c ≠ '@' :=
            fun c hc => (hostChar_facts (wf_host_chars hwf c hc)).2.2.2.2
          have hpth : path = [] ∨ path.head? = some '/' := by
            refine hwf.path_slash ?_
            by_cases hh : host = []
            · refine Or.inr (Or.inl ?_)
              have hu : user ≠ none := fun hu => hhu ⟨hh, hu⟩
              exact Option.ne_none_iff_isSome.mp hu
            · exact Or.inl hh
          have hsl : ¬(path ≠ [] ∧ path.head? ≠ some '/' ∧ host ≠ []) := by
            rintro ⟨hpne, hhd, -⟩
            rcases hpth with h | h
            · exact hpne h
            · exact hhd h
          rcases user with _ | ui
          · have hh : host ≠ [] := by
              intro h
              exact hhu ⟨h, rfl⟩
            have hsl2 : ¬path = [] → List.head? path = some '/' :=
              fun hpne => hpth.resolve_left hpne
            have ht0 : urlString ⟨[], [], none, host, path, false, fq, rq, []⟩ =
                ('/' :: '/' :: (host ++ path)) ++
                  (if fq = true ∨ rq ≠ [] then '?' :: rq else []) := by
              simp [urlString, hh, hsl]
              exact hsl2
            have hA0 : (host ++ path).head? ≠ some '/' := by
              cases host with
              | nil => exact absurd rfl hh
              | cons h0 htl =>
                simp only [List.cons_append, List.head?_cons, ne_eq, Option.some.injEq]
                exact (hostChar_facts (wf_host_chars hwf h0 (by simp))).2.2.2.1
            have hres := parsePart_plain_auth hhostF hwf.path_clean hqF hfq
              (parseAuthority_recon_none hwf.host_ok hhost_at) hpth hwf.path_esc hA0
            constructor
            · rw [ht0, hres.1]
              unfold eraseOpqPath
              rw [if_pos rfl]
            · rw [ht0]
              exact hres.2
          · have hvui : validUserinfo ui = true := hwf.user_ok ui rfl
            have huiF := validUserinfo_chars hvui
            have hAF : ∀ c ∈ ui ++ '@' :: host,
                isCTL c = false ∧ c ≠ '#' ∧ c ≠ '?' ∧ c ≠ '/' := by
              refine List.forall_mem_append.mpr ⟨fun c hc => ?_, ?_⟩
              · have hf := userinfoChar_facts (huiF c hc)
                exact ⟨hf.1, hf.2.1, hf.2.2.1, hf.2.2.2⟩
              · exact List.forall_mem_cons.mpr
                  ⟨⟨by decide, by decide, by decide, by decide⟩, hhostF⟩
            have ht0 : urlString ⟨[], [], some ui, host, path, false, fq, rq, []⟩ =
                ('/' :: '/' :: ((ui ++ '@' :: host) ++ path)) ++
                  (if fq = true ∨ rq ≠ [] then '?' :: rq else []) := by
              simp [urlString, hsl]
            have hA0 : (((ui ++ '@' :: host) ++ path)).head? ≠ some '/' := by
              cases ui with
              | nil =>
                simp only [List.nil_append, List.cons_append, List.head?_cons, ne_eq,
                  Option.some.injEq]
                decide
              | cons x xs =>
                simp only [List.cons_append, List.head?_cons, ne_eq, Option.some.injEq]
                exact (userinfoChar_facts (huiF x (by simp))).2.2.2
            have hres := parsePart_plain_auth hAF hwf.path_clean hqF hfq
              (parseAuthority_recon_some hwf.host_ok hvui hhost_at) hpth hwf.path_esc hA0
            constructor
            · rw [ht0, hres.1]
              unfold eraseOpqPath
              rw [if_pos rfl]
            · rw [ht0]
              exact hres.2
      · -- scheme present, not opaque
        rcases hwf.scheme_ok with hbad | ⟨c0, cs, hsceq, hc0, hcs⟩
        · exact absurd hbad hsc
        have hsceq' : sc = c0 :: cs := hsceq
        subst hsceq'
        by_cases hbep : host = [] ∧ user = none ∧ path = []
        · -- scheme-only empty URL: serialized with no authority and no path
          obtain ⟨hh, hu, hp⟩ := hbep
          have hh' : host = [] := hh
          have hu' : user = none := hu
          have hp' : path = [] := hp
          subst hh' hu' hp'
          have ht0 : urlString ⟨c0 :: cs, [], none, [], [], false, fq, rq, []⟩ =
              (c0 :: cs) ++ ':' ::
                ([] ++ (if fq = true ∨ rq ≠ [] then '?' :: rq else [])) := by
            simp [urlString]
          have hschemeF : ∀ c ∈ c0 :: cs,
              isCTL c = false ∧ c ≠ '#' ∧ c ≠ '?' ∧ c ≠ ':' ∧ c ≠ '/' ∧ c ≠ '*' :=
            fun c hc => schemeChar_facts (wf_scheme_chars hwf c hc)
          have hcleanALL : ∀ c ∈ (c0 :: cs) ++ ':' ::
              ([] ++ (if fq = true ∨ rq ≠ [] then '?' :: rq else [])),
              isCTL c = false ∧ c ≠ '#' := by
            refine List.forall_mem_append.mpr
              ⟨fun c hc => ⟨(hschemeF c hc).1, (hschemeF c hc).2.1⟩, ?_⟩
            refine List.forall_mem_cons.mpr ⟨⟨by decide, by decide⟩, ?_⟩
            exact List.forall_mem_append.mpr ⟨fun c hc => (by cases hc), hqpF⟩
          have hctl := any_eq_false_of (fun c hc => (hcleanALL c hc).1)
          have hstar : ((c0 :: cs) ++ ':' ::
              ([] ++ (if fq = true ∨ rq ≠ [] then '?' :: rq else []))) ≠ ['*'] :=
            ne_star_of_head (hschemeF c0 (by simp)).2.2.2.2.2
          have hgs := getScheme_found
            ([] ++ (if fq = true ∨ rq ≠ [] then '?' :: rq else []))
            (show isAlphaC c0 = true from by simp [isAlphaC, hc0])
            (fun x hx => schemeClass_tail (hcs x hx))
          have hq := query_split_shape [] rq fq (fun c hc => (by cases hc)) hfq
          constructor
          · rw [ht0, parsePart_decomp hctl hstar hgs hq,
              toLowerS_fixed (wf_scheme_chars hwf)]
            unfold parseAfterQuery
            rw [if_pos ⟨not_bor1 rfl, by simp⟩]
            unfold eraseOpqPath
            rw [if_pos rfl]
          · rw [ht0]
            exact fun c hc => (hcleanALL c hc).2
        · -- authority written, scheme present
          have hpth : path = [] ∨ path.head? = some '/' :=
            hwf.path_slash (Or.inr (Or.inr ⟨by simp, rfl⟩))
          have hsl : ¬(path ≠ [] ∧ path.head? ≠ some '/' ∧ host ≠ []) := by
            rintro ⟨hpne, hhd, -⟩
            rcases hpth with h | h
            · exact hpne h
            · exact hhd h
          have hhostF : ∀ c ∈ host, isCTL c = false ∧ c ≠ '#' ∧ c ≠ '?' ∧ c ≠ '/' :=
            fun c hc => by
              have hf := hostChar_facts (wf_host_chars hwf c hc)
              exact ⟨hf.1, hf.2.1, hf.2.2.1, hf.2.2.2.1⟩
          have hhost_at : ∀ c ∈ host, c ≠ '@' :=
            fun c hc => (hostChar_facts (wf_host_chars hwf c hc)).2.2.2.2
          rcases user with _ | ui
          · have hin : host ≠ [] ∨ path ≠ [] := by
              by_cases hh : host = []
              · refine Or.inr ?_
                intro hp
                exact hbep ⟨hh, rfl, hp⟩
              · exact Or.inl hh
            have ht0 : urlString ⟨c0 :: cs, [], none, host, path, false, fq, rq, []⟩ =
                (c0 :: cs) ++ ':' :: (('/' :: '/' :: (host ++ path)) ++
                  (if fq = true ∨ rq ≠ [] then '?' :: rq else [])) := by
              simp [urlString, hin, hsl]
            have hres := parsePart_scheme_auth hc0 hcs hhostF hwf.path_clean hqF hfq
              (parseAuthority_recon_none hwf.host_ok hhost_at) hpth hwf.path_esc
            constructor
            · rw [ht0, hres.1]
              unfold eraseOpqPath
              rw [if_pos rfl]
            · rw [ht0]
              exact hres.2
          · have hvui : validUserinfo ui = true := hwf.user_ok ui rfl
            have huiF := validUserinfo_chars hvui
            have hAF : ∀ c ∈ ui ++ '@' :: host,
                isCTL c = false ∧ c ≠ '#' ∧ c ≠ '?' ∧ c ≠ '/' := by
              refine List.forall_mem_append.mpr ⟨fun c hc => ?_, ?_⟩
              · have hf := userinfoChar_facts (huiF c hc)
                exact ⟨hf.1, hf.2.1, hf.2.2.1, hf.2.2.2⟩
              · exact List.forall_mem_cons.mpr
                  ⟨⟨by decide, by decide, by decide, by decide⟩, hhostF⟩
            have ht0 : urlString ⟨c0 :: cs, [], some ui, host, path, false, fq, rq, []⟩ =
                (c0 :: cs) ++ ':' :: (('/' :: '/' :: ((ui ++ '@' :: host) ++ path)) ++
                  (if fq = true ∨ rq ≠ [] then '?' :: rq else [])) := by
              simp [urlString, hsl]
            have hres := parsePart_scheme_auth hc0 hcs hAF hwf.path_clean hqF hfq
              (parseAuthority_recon_some hwf.host_ok hvui hhost_at) hpth hwf.path_esc
            constructor
            · rw [ht0, hres.1]
              unfold eraseOpqPath
              rw [if_pos rfl]
            · rw [ht0]
              exact hres.2
  · -- opaque case
    have hscne : sc ≠ [] := hwf.opq_scheme hopq
    rcases hwf.scheme_ok with hbad | ⟨c0, cs, hsceq, hc0, hcs⟩
    · exact absurd hbad hscne
    have hsceq' : sc = c0 :: cs := hsceq
    subst hsceq'
    obtain ⟨hh, hu, hom⟩ := hwf.opq_rest hopq
    have hh' : host = [] := hh
    have hu' : user = none := hu
    have hom' : omt = false := hom
    subst hh' hu' hom'
    have ht0 : urlString ⟨c0 :: cs, opq, none, [], path, false, fq, rq, []⟩ =
        (c0 :: cs) ++ ':' :: (opq ++ (if fq = true ∨ rq ≠ [] then '?' :: rq else [])) := by
      simp [urlString, hopq]
    have hschemeF : ∀ c ∈ c0 :: cs,
        isCTL c = false ∧ c ≠ '#' ∧ c ≠ '?' ∧ c ≠ ':' ∧ c ≠ '/' ∧ c ≠ '*' :=
      fun c hc => schemeChar_facts (wf_scheme_chars hwf c hc)
    have hopqF : ∀ c ∈ opq, isCTL c = false ∧ c ≠ '#' ∧ c ≠ '?' := hwf.opq_clean
    have hcleanALL : ∀ c ∈ (c0 :: cs) ++ ':' ::
        (opq ++ (if fq = true ∨ rq ≠ [] then '?' :: rq else [])),
        isCTL c = false ∧ c ≠ '#' := by
      refine List.forall_mem_append.mpr ⟨fun c hc => ⟨(hschemeF c hc).1, (hschemeF c hc).2.1⟩, ?_⟩
      refine List.forall_mem_cons.mpr ⟨⟨by decide, by decide⟩, ?_⟩
      exact List.forall_mem_append.mpr ⟨fun c hc => ⟨(hopqF c hc).1, (hopqF c hc).2.1⟩, hqpF⟩
    have hctl := any_eq_false_of (fun c hc => (hcleanALL c hc).1)
    have hstar : ((c0 :: cs) ++ ':' ::
        (opq ++ (if fq = true ∨ rq ≠ [] then '?' :: rq else []))) ≠ ['*'] :=
      ne_star_of_head (hschemeF c0 (by simp)).2.2.2.2.2
    have hgs := getScheme_found
      (opq ++ (if fq = true ∨ rq ≠ [] then '?' :: rq else []))
      (show isAlphaC c0 = true from by simp [isAlphaC, hc0])
      (fun x hx => schemeClass_tail (hcs x hx))
    have hq := query_split_shape opq rq fq (fun c hc => (hopqF c hc).2.2) hfq
    constructor
    · rw [ht0, parsePart_decomp hctl hstar hgs hq,
        toLowerS_fixed (wf_scheme_chars hwf)]
      unfold parseAfterQuery
      rw [if_pos ⟨not_bor1 (isPrefixOf_head_false
        (show opq.head? ≠ some '/' from hwf.opq_slash)), by simp⟩]
      unfold eraseOpqPath
      rw [if_neg hopq]
    · rw [ht0]
      exact fun c hc => (hcleanALL c hc).2

theorem WF_defrag {u : URL} (hwf : WF u) : WF { u with fragment := [] } :=
  ⟨hwf.scheme_ok, hwf.opq_scheme, hwf.opq_slash, hwf.opq_clean, hwf.opq_rest,
    hwf.user_ok, hwf.host_ok, hwf.path_esc, hwf.path_clean, hwf.path_slash,
    hwf.path_rootless, hwf.path_dslash, hwf.omit_ok, hwf.fq_ok, hwf.query_clean, rfl⟩

theorem urlString_frag_split (u : URL) :
    urlString u = urlString { u with fragment := [] } ++
      (if u.fragment ≠ [] then '#' :: u.fragment else []) := by
  simp [urlString]

theorem parse_urlString {u : URL} (hwf : WF u) :
    parseURLChars (urlString u) = .ok (eraseOpqPath u) := by
  have hres := parsePart_urlString (WF_defrag hwf) rfl
  rw [urlString_frag_split u]
  unfold parseURLChars
  by_cases hf : u.fragment = []
  · have hu : ({ u with fragment := [] } : URL) = u := by rw [← hf]
    rw [hu] at hres
    rw [if_neg (fun h => h hf), List.append_nil, hu]
    rw [splitAtChar_not_mem true hres.2]
    dsimp only
    rw [hres.1]
    rfl
  · rw [if_pos hf]
    have hsp : splitAtChar '#' true
        (urlString { u with fragment := [] } ++ '#' :: u.fragment) =
        (urlString { u with fragment := [] }, u.fragment) := by
      rw [splitAtChar_found true u.fragment hres.2]
      rfl
    rw [hsp]
    dsimp only
    rw [hres.1]
    dsimp only
    rw [if_neg hf, if_pos hwf.frag_esc]
    unfold eraseOpqPath
    dsimp only
    by_cases ho : u.opq = []
    · rw [if_pos ho, if_pos ho]
    · rw [if_neg ho, if_neg ho]

/-! ### Characterizing parse output: support lemmas -/

theorem char_eq_of_toNat {c d : Char} (h : c.toNat = d.toNat) : c = d :=
  Char.le_antisymm h.le h.ge

theorem toNat_ofNat_valid {n : Nat} (h : n < 55296) : (Char.ofNat n).toNat = n := by
  unfold Char.ofNat
  rw [dif_pos (Or.inl h)]
  simp [Char.ofNatAux, Char.toNat, UInt32.toNat, BitVec.toNat_ofNatLt]

theorem toLowerC_fix {c : Char} (h : isUpperAZ c = false) : toLowerC c = c := by
  unfold toLowerC
  rw [h]
  simp

theorem toLowerC_upper {c : Char} (h : isUpperAZ c = true) :
    isLowerAZ (toLowerC c) = true := by
  have hr := isUpperAZ_range h
  unfold toLowerC
  rw [if_pos h]
  have ht : (Char.ofNat (c.toNat + 32)).toNat = c.toNat + 32 :=
    toNat_ofNat_valid (by omega)
  unfold isLowerAZ
  rw [Bool.and_eq_true]
  constructor
  · exact decide_eq_true
      (show (97 : Nat) ≤ (Char.ofNat (c.toNat + 32)).toNat from by rw [ht]; omega)
  · exact decide_eq_true
      (show (Char.ofNat (c.toNat + 32)).toNat ≤ 122 from by rw [ht]; omega)

theorem toLowerC_alpha_lower {c : Char} (h : isAlphaC c = true) :
    isLowerAZ (toLowerC c) = true := by
  unfold isAlphaC at h
  rw [Bool.or_eq_true] at h
  rcases h with h | h
  · rw [toLowerC_fix (isUpperAZ_false (Or.inr (by have := isLowerAZ_range h; omega)))]
    exact h
  · exact toLowerC_upper h

theorem toLowerC_schemeTail {c : Char} (h : isSchemeTailChar c = true) :
    (isLowerAZ (toLowerC c) || isDigitC (toLowerC c) || toLowerC c == '+' ||
      toLowerC c == '-' || toLowerC c == '.') = true := by
  unfold isSchemeTailChar at h
  simp only [Bool.or_eq_true, beq_iff_eq] at h ⊢
  rcases h with (((h | h) | h) | h) | h
  · exact Or.inl (Or.inl (Or.inl (Or.inl (toLowerC_alpha_lower h))))
  · rw [toLowerC_fix (isUpperAZ_false (Or.inl (by have := isDigitC_range h; omega)))]
    exact Or.inl (Or.inl (Or.inl (Or.inr h)))
  · subst h; exact Or.inl (Or.inl (Or.inr (by decide)))
  · subst h; exact Or.inl (Or.inr (by decide))
  · subst h; exact Or.inr (by decide)

theorem forall_of_any_eq_false {p : Char → Bool} :
    ∀ {l : Chars}, l.any p = false → ∀ c ∈ l, p c = false := by
  intro l
  induction l with
  | nil => intro _ c hc; cases hc
  | cons d ds ih =>
    intro h c hc
    simp only [List.any_cons, Bool.or_eq_false_iff] at h
    rcases List.mem_cons.mp hc with rfl | hc
    · exact h.1
    · exact ih h.2 c hc

theorem not_mem_of_containsSub_false {x : Char} {s : Chars}
    (h : containsSub [x] s = false) : ∀ c ∈ s, c ≠ x := by
  intro c hc he
  subst he
  rcases List.append_of_mem hc with ⟨a, b, rfl⟩
  rw [containsSub_single_at] at h
  cases h

theorem head_ne_of_isPrefixOf_false {c : Char} {s : Chars}
    (h : ([c]).isPrefixOf s = false) : s.head? ≠ some c := by
  intro hh
  rw [isPrefixOf_single_head hh] at h
  cases h

theorem dropWhile_bang_head (sep : Char) (X : Chars) :
    X.dropWhile (fun c => c != sep) = [] ∨
      (X.dropWhile (fun c => c != sep)).head? = some sep := by
  induction X with
  | nil => exact Or.inl rfl
  | cons c cs ih =>
    rw [List.dropWhile_cons]
    by_cases hc : (c != sep) = true
    · rw [if_pos hc]
      exact ih
    · rw [if_neg hc]
      refine Or.inr ?_
      have : c = sep := by
        revert hc
        simp [bne_iff_ne]
      rw [this]
      rfl

theorem dropWhile_head_not {p : Char → Bool} :
    ∀ {l : Chars} {d : Char} {rest : Chars}, l.dropWhile p = d :: rest → p d = false := by
  intro l
  induction l with
  | nil => intro d rest h; cases h
  | cons c cs ih =>
    intro d rest h
    rw [List.dropWhile_cons] at h
    by_cases hc : p c = true
    · rw [if_pos hc] at h
      exact ih h
    · rw [if_neg hc] at h
      injection h with h1 _
      subst h1
      revert hc
      cases p c <;> simp

theorem splitAtChar_snd_subset (sep : Char) (cutc : Bool) (s : Chars) :
    ∀ x ∈ (splitAtChar sep cutc s).2, x ∈ s := by
  intro x hx
  unfold splitAtChar at hx
  cases hd : s.dropWhile (fun c => c != sep) with
  | nil => rw [hd] at hx; cases hx
  | cons d rest =>
    rw [hd] at hx
    dsimp only at hx
    have hsub : ∀ y ∈ d :: rest, y ∈ s := fun y hy =>
      (List.dropWhile_sublist (l := s) (p := fun c => c != sep)).subset (hd ▸ hy)
    cases cutc with
    | true =>
      rw [if_pos rfl] at hx
      exact hsub x (by simp [hx])
    | false =>
      rw [if_neg (by simp)] at hx
      rcases List.mem_cons.mp hx with rfl | hx
      · have hd2 : d = x := by
          have hp := dropWhile_head_not hd
          revert hp
          simp [bne_iff_ne]
        exact hsub x (by simp [← hd2])
      · exact hsub x (by simp [hx])

theorem getSchemeAux_spec {orig : Chars} :
    ∀ {rem acc sc r : Chars}, getSchemeAux orig acc rem = .ok (sc, r) →
      (sc = [] ∧ r = orig) ∨
      (∃ d, sc = acc ++ d ∧ rem = d ++ ':' :: r ∧
        (∀ x ∈ d, isSchemeTailChar x = true) ∧
        (acc = [] → ∃ c0 cs0, d = c0 :: cs0 ∧ isAlphaC c0 = true)) := by
  intro rem
  induction rem with
  | nil =>
    intro acc sc r h
    simp only [getSchemeAux, Except.ok.injEq, Prod.mk.injEq] at h
    exact Or.inl ⟨h.1.symm, h.2.symm⟩
  | cons c cs ih =>
    intro acc sc r h
    unfold getSchemeAux at h
    by_cases hal : isAlphaC c = true
    · rw [if_pos hal] at h
      rcases ih h with hl | ⟨d, hd1, hd2, hd3, hd4⟩
      · exact Or.inl hl
      · refine Or.inr ⟨c :: d, by rw [hd1]; simp, by rw [hd2]; rfl, ?_, ?_⟩
        · refine List.forall_mem_cons.mpr ⟨?_, hd3⟩
          unfold isSchemeTailChar
          rw [hal]
          rfl
        · intro _
          exact ⟨c, d, rfl, hal⟩
    · rw [if_neg hal] at h
      by_cases hdig : (isDigitC c || c == '+' || c == '-' || c == '.') = true
      · rw [if_pos hdig] at h
        by_cases hae : acc.isEmpty = true
        · rw [if_pos hae] at h
          simp only [Except.ok.injEq, Prod.mk.injEq] at h
          exact Or.inl ⟨h.1.symm, h.2.symm⟩
        · rw [if_neg hae] at h
          rcases ih h with hl | ⟨d, hd1, hd2, hd3, hd4⟩
          · exact Or.inl hl
          · refine Or.inr ⟨c :: d, by rw [hd1]; simp, by rw [hd2]; rfl, ?_, ?_⟩
            · refine List.forall_mem_cons.mpr ⟨?_, hd3⟩
              unfold isSchemeTailChar
              simp only [Bool.or_eq_true] at hdig ⊢
              rcases hdig with ((h1 | h1) | h1) | h1
              · exact Or.inl (Or.inl (Or.inl (Or.inr h1)))
              · exact Or.inl (Or.inl (Or.inr h1))
              · exact Or.inl (Or.inr h1)
              · exact Or.inr h1
            · intro hacc
              exact absurd (show acc.isEmpty = true from by rw [hacc]; rfl) hae
      · rw [if_neg hdig] at h
        by_cases hcol : (c == ':') = true
        · rw [if_pos hcol] at h
          by_cases hae : acc.isEmpty = true
          · rw [if_pos hae] at h
            exact Except.noConfusion h
          · rw [if_neg hae] at h
            simp only [Except.ok.injEq, Prod.mk.injEq] at h
            obtain ⟨h1, h2⟩ := h
            refine Or.inr ⟨[], by rw [← h1]; simp, ?_, fun x hx => absurd hx (by simp), ?_⟩
            · rw [beq_iff_eq.mp hcol, h2]
              rfl
            · intro hacc
              exact absurd (show acc.isEmpty = true from by rw [hacc]; rfl) hae
        · rw [if_neg hcol] at h
          simp only [Except.ok.injEq, Prod.mk.injEq] at h
          exact Or.inl ⟨h.1.symm, h.2.symm⟩

theorem getScheme_spec {s sc r : Chars} (h : getScheme s = .ok (sc, r)) :
    (sc = [] ∧ r = s) ∨
    (∃ c0 cs0, sc = c0 :: cs0 ∧ isAlphaC c0 = true ∧
      (∀ x ∈ sc, isSchemeTailChar x = true) ∧ s = sc ++ ':' :: r) := by
  rcases getSchemeAux_spec h with hl | ⟨d, hd1, hd2, hd3, hd4⟩
  · exact Or.inl hl
  · rcases hd4 rfl with ⟨c0, cs0, hde, hal⟩
    refine Or.inr ⟨c0, cs0, ?_, hal, ?_, ?_⟩
    · rw [hd1, hde]
      rfl
    · intro x hx
      refine hd3 x ?_
      rw [hd1] at hx
      simpa using hx
    · rw [hd1]
      simpa using hd2

theorem mem_takeWhile_facts {p : Char → Bool} :
    ∀ {l : Chars} {c : Char}, c ∈ l.takeWhile p → c ∈ l ∧ p c = true := by
  intro l
  induction l with
  | nil => intro c hc; cases hc
  | cons d ds ih =>
    intro c hc
    rw [List.takeWhile_cons] at hc
    by_cases hd : p d = true
    · rw [if_pos hd] at hc
      rcases List.mem_cons.mp hc with rfl | hc
      · exact ⟨by simp, hd⟩
      · obtain ⟨h1, h2⟩ := ih hc
        exact ⟨by simp [h1], h2⟩
    · rw [if_neg hd] at hc
      cases hc

theorem splitAtChar_fst (sep : Char) (cutc : Bool) (s : Chars) :
    (splitAtChar sep cutc s).1 = s.takeWhile (fun c => c != sep) := by
  unfold splitAtChar
  split <;> rfl

theorem qsplit_spec {rest0 rest : Chars} {fqv : Bool} {rqv : Chars}
    (h : (if rest0.getLast? = some '?' ∧ ¬ containsSub (['?']) rest0.dropLast then
        (rest0.dropLast, true, ([] : Chars))
      else
        ((splitAtChar '?' true rest0).1, false, (splitAtChar '?' true rest0).2)) =
      (rest, fqv, rqv)) :
    (∀ c ∈ rest, c ∈ rest0 ∧ c ≠ '?') ∧ (∀ c ∈ rqv, c ∈ rest0) ∧
      (fqv = true → rqv = []) := by
  split at h
  · rename_i hcond
    simp only [Prod.mk.injEq] at h
    obtain ⟨h1, h2, h3⟩ := h
    subst h3
    have hnc : containsSub (['?']) rest0.dropLast = false := by
      have hx := hcond.2
      revert hx
      cases containsSub (['?']) rest0.dropLast <;> simp
    refine ⟨?_, fun c hc => (by cases hc), fun _ => rfl⟩
    intro c hc
    rw [← h1] at hc
    exact ⟨(List.dropLast_sublist (l := rest0)).subset hc,
      not_mem_of_containsSub_false hnc c hc⟩
  · simp only [Prod.mk.injEq] at h
    obtain ⟨h1, h2, h3⟩ := h
    refine ⟨?_, ?_, fun he => (by rw [← h2] at he; cases he)⟩
    · intro c hc
      rw [← h1, splitAtChar_fst] at hc
      obtain ⟨hm, hp⟩ := mem_takeWhile_facts hc
      exact ⟨hm, by simpa using hp⟩
    · intro c hc
      rw [← h3] at hc
      exact splitAtChar_snd_subset '?' true rest0 c hc

theorem parseHost_ok_self {a h2 : Chars} (h : parseHost a = .ok h2) : h2 = a := by
  unfold parseHost at h
  dsimp only at h
  by_cases hbr : (['[']).isPrefixOf a = true
  · rw [if_pos hbr] at h
    cases hli : lastIndexOfSub ([']']) a with
    | none =>
      rw [hli] at h
      exact Except.noConfusion h
    | some i =>
      rw [hli] at h
      dsimp only at h
      by_cases hvp : validOptionalPort (a.drop (i + 1)) = true
      · rw [if_pos hvp] at h
        by_cases hc : (a.all validHostChar && validHostEscapes a) = true
        · rw [if_pos hc] at h
          exact (Except.ok.inj h).symm
        · rw [if_neg hc] at h
          exact Except.noConfusion h
      · rw [if_neg hvp] at h
        exact Except.noConfusion h
  · rw [if_neg hbr] at h
    cases hli : lastIndexOfSub ([':']) a with
    | some i =>
      rw [hli] at h
      dsimp only at h
      by_cases hvp : validOptionalPort (a.drop i) = true
      · rw [if_pos hvp] at h
        by_cases hc : (a.all validHostChar && validHostEscapes a) = true
        · rw [if_pos hc] at h
          exact (Except.ok.inj h).symm
        · rw [if_neg hc] at h
          exact Except.noConfusion h
      · rw [if_neg hvp] at h
        exact Except.noConfusion h
    | none =>
      rw [hli] at h
      by_cases hc : (a.all validHostChar && validHostEscapes a) = true
      · rw [if_pos hc] at h
        exact (Except.ok.inj h).symm
      · rw [if_neg hc] at h
        exact Except.noConfusion h

theorem parseAuthority_spec {A : Chars} {user : Option Chars} {host : Chars}
    (h : parseAuthority A = .ok (user, host)) :
    parseHost host = .ok host ∧ (∀ ui, user = some ui → validUserinfo ui = true) ∧
      (user = none → host = A) := by
  unfold parseAuthority at h
  cases hli : lastIndexOfSub (['@']) A with
  | none =>
    rw [hli] at h
    dsimp only at h
    cases hph : parseHost A with
    | error e =>
      rw [hph] at h
      exact Except.noConfusion h
    | ok hh =>
      rw [hph] at h
      dsimp only at h
      simp only [Except.ok.injEq, Prod.mk.injEq] at h
      obtain ⟨h1, h2⟩ := h
      have hself : hh = A := parseHost_ok_self hph
      refine ⟨?_, ?_, fun _ => by rw [← h2, hself]⟩
      · rw [← h2, hself]
        rw [hself] at hph
        exact hph
      · intro ui hui
        rw [← h1] at hui
        cases hui
  | some i =>
    rw [hli] at h
    dsimp only at h
    cases hph : parseHost (A.drop (i + 1)) with
    | error e =>
      rw [hph] at h
      exact Except.noConfusion h
    | ok hh =>
      rw [hph] at h
      dsimp only at h
      by_cases hv : validUserinfo (A.take i) = true
      · rw [if_pos hv] at h
        simp only [Except.ok.injEq, Prod.mk.injEq] at h
        obtain ⟨h1, h2⟩ := h
        have hself : hh = A.drop (i + 1) := parseHost_ok_self hph
        refine ⟨?_, ?_, ?_⟩
        · rw [← h2, hself]
          rw [hself] at hph
          exact hph
        · intro ui hui
          rw [← h1] at hui
          rw [← Option.some.inj hui]
          exact hv
        · intro hn
          rw [← h1] at hn
          cases hn
      · rw [if_neg hv] at h
        exact Except.noConfusion h

theorem head_of_isPrefixOf_single {c : Char} {s : Chars}
    (h : ([c]).isPrefixOf s = true) : s.head? = some c := by
  cases s with
  | nil => cases h
  | cons d t =>
    simp only [List.isPrefixOf, Bool.and_eq_true, beq_iff_eq] at h
    rw [h.1]
    rfl

theorem WF_parsePart {s : Chars} {u : URL} (h : parsePart s = .ok u)
    (hhash : ∀ c ∈ s, c ≠ '#') :
    WF u ∧ (u.opq ≠ [] → u.path = []) := by
  unfold parsePart at h
  by_cases hctl : s.any isCTL = true
  · rw [if_pos hctl] at h
    exact Except.noConfusion h
  · have hctl' : s.any isCTL = false := by revert hctl; cases s.any isCTL <;> simp
    rw [if_neg hctl] at h
    have hCTL := forall_of_any_eq_false hctl'
    by_cases hst : s = ['*']
    · rw [if_pos hst] at h
      have hu := (Except.ok.inj h).symm
      subst hu
      refine ⟨⟨Or.inl rfl, (fun ho => absurd rfl ho), (by simp),
        (fun c hc => absurd hc (by simp)), (fun ho => absurd rfl ho),
        (fun ui hui => by cases hui), rfl, rfl, ?_, ?_, (fun _ => by decide),
        (fun _ h2 => absurd h2 (by decide)), (fun ho => absurd ho (by decide)),
        (fun _ => rfl), (fun c hc => absurd hc (by simp)), rfl⟩,
        (fun ho => absurd rfl ho)⟩
      · intro c hc
        simp only [List.mem_singleton] at hc
        subst hc
        exact ⟨by decide, by decide, by decide⟩
      · rintro (h1 | h1 | ⟨h1, -⟩) <;> simp at h1
    · rw [if_neg hst] at h
      cases hgs : getScheme s with
      | error e =>
        rw [hgs] at h
        exact Except.noConfusion h
      | ok p =>
        obtain ⟨sc, rest0⟩ := p
        rw [hgs] at h
        dsimp only at h
        generalize hq : (if rest0.getLast? = some '?' ∧
            ¬ containsSub (['?']) rest0.dropLast then
            (rest0.dropLast, true, ([] : Chars))
          else
            ((splitAtChar '?' true rest0).1, false,
              (splitAtChar '?' true rest0).2)) = qt at h
        obtain ⟨rest, qt2⟩ := qt
        obtain ⟨fqv, rqv⟩ := qt2
        dsimp only at h
        have hS := getScheme_spec hgs
        have hsub0 : ∀ c ∈ rest0, c ∈ s := by
          rcases hS with ⟨h1, h2⟩ | ⟨c0, cs0, h1, h2, h3, h4⟩
          · exact fun c hc => h2 ▸ hc
          · intro c hc
            rw [h4]
            simp [hc]
        have hq_spec := qsplit_spec hq
        have hrest_clean : ∀ c ∈ rest, isCTL c = false ∧ c ≠ '#' ∧ c ≠ '?' :=
          fun c hc => ⟨hCTL c (hsub0 c (hq_spec.1 c hc).1),
            hhash c (hsub0 c (hq_spec.1 c hc).1), (hq_spec.1 c hc).2⟩
        have hrq_clean : ∀ c ∈ rqv, isCTL c = false ∧ c ≠ '#' :=
          fun c hc => ⟨hCTL c (hsub0 c (hq_spec.2.1 c hc)),
            hhash c (hsub0 c (hq_spec.2.1 c hc))⟩
        have hscheme_ok : toLowerS sc = [] ∨ ∃ d ds, toLowerS sc = d :: ds ∧
            isLowerAZ d = true ∧ ∀ x ∈ ds,
              (isLowerAZ x || isDigitC x || x == '+' || x == '-' || x == '.') = true := by
          rcases hS with ⟨h1, _⟩ | ⟨c0, cs0, h1, h2, h3, _⟩
          · rw [h1]
            exact Or.inl rfl
          · refine Or.inr ⟨toLowerC c0, List.map toLowerC cs0, by rw [h1]; rfl,
              toLowerC_alpha_lower h2, ?_⟩
            intro x hx
            rcases List.mem_map.mp hx with ⟨y, hy, rfl⟩
            exact toLowerC_schemeTail (h3 y (by rw [h1]; simp [hy]))
        by_cases hb1 : (¬ (['/']).isPrefixOf rest) ∧ toLowerS sc ≠ []
        · rw [if_pos hb1] at h
          have hu := (Except.ok.inj h).symm
          subst hu
          have hpre : (['/']).isPrefixOf rest = false := by
            have hx := hb1.1
            revert hx
            cases (['/']).isPrefixOf rest <;> simp
          refine ⟨⟨hscheme_ok, (fun _ => hb1.2), head_ne_of_isPrefixOf_false hpre,
            hrest_clean, (fun _ => ⟨rfl, rfl, rfl⟩), (fun ui hui => by cases hui),
            rfl, rfl, (fun c hc => absurd hc (by simp)), ?_,
            (fun hx => absurd hx.1 hb1.2), (fun hx _ => absurd hx.1 hb1.2),
            (fun ho => Bool.noConfusion ho), hq_spec.2.2, hrq_clean, rfl⟩,
            (fun _ => rfl)⟩
          rintro (h1 | h1 | ⟨-, -⟩)
          · simp at h1
          · simp at h1
          · exact Or.inl rfl
        · rw [if_neg hb1] at h
          by_cases hb2 : (¬ (['/']).isPrefixOf rest) ∧
              containsSub ([':']) (firstSegment rest) = true
          · rw [if_pos hb2] at h
            exact Except.noConfusion h
          · rw [if_neg hb2] at h
            by_cases hb3 : (toLowerS sc ≠ [] ∨ ¬ (['/', '/', '/']).isPrefixOf rest = true) ∧
                (['/', '/']).isPrefixOf rest = true
            · rw [if_pos hb3] at h
              cases hpa : parseAuthority ((rest.drop 2).takeWhile (fun c => c != '/')) with
              | error e =>
                rw [hpa] at h
                exact Except.noConfusion h
              | ok uh =>
                obtain ⟨usr, hst2⟩ := uh
                rw [hpa] at h
                dsimp only at h
                by_cases hesc : validEscapes ((rest.drop 2).dropWhile (fun c => c != '/')) = true
                · rw [if_pos hesc] at h
                  have hu := (Except.ok.inj h).symm
                  subst hu
                  have hPA := parseAuthority_spec hpa
                  have hr2sub : ∀ c ∈ (rest.drop 2).dropWhile (fun c => c != '/'), c ∈ rest :=
                    fun c hc => List.drop_subset 2 rest
                      ((List.dropWhile_sublist (l := rest.drop 2)
                        (p := fun c => c != '/')).subset hc)
                  have hempty : toLowerS sc = [] → hst2 = [] → usr = none →
                      (rest.drop 2).dropWhile (fun c => c != '/') = [] := by
                    intro h1 h2 h3
                    have hA : (rest.drop 2).takeWhile (fun c => c != '/') = [] := by
                      rw [← hPA.2.2 h3, h2]
                    have hx : (['/', '/', '/']).isPrefixOf rest = false := by
                      rcases hb3.1 with hx | hx
                      · exact absurd h1 hx
                      · revert hx
                        cases (['/', '/', '/']).isPrefixOf rest <;> simp
                    rcases prefix_of_isPrefixOf hb3.2 with ⟨t, ht⟩
                    subst ht
                    have hdrop : ((['/', '/'] : Chars) ++ t).drop 2 = t := rfl
                    rw [hdrop] at hA ⊢
                    cases t with
                    | nil => rfl
                    | cons d ds =>
                      rw [List.takeWhile_cons] at hA
                      by_cases hd : (d != '/') = true
                      · rw [if_pos hd] at hA
                        cases hA
                      · have hd' : d = '/' := by
                          revert hd
                          simp [bne_iff_ne]
                        subst hd'
                        exact absurd (show (['/', '/', '/']).isPrefixOf
                            ((['/', '/'] : Chars) ++ '/' :: ds) = true from by
                          simp [List.isPrefixOf]) (not_bor1 hx)
                  refine ⟨⟨hscheme_ok, (fun ho => absurd rfl ho), (by simp),
                    (fun c hc => absurd hc (by simp)), (fun ho => absurd rfl ho),
                    hPA.2.1, hPA.1, hesc,
                    (fun c hc => hrest_clean c (hr2sub c hc)),
                    (fun _ => dropWhile_bang_head '/' (rest.drop 2)), ?_, ?_,
                    (fun ho => Bool.noConfusion ho), hq_spec.2.2, hrq_clean, rfl⟩,
                    (fun ho => absurd rfl ho)⟩
                  · rintro ⟨h1, h2, h3⟩
                    dsimp only
                    rw [hempty h1 h2 h3]
                    rfl
                  · rintro ⟨h1, h2, h3⟩ h4
                    dsimp only at h4
                    rw [hempty h1 h2 h3] at h4
                    exact Bool.noConfusion h4
                · rw [if_neg hesc] at h
                  exact Except.noConfusion h
            · rw [if_neg hb3] at h
              by_cases hesc : validEscapes rest = true
              · rw [if_pos hesc] at h
                have hu := (Except.ok.inj h).symm
                subst hu
                refine ⟨⟨hscheme_ok, (fun ho => absurd rfl ho), (by simp),
                  (fun c hc => absurd hc (by simp)), (fun ho => absurd rfl ho),
                  (fun ui hui => by cases hui), rfl, hesc, hrest_clean,
                  ?_, ?_, ?_, ?_, hq_spec.2.2, hrq_clean, rfl⟩,
                  (fun ho => absurd rfl ho)⟩
                · rintro (h1 | h1 | ⟨h1, -⟩)
                  · simp at h1
                  · simp at h1
                  · have hpre : (['/']).isPrefixOf rest = true := by
                      by_contra hnp
                      exact hb1 ⟨hnp, h1⟩
                    exact Or.inr (head_of_isPrefixOf_single hpre)
                · rintro ⟨h1, -, -⟩
                  dsimp only
                  by_cases hpre : (['/']).isPrefixOf rest = true
                  · cases rest with
                    | nil => rfl
                    | cons d t =>
                      have hh := head_of_isPrefixOf_single hpre
                      simp only [List.head?_cons, Option.some.injEq] at hh
                      subst hh
                      unfold firstSegment
                      rw [List.takeWhile_cons, if_neg (by simp)]
                      rfl
                  · have hnc : containsSub ([':']) (firstSegment rest) ≠ true :=
                      fun hc => hb2 ⟨fun hp => hpre hp, hc⟩
                    revert hnc
                    cases containsSub ([':']) (firstSegment rest) <;> simp
                · rintro ⟨h1, -, -⟩ h2
                  dsimp only at h2 ⊢
                  have hX : ¬(toLowerS sc ≠ [] ∨
                      ¬ (['/', '/', '/']).isPrefixOf rest = true) :=
                    fun hX => hb3 ⟨hX, h2⟩
                  by_contra h3
                  exact hX (Or.inr h3)
                · intro ho
                  dsimp only at ho
                  rw [Bool.and_eq_true] at ho
                  have hscne : toLowerS sc ≠ [] := of_decide_eq_true ho.1
                  refine ⟨hscne, rfl, rfl, rfl, head_of_isPrefixOf_single ho.2, ?_⟩
                  have hnp : ¬(['/', '/']).isPrefixOf rest = true :=
                    fun h2 => hb3 ⟨Or.inl hscne, h2⟩
                  revert hnp
                  cases (['/', '/']).isPrefixOf rest <;> simp
              · rw [if_neg hesc] at h
                exact Except.noConfusion h

theorem WF_parse {s : Chars} {u : URL} (h : parseURLChars s = .ok u) :
    WF u ∧ (u.opq ≠ [] → u.path = []) := by
  unfold parseURLChars at h
  dsimp only at h
  have hhash : ∀ c ∈ (splitAtChar '#' true s).1, c ≠ '#' := by
    intro c hc
    rw [splitAtChar_fst] at hc
    have hb := (mem_takeWhile_facts hc).2
    simpa using hb
  cases hpp : parsePart (splitAtChar '#' true s).1 with
  | error e =>
    rw [hpp] at h
    exact Except.noConfusion h
  | ok u1 =>
    rw [hpp] at h
    dsimp only at h
    have hW := WF_parsePart hpp hhash
    by_cases hp2 : (splitAtChar '#' true s).2 = []
    · rw [if_pos hp2] at h
      have hu := (Except.ok.inj h).symm
      subst hu
      exact hW
    · rw [if_neg hp2] at h
      by_cases hve : validEscapes (splitAtChar '#' true s).2 = true
      · rw [if_pos hve] at h
        have hu := (Except.ok.inj h).symm
        subst hu
        exact ⟨⟨hW.1.scheme_ok, hW.1.opq_scheme, hW.1.opq_slash, hW.1.opq_clean,
          hW.1.opq_rest, hW.1.user_ok, hW.1.host_ok, hW.1.path_esc, hW.1.path_clean,
          hW.1.path_slash, hW.1.path_rootless, hW.1.path_dslash, hW.1.omit_ok,
          hW.1.fq_ok, hW.1.query_clean, hve⟩, hW.2⟩
      · rw [if_neg hve] at h
        exact Except.noConfusion h

theorem WF_fixPath {u : URL} (hwf : WF u) : WF (fixPath u) := by
  unfold fixPath
  by_cases hp : u.path = []
  · rw [if_pos hp]
    exact ⟨hwf.scheme_ok, hwf.opq_scheme, hwf.opq_slash, hwf.opq_clean, hwf.opq_rest,
      hwf.user_ok, hwf.host_ok, rfl,
      (fun c hc => by
        simp only [List.mem_singleton] at hc
        subst hc
        exact ⟨by decide, by decide, by decide⟩),
      (fun _ => Or.inr rfl), (fun _ => rfl),
      (fun _ h2 => Bool.noConfusion h2),
      (fun ho => by
        have hx := hwf.omit_ok ho
        exact ⟨hx.1, hx.2.1, hx.2.2.1, hx.2.2.2.1, rfl, rfl⟩),
      hwf.fq_ok, hwf.query_clean, hwf.frag_esc⟩
  · rw [if_neg hp]
    exact hwf

theorem fixPath_path_ne {u : URL} : (fixPath u).path ≠ [] := by
  unfold fixPath
  by_cases hp : u.path = []
  · rw [if_pos hp]
    simp
  · rw [if_neg hp]
    exact hp

theorem urlString_ne_nil {v : URL} (hp : v.path ≠ []) : urlString v ≠ [] := by
  intro he
  unfold urlString at he
  dsimp only at he
  obtain ⟨h1, -⟩ := List.append_eq_nil.mp he
  obtain ⟨h2, -⟩ := List.append_eq_nil.mp h1
  obtain ⟨-, h3⟩ := List.append_eq_nil.mp h2
  by_cases ho : v.opq = []
  · rw [if_neg (fun hx => hx ho)] at h3
    obtain ⟨h4, h5⟩ := List.append_eq_nil.mp h3
    obtain ⟨h6, h7⟩ := List.append_eq_nil.mp h4
    obtain ⟨h8, h9⟩ := List.append_eq_nil.mp h6
    exact hp h5
  · rw [if_pos ho] at h3
    exact ho h3

theorem fixPath_opq (u : URL) : (fixPath u).opq = u.opq := by
  unfold fixPath
  split <;> rfl

theorem fixPath_idem (u : URL) : fixPath (fixPath u) = fixPath u := by
  unfold fixPath
  by_cases hp : u.path = []
  · rw [if_pos hp, if_neg (by simp)]
  · rw [if_neg hp, if_neg hp]

/-- C6: normalization is idempotent — whenever normalizeUrl succeeds on s
with result t, running it again on t succeeds and returns t unchanged. -/
theorem c6_normalize_idempotent {s t : Chars} (h : normalizeUrl s = .ok t) :
    normalizeUrl t = .ok t := by
  unfold normalizeUrl at h
  cases hps : parseURLChars s with
  | error e =>
    rw [hps] at h
    exact Except.noConfusion h
  | ok u0 =>
    rw [hps] at h
    have ht : t = urlString (fixPath u0) := (Except.ok.inj h).symm
    subst ht
    obtain ⟨hwf0, hop⟩ := WF_parse hps
    have hwfv : WF (fixPath u0) := WF_fixPath hwf0
    unfold normalizeUrl
    rw [parse_urlString hwfv]
    dsimp only
    have hv : fixPath (eraseOpqPath (fixPath u0)) = fixPath u0 := by
      by_cases ho : u0.opq = []
      · have he : eraseOpqPath (fixPath u0) = fixPath u0 := by
          unfold eraseOpqPath
          rw [fixPath_opq]
          rw [if_pos ho]
        rw [he, fixPath_idem]
      · have hpz : u0.path = [] := hop ho
        have hf : fixPath u0 = { u0 with path := ['/'] } := by
          unfold fixPath
          rw [if_pos hpz]
        rw [hf]
        unfold eraseOpqPath
        rw [if_neg ho]
        unfold fixPath
        rw [if_pos rfl]
    rw [hv]


/-- C10: for a request whose URL is the result of a successful parse, the
normalization inside makeRequest always succeeds with a nonempty string,
so the discarded-error branch never fires and the Link Map key is the
normalized URL. -/
theorem c10_normalize_total {s : Chars} {req : Request}
    (h : parseURLChars s = .ok req.url) :
    ∃ t, normalizeUrl (urlString req.url) = .ok t ∧ t ≠ [] ∧
      ∀ links, makeRequest links req =
        (match getLink links ⟨normalizeIP req.remoteAddr, t⟩ with
         | some link => urlParse req.url link
         | none => .ok req.url) := by
  obtain ⟨hwf, -⟩ := WF_parse h
  refine ⟨urlString (fixPath (eraseOpqPath req.url)), ?_, ?_, ?_⟩
  · unfold normalizeUrl
    rw [parse_urlString hwf]
  · exact urlString_ne_nil fixPath_path_ne
  · intro links
    unfold makeRequest
    rw [show normalizeUrl (urlString req.url) =
        .ok (urlString (fixPath (eraseOpqPath req.url))) from by
      unfold normalizeUrl
      rw [parse_urlString hwf]]

/-- Witness for C6: a concrete URL that normalization rewrites (path
added), on which the re-normalization is the identity. -/
theorem c6_normalize_idempotent_witness :
    normalizeUrl (("https://a").data) = .ok (("https://a/").data) ∧
    normalizeUrl (("https://a/").data) = .ok (("https://a/").data) :=
  ⟨rfl, c6_normalize_idempotent
    (show normalizeUrl (("https://a").data) = .ok (("https://a/").data) from rfl)⟩

/-- Witness for C10 at a concrete parsed request URL. -/
theorem c10_normalize_total_witness :
    parseURLChars (("http://h/p").data) =
      .ok (URL.mk (("http").data) [] none (("h").data) (("/p").data) false false [] []) ∧
    ∃ t, normalizeUrl (urlString
        (URL.mk (("http").data) [] none (("h").data) (("/p").data) false false [] [])) =
      .ok t ∧ t ≠ [] ∧
      ∀ links, makeRequest links
          (Request.mk
            (URL.mk (("http").data) [] none (("h").data) (("/p").data) false false [] [])
            (("h").data) (("1.2.3.4:9").data)) =
        (match getLink links ⟨normalizeIP (("1.2.3.4:9").data), t⟩ with
         | some link => urlParse
            (URL.mk (("http").data) [] none (("h").data) (("/p").data) false false [] [])
            link
         | none => .ok
            (URL.mk (("http").data) [] none (("h").data) (("/p").data) false false [] [])) :=
  ⟨rfl, @c10_normalize_total (("http://h/p").data)
    (Request.mk
      (URL.mk (("http").data) [] none (("h").data) (("/p").data) false false [] [])
      (("h").data) (("1.2.3.4:9").data))
    (show parseURLChars (("http://h/p").data) =
      .ok (URL.mk (("http").data) [] none (("h").data) (("/p").data) false false [] [])
      from rfl)⟩

/-! ### C4 support: occurrences across concatenations -/

theorem isPrefixOf_of_eq_append {x y : Chars} (t : Chars) (h : y = x ++ t) :
    x.isPrefixOf y = true := by
  rw [h]
  exact isPrefixOf_append_self x t

theorem containsSub_append_cases {sub a b : Chars}
    (h : containsSub sub (a ++ b) = true) :
    containsSub sub a = true ∨ containsSub sub b = true ∨
    ∃ j, 1 ≤ j ∧ j < sub.length ∧ (sub.drop j).isPrefixOf b = true := by
  obtain ⟨i, hi⟩ := containsSub_iff.mp h
  rcases prefix_of_isPrefixOf hi with ⟨t, ht⟩
  by_cases hil : i < a.length
  · have hsplit : (a ++ b).drop i = a.drop i ++ b := by
      rw [List.drop_append_eq_append_drop]
      rw [show i - a.length = 0 from by omega]
      rfl
    rw [hsplit] at ht
    by_cases hsl : sub.length ≤ (a.drop i).length
    · refine Or.inl (containsSub_iff.mpr ⟨i, ?_⟩)
      have htake : (a.drop i).take sub.length = sub := by
        have h2 : (a.drop i ++ b).take sub.length = sub := by
          rw [ht, List.take_append_eq_append_take]
          rw [show sub.length - sub.length = 0 from by omega]
          simp
        rw [List.take_append_eq_append_take] at h2
        rw [show sub.length - (a.drop i).length = 0 from by omega] at h2
        simpa using h2
      refine isPrefixOf_of_eq_append ((a.drop i).drop sub.length) ?_
      nth_rewrite 1 [← htake]
      exact (List.take_append_drop _ _).symm
    · refine Or.inr (Or.inr ⟨(a.drop i).length, ?_, by omega, ?_⟩)
      · have hne : a.drop i ≠ [] := by
          intro he
          have := congrArg List.length he
          simp at this
          omega
        have : 0 < (a.drop i).length := List.length_pos.mpr hne
        omega
      · have h2 := congrArg (List.drop (a.drop i).length) ht
        rw [List.drop_left] at h2
        rw [List.drop_append_eq_append_drop] at h2
        rw [show (a.drop i).length - sub.length = 0 from by omega] at h2
        rw [List.drop_zero] at h2
        exact isPrefixOf_of_eq_append _ h2
  · have hsplit : (a ++ b).drop i = b.drop (i - a.length) := by
      rw [List.drop_append_eq_append_drop]
      rw [show a.drop i = [] from List.drop_eq_nil_of_le (by omega)]
      rfl
    rw [hsplit] at ht
    exact Or.inr (Or.inl (containsSub_iff.mpr ⟨i - a.length,
      isPrefixOf_of_eq_append t ht⟩))

theorem isPrefixOf_head {x : Chars} {d : Char} {ds : Chars} (hne : x ≠ [])
    (h : x.isPrefixOf (d :: ds) = true) : x.head? = some d := by
  cases x with
  | nil => exact absurd rfl hne
  | cons e es =>
    simp only [List.isPrefixOf, Bool.and_eq_true, beq_iff_eq] at h
    rw [h.1]
    rfl

theorem drop_takeWhile_length (p : Char → Bool) (X : Chars) :
    X.drop (X.takeWhile p).length = X.dropWhile p := by
  obtain ⟨tw, dw, htw, hdw, heq⟩ :
      ∃ tw dw, X.takeWhile p = tw ∧ X.dropWhile p = dw ∧ X = tw ++ dw :=
    ⟨_, _, rfl, rfl, (List.takeWhile_append_dropWhile p X).symm⟩
  rw [htw, hdw, heq]
  exact List.drop_left _ _

theorem parsePart_ok_scheme {s : Chars} {sc rest0 : Chars} {u : URL}
    (hgs : getScheme s = .ok (sc, rest0)) (hstar : s ≠ ['*'])
    (h : parsePart s = .ok u) : u.scheme = toLowerS sc := by
  unfold parsePart at h
  by_cases hctl : s.any isCTL = true
  · rw [if_pos hctl] at h
    exact Except.noConfusion h
  · rw [if_neg hctl, if_neg hstar, hgs] at h
    dsimp only at h
    generalize hq : (if rest0.getLast? = some '?' ∧
        ¬ containsSub (['?']) rest0.dropLast then
        (rest0.dropLast, true, ([] : Chars))
      else
        ((splitAtChar '?' true rest0).1, false,
          (splitAtChar '?' true rest0).2)) = qt at h
    obtain ⟨rest, qt2⟩ := qt
    obtain ⟨fqv, rqv⟩ := qt2
    dsimp only at h
    by_cases hb1 : (¬ (['/']).isPrefixOf rest) ∧ toLowerS sc ≠ []
    · rw [if_pos hb1] at h
      have hu := (Except.ok.inj h).symm
      subst hu
      rfl
    · rw [if_neg hb1] at h
      by_cases hb2 : (¬ (['/']).isPrefixOf rest) ∧
          containsSub ([':']) (firstSegment rest) = true
      · rw [if_pos hb2] at h
        exact Except.noConfusion h
      · rw [if_neg hb2] at h
        by_cases hb3 : (toLowerS sc ≠ [] ∨ ¬ (['/', '/', '/']).isPrefixOf rest = true) ∧
            (['/', '/']).isPrefixOf rest = true
        · rw [if_pos hb3] at h
          cases hpa : parseAuthority ((rest.drop 2).takeWhile (fun c => c != '/')) with
          | error e =>
            rw [hpa] at h
            exact Except.noConfusion h
          | ok uh =>
            rw [hpa] at h
            dsimp only at h
            by_cases hesc : validEscapes ((rest.drop 2).dropWhile (fun c => c != '/')) = true
            · rw [if_pos hesc] at h
              have hu := (Except.ok.inj h).symm
              subst hu
              rfl
            · rw [if_neg hesc] at h
              exact Except.noConfusion h
        · rw [if_neg hb3] at h
          by_cases hesc : validEscapes rest = true
          · rw [if_pos hesc] at h
            have hu := (Except.ok.inj h).symm
            subst hu
            rfl
          · rw [if_neg hesc] at h
            exact Except.noConfusion h

theorem urlString_head_scheme {v : URL} {c : Char} {cs : Chars}
    (h : v.scheme = c :: cs) : (urlString v).head? = some c := by
  simp [urlString, h]

theorem parseURL_http_scheme {tail : Chars} {u : URL}
    (h : parseURLChars (("http://").data ++ tail) = .ok u) :
    u.scheme = ("http").data := by
  unfold parseURLChars at h
  dsimp only at h
  have hp1 : (splitAtChar '#' true (("http://").data ++ tail)).1 =
      ("http://").data ++ tail.takeWhile (fun c => c != '#') := by
    rw [splitAtChar_fst]
    exact takeWhile_append_all _ (by decide)
  rw [hp1] at h
  cases hpp : parsePart (("http://").data ++ tail.takeWhile (fun c => c != '#')) with
  | error e =>
    rw [hpp] at h
    exact Except.noConfusion h
  | ok u1 =>
    have hgs : getScheme (("http://").data ++ tail.takeWhile (fun c => c != '#')) =
        .ok (("http").data, ('/' :: '/' :: tail.takeWhile (fun c => c != '#'))) :=
      @getScheme_found 'h' (("ttp").data)
        ('/' :: '/' :: tail.takeWhile (fun c => c != '#')) (by decide) (by decide)
    have hsch : u1.scheme = toLowerS (("http").data) :=
      parsePart_ok_scheme hgs (by
        intro he
        have hlen := congrArg List.length he
        simp at hlen) hpp
    rw [hpp] at h
    dsimp only at h
    by_cases hp2 : (splitAtChar '#' true (("http://").data ++ tail)).2 = []
    · rw [if_pos hp2] at h
      have hu := (Except.ok.inj h).symm
      subst hu
      exact hsch
    · rw [if_neg hp2] at h
      by_cases hve : validEscapes (splitAtChar '#' true (("http://").data ++ tail)).2 = true
      · rw [if_pos hve] at h
        have hu := (Except.ok.inj h).symm
        subst hu
        exact hsch
      · rw [if_neg hve] at h
        exact Except.noConfusion h

theorem normalize_http_facts {tail rep : Chars}
    (h : normalizeUrl (("http://").data ++ tail) = .ok rep) :
    rep ≠ [] ∧ rep.head? = some 'h' := by
  unfold normalizeUrl at h
  cases hps : parseURLChars (("http://").data ++ tail) with
  | error e =>
    rw [hps] at h
    exact Except.noConfusion h
  | ok u1 =>
    rw [hps] at h
    have hrep : rep = urlString (fixPath u1) := (Except.ok.inj h).symm
    subst hrep
    have hsch : (fixPath u1).scheme = ("http").data := by
      rw [show (fixPath u1).scheme = u1.scheme from by unfold fixPath; split <;> rfl]
      exact parseURL_http_scheme hps
    have hhead := @urlString_head_scheme _ 'h' (("ttp").data) hsch
    refine ⟨?_, hhead⟩
    intro he
    rw [he] at hhead
    cases hhead

theorem htmlRewriteGo_clean (cip : Chars) :
    ∀ fuel s, s.length ≤ fuel →
      (∀ m ∈ (htmlRewriteGo cip fuel s).2.2,
        ∃ rep, normalizeUrl (("http://").data ++ m.drop 8) = .ok rep ∧
          containsSub httpsLit rep = false) →
      containsSub httpsLit (htmlRewriteGo cip fuel s).1 = false ∧
      (∀ j x, 1 ≤ j → j ≤ 8 → x ≠ [] → x.isPrefixOf (httpsLit.drop j) = true →
        x.isPrefixOf (htmlRewriteGo cip fuel s).1 = true →
        x.isPrefixOf s = true) := by
  intro fuel
  induction fuel with
  | zero =>
    intro s hlen htr
    cases s with
    | nil =>
      refine ⟨rfl, ?_⟩
      intro j x _ _ hxne hxfrag hxpre
      cases x with
      | nil => exact absurd rfl hxne
      | cons x0 xs => cases hxpre
    | cons c cs => simp at hlen
  | succ fuel ih =>
    intro s hlen htr
    cases s with
    | nil =>
      refine ⟨rfl, ?_⟩
      intro j x _ _ hxne hxfrag hxpre
      cases x with
      | nil => exact absurd rfl hxne
      | cons x0 xs => cases hxpre
    | cons c cs =>
      by_cases hpre : httpsLit.isPrefixOf (c :: cs) = true
      · obtain ⟨n, hn⟩ : ∃ n, n = 8 + (((c :: cs).drop 8).takeWhile isLinkChar).length :=
          ⟨_, rfl⟩
        have heq : htmlRewriteGo cip (fuel + 1) (c :: cs) =
            ((htmlReplace cip ((c :: cs).take n)).1 ++
              (htmlRewriteGo cip fuel ((c :: cs).drop n)).1,
             (htmlReplace cip ((c :: cs).take n)).2 ++
              (htmlRewriteGo cip fuel ((c :: cs).drop n)).2.1,
             ((c :: cs).take n) :: (htmlRewriteGo cip fuel ((c :: cs).drop n)).2.2) := by
          rw [hn]
          simp only [htmlRewriteGo]
          rw [if_pos hpre]
        have hn8 : 8 ≤ n := by omega
        have hrest : (c :: cs).drop n = ((c :: cs).drop 8).dropWhile isLinkChar := by
          rw [← drop_takeWhile_length isLinkChar ((c :: cs).drop 8)]
          rw [List.drop_drop]
          rw [hn]
        have hlen2 : ((c :: cs).drop n).length ≤ fuel := by
          rw [List.length_drop]
          simp only [List.length_cons] at hlen ⊢
          omega
        have hm := htr ((c :: cs).take n) (by
          rw [heq]
          exact List.mem_cons_self _ _)
        obtain ⟨rep, hnorm, hrepclean⟩ := hm
        have hpEq : (htmlReplace cip ((c :: cs).take n)).1 = rep := by
          unfold htmlReplace
          rw [hnorm]
        obtain ⟨hrne, hrhead⟩ := normalize_http_facts hnorm
        have htr2 : ∀ m ∈ (htmlRewriteGo cip fuel ((c :: cs).drop n)).2.2,
            ∃ rep, normalizeUrl (("http://").data ++ m.drop 8) = .ok rep ∧
              containsSub httpsLit rep = false :=
          fun m hm2 => htr m (by
            rw [heq]
            exact List.mem_cons_of_mem _ hm2)
        obtain ⟨iha, ihb⟩ := ih ((c :: cs).drop n) hlen2 htr2
        rw [heq]
        dsimp only
        rw [hpEq]
        constructor
        · cases hx : containsSub httpsLit
              (rep ++ (htmlRewriteGo cip fuel ((c :: cs).drop n)).1) with
          | false => rfl
          | true =>
            exfalso
            rcases containsSub_append_cases hx with hA | hB | ⟨j, hj1, hj2, hjp⟩
            · exact absurd hA (not_bor1 hrepclean)
            · exact absurd hB (not_bor1 iha)
            · have hj2' : j < 8 := by
                have h8 : httpsLit.length = 8 := rfl
                omega
              have hfragne : httpsLit.drop j ≠ [] := by
                intro he
                have hl := congrArg List.length he
                rw [List.length_drop] at hl
                have h8 : httpsLit.length = 8 := rfl
                rw [h8] at hl
                simp at hl
                omega
              have hfrag := ihb j (httpsLit.drop j) hj1 (by omega) hfragne
                (by simpa using isPrefixOf_append_self (httpsLit.drop j) []) hjp
              rw [hrest] at hfrag
              cases hdw : ((c :: cs).drop 8).dropWhile isLinkChar with
              | nil =>
                rw [hdw] at hfrag
                cases hcc : httpsLit.drop j with
                | nil => exact hfragne hcc
                | cons e es =>
                  rw [hcc] at hfrag
                  cases hfrag
              | cons d ds =>
                rw [hdw] at hfrag
                have hd := isPrefixOf_head hfragne hfrag
                have hdlink : isLinkChar d = false := dropWhile_head_not hdw
                have hlk := (show ∀ j, 1 ≤ j → j < 8 →
                    (match (httpsLit.drop j).head? with
                     | some dd => isLinkChar dd
                     | none => false) = true from by decide) j hj1 hj2'
                rw [hd] at hlk
                dsimp only at hlk
                rw [hdlink] at hlk
                cases hlk
        · intro j x hj1 hj8 hxne hxfrag hxpre
          exfalso
          by_cases hj8e : j = 8
          · rw [hj8e, show httpsLit.drop 8 = [] from rfl] at hxfrag
            cases x with
            | nil => exact absurd rfl hxne
            | cons x0 xs => cases hxfrag
          · have hj2 : j < 8 := by omega
            cases x with
            | nil => exact absurd rfl hxne
            | cons x0 xs =>
              have hlk := (show ∀ j, 1 ≤ j → j < 8 →
                  (match (httpsLit.drop j).head? with
                   | some dd => decide (dd ≠ 'h')
                   | none => false) = true from by decide) j hj1 hj2
              cases hcc : httpsLit.drop j with
              | nil =>
                rw [hcc] at hxfrag
                cases hxfrag
              | cons e es =>
                rw [hcc] at hxfrag
                simp only [List.isPrefixOf, Bool.and_eq_true, beq_iff_eq] at hxfrag
                rw [hcc] at hlk
                simp only [List.head?_cons] at hlk
                have hech := of_decide_eq_true hlk
                cases rep with
                | nil => exact hrne rfl
                | cons r0 rt =>
                  simp only [List.head?_cons, Option.some.injEq] at hrhead
                  rw [List.cons_append] at hxpre
                  simp only [List.isPrefixOf, Bool.and_eq_true, beq_iff_eq] at hxpre
                  exact hech (by rw [← hxfrag.1, hxpre.1, hrhead])
      · have heq : htmlRewriteGo cip (fuel + 1) (c :: cs) =
            (c :: (htmlRewriteGo cip fuel cs).1, (htmlRewriteGo cip fuel cs).2) := by
          simp only [htmlRewriteGo]
          rw [if_neg hpre]
        have htr2 : ∀ m ∈ (htmlRewriteGo cip fuel cs).2.2,
            ∃ rep, normalizeUrl (("http://").data ++ m.drop 8) = .ok rep ∧
              containsSub httpsLit rep = false :=
          fun m hm2 => htr m (by rw [heq]; exact hm2)
        obtain ⟨iha, ihb⟩ := ih cs (by simp only [List.length_cons] at hlen; omega) htr2
        rw [heq]
        dsimp only
        constructor
        · simp only [containsSub, Bool.or_eq_false_iff]
          refine ⟨?_, iha⟩
          cases hh : httpsLit.isPrefixOf (c :: (htmlRewriteGo cip fuel cs).1) with
          | false => rfl
          | true =>
            exfalso
            have hh2 : ('h' == c && (("ttps://").data).isPrefixOf
                (htmlRewriteGo cip fuel cs).1) = true := hh
            rw [Bool.and_eq_true] at hh2
            have htail := ihb 1 (("ttps://").data) (by omega) (by omega) (by decide)
              (by decide) hh2.2
            have : httpsLit.isPrefixOf (c :: cs) = true := by
              show ('h' == c && (("ttps://").data).isPrefixOf cs) = true
              rw [Bool.and_eq_true]
              exact ⟨hh2.1, htail⟩
            exact absurd this hpre
        · intro j x hj1 hj8 hxne hxfrag hxpre
          cases x with
          | nil => exact absurd rfl hxne
          | cons x0 xs =>
            simp only [List.isPrefixOf, Bool.and_eq_true, beq_iff_eq] at hxpre
            show ((x0 == c) && xs.isPrefixOf cs) = true
            rw [Bool.and_eq_true]
            refine ⟨by simp [hxpre.1], ?_⟩
            cases hxs : xs with
            | nil => cases cs <;> rfl
            | cons y ys =>
              rw [← hxs]
              have hxsne : xs ≠ [] := by rw [hxs]; simp
              cases hcc : httpsLit.drop j with
              | nil =>
                rw [hcc] at hxfrag
                cases hxfrag
              | cons e w =>
                rw [hcc] at hxfrag
                simp only [List.isPrefixOf, Bool.and_eq_true, beq_iff_eq] at hxfrag
                have hj2 : j < 8 := by
                  rcases Nat.lt_or_ge j 8 with hlt | hge
                  · exact hlt
                  · exfalso
                    rw [show j = 8 from by omega, show httpsLit.drop 8 = [] from rfl] at hcc
                    cases hcc
                have hw : httpsLit.drop (j + 1) = w := by
                  rw [← List.drop_drop, hcc]
                  rfl
                exact ihb (j + 1) xs (by omega) (by omega) hxsne
                  (by rw [hw]; exact hxfrag.2) hxpre.2

theorem containsHttpsRef_le {t : Chars} (h : containsHttpsRef t = true) :
    containsSub httpsLit t = true := by
  induction t with
  | nil => cases h
  | cons c cs ih =>
    simp only [containsHttpsRef, Bool.or_eq_true] at h
    simp only [containsSub, Bool.or_eq_true]
    rcases h with h | h
    · unfold specMatchAt at h
      rw [Bool.and_eq_true] at h
      exact Or.inl h.1
    · exact Or.inr (ih h)

/-- C4: corrected form of the body-rewrite absence claim.  The
unconditional claim is refuted by the counterexample (a match whose URL
fails to normalize is left in place); under the proviso that every match
of the body-rewrite regular expression normalizes, after the scheme
swap, to a string free of the substring "https://", the emitted body of
the HTML pass contains no "https://" substring and therefore no match of
the specification pattern at all. -/
theorem c4_html_absence {cip s : Chars}
    (hrep : ∀ m ∈ (htmlRewrite cip s).2.2,
      ∃ rep, normalizeUrl (("http://").data ++ m.drop 8) = .ok rep ∧
        containsSub httpsLit rep = false) :
    containsSub httpsLit (htmlRewrite cip s).1 = false ∧
    containsHttpsRef (htmlRewrite cip s).1 = false := by
  have h := htmlRewriteGo_clean cip s.length s (le_refl _) hrep
  refine ⟨h.1, ?_⟩
  cases hc : containsHttpsRef (htmlRewrite cip s).1 with
  | false => rfl
  | true => exact absurd (containsHttpsRef_le hc) (not_bor1 h.1)

/-- Witness for C4 on a concrete body with one rewritable match. -/
theorem c4_html_absence_witness :
    containsSub httpsLit
      (htmlRewrite (("1.2.3.4").data) (("see https://e.com/x done").data)).1 = false ∧
    containsHttpsRef
      (htmlRewrite (("1.2.3.4").data) (("see https://e.com/x done").data)).1 = false :=
  c4_html_absence (fun m hm => by
    rw [show (htmlRewrite (("1.2.3.4").data)
        (("see https://e.com/x done").data)).2.2 =
      [("https://e.com/x").data] from rfl] at hm
    rw [List.mem_singleton.mp hm]
    exact ⟨("http://e.com/x").data, rfl, rfl⟩)


/-! ### C1 support: the scheme-swap congruence of the parser -/

theorem exists_of_isPrefixOf {a : Chars} : ∀ {s : Chars}, a.isPrefixOf s = true →
    ∃ t, s = a ++ t := by
  induction a with
  | nil => exact fun {s} _ => ⟨s, rfl⟩
  | cons c cs ih =>
    intro s h
    cases s with
    | nil => cases h
    | cons d ds =>
      have h2 : (c == d) = true ∧ cs.isPrefixOf ds = true := by
        simpa [List.isPrefixOf] using h
      obtain ⟨t, ht⟩ := ih h2.2
      refine ⟨t, ?_⟩
      have hcd : c = d := eq_of_beq h2.1
      rw [ht, ← hcd]
      rfl

theorem parseAfterQuery_scheme_congr {s1 s2 : Chars} (h1 : s1 ≠ []) (h2 : s2 ≠ [])
    (rest : Chars) (fq : Bool) (rq : Chars) :
    parseAfterQuery s1 rest fq rq =
      (parseAfterQuery s2 rest fq rq).map (fun u => { u with scheme := s1 }) := by
  unfold parseAfterQuery
  by_cases hpre : (['/']).isPrefixOf rest = true
  · have e1a : ¬ ((¬ (['/']).isPrefixOf rest = true) ∧ s1 ≠ []) := fun hc => hc.1 hpre
    have e1b : ¬ ((¬ (['/']).isPrefixOf rest = true) ∧ s2 ≠ []) := fun hc => hc.1 hpre
    have e2 : ¬ ((¬ (['/']).isPrefixOf rest = true) ∧
        containsSub ([':']) (firstSegment rest) = true) := fun hc => hc.1 hpre
    rw [if_neg e1a, if_neg e1b, if_neg e2, if_neg e2]
    by_cases hb3 : (['/', '/']).isPrefixOf rest = true
    · rw [if_pos (show (s1 ≠ [] ∨ ¬ (['/', '/', '/']).isPrefixOf rest = true) ∧
            (['/', '/']).isPrefixOf rest = true from ⟨Or.inl h1, hb3⟩),
          if_pos (show (s2 ≠ [] ∨ ¬ (['/', '/', '/']).isPrefixOf rest = true) ∧
            (['/', '/']).isPrefixOf rest = true from ⟨Or.inl h2, hb3⟩)]
      cases hpa : parseAuthority ((rest.drop 2).takeWhile (fun c => c != '/')) with
      | error e => rfl
      | ok uh =>
        dsimp only
        by_cases hesc : validEscapes ((rest.drop 2).dropWhile (fun c => c != '/')) = true
        · rw [if_pos hesc, if_pos hesc]
          rfl
        · rw [if_neg hesc, if_neg hesc]
          rfl
    · rw [if_neg (show ¬ ((s1 ≠ [] ∨ ¬ (['/', '/', '/']).isPrefixOf rest = true) ∧
            (['/', '/']).isPrefixOf rest = true) from fun hc => hb3 hc.2),
          if_neg (show ¬ ((s2 ≠ [] ∨ ¬ (['/', '/', '/']).isPrefixOf rest = true) ∧
            (['/', '/']).isPrefixOf rest = true) from fun hc => hb3 hc.2)]
      by_cases hesc : validEscapes rest = true
      · rw [if_pos hesc, if_pos hesc, decide_eq_true h1, decide_eq_true h2]
        rfl
      · rw [if_neg hesc, if_neg hesc]
        rfl
  · rw [if_pos (show (¬ (['/']).isPrefixOf rest = true) ∧ s1 ≠ [] from ⟨hpre, h1⟩),
        if_pos (show (¬ (['/']).isPrefixOf rest = true) ∧ s2 ≠ [] from ⟨hpre, h2⟩)]
    rfl

theorem parseAfterQuery_slash_opq {s rest : Chars} {fq : Bool} {rq : Chars} {u : URL}
    (hh : rest = [] ∨ rest.head? = some '/')
    (h : parseAfterQuery s rest fq rq = .ok u) : u.opq = [] := by
  unfold parseAfterQuery at h
  by_cases hb1 : (¬ (['/']).isPrefixOf rest = true) ∧ s ≠ []
  · rw [if_pos hb1] at h
    have hu := (Except.ok.inj h).symm
    subst hu
    show rest = []
    cases hh with
    | inl he => exact he
    | inr hhd => exact absurd (isPrefixOf_single_head hhd) hb1.1
  · rw [if_neg hb1] at h
    by_cases hb2 : (¬ (['/']).isPrefixOf rest = true) ∧
        containsSub ([':']) (firstSegment rest) = true
    · rw [if_pos hb2] at h
      exact Except.noConfusion h
    · rw [if_neg hb2] at h
      by_cases hb3 : (s ≠ [] ∨ ¬ (['/', '/', '/']).isPrefixOf rest = true) ∧
          (['/', '/']).isPrefixOf rest = true
      · rw [if_pos hb3] at h
        cases hpa : parseAuthority ((rest.drop 2).takeWhile (fun c => c != '/')) with
        | error e =>
          rw [hpa] at h
          exact Except.noConfusion h
        | ok uh =>
          rw [hpa] at h
          dsimp only at h
          by_cases hesc : validEscapes ((rest.drop 2).dropWhile (fun c => c != '/')) = true
          · rw [if_pos hesc] at h
            have hu := (Except.ok.inj h).symm
            subst hu
            rfl
          · rw [if_neg hesc] at h
            exact Except.noConfusion h
      · rw [if_neg hb3] at h
        by_cases hesc : validEscapes rest = true
        · rw [if_pos hesc] at h
          have hu := (Except.ok.inj h).symm
          subst hu
          rfl
        · rw [if_neg hesc] at h
          exact Except.noConfusion h

theorem qsplit_head {rest0 main : Chars} {fqv : Bool} {rqv : Chars}
    (hh : rest0.head? = some '/')
    (hq : (if rest0.getLast? = some '?' ∧ ¬ containsSub (['?']) rest0.dropLast then
        (rest0.dropLast, true, ([] : Chars))
      else
        ((splitAtChar '?' true rest0).1, false, (splitAtChar '?' true rest0).2)) =
      (main, fqv, rqv)) :
    main = [] ∨ main.head? = some '/' := by
  by_cases hc : rest0.getLast? = some '?' ∧ ¬ containsSub (['?']) rest0.dropLast = true
  · rw [if_pos hc] at hq
    have hm : rest0.dropLast = main := congrArg Prod.fst hq
    cases rest0 with
    | nil => cases hh
    | cons a t =>
      have ha : a = '/' := Option.some.inj hh
      cases t with
      | nil =>
        left
        rw [← hm]
        rfl
      | cons b t2 =>
        right
        rw [← hm, show (a :: b :: t2).dropLast = a :: (b :: t2).dropLast from rfl, ha]
        rfl
  · rw [if_neg hc] at hq
    have hm : (splitAtChar '?' true rest0).1 = main := congrArg Prod.fst hq
    rw [splitAtChar_fst] at hm
    cases rest0 with
    | nil => cases hh
    | cons a t =>
      have ha : a = '/' := Option.some.inj hh
      right
      rw [← hm, ha]
      rfl

theorem splitAtChar_snd_append_all {sep : Char} (cutc : Bool) {a : Chars} (b : Chars)
    (h : ∀ c ∈ a, (c != sep) = true) :
    (splitAtChar sep cutc (a ++ b)).2 = (splitAtChar sep cutc b).2 := by
  unfold splitAtChar
  rw [dropWhile_append_all b h]
  cases hd : b.dropWhile (fun c => c != sep) with
  | nil => rfl
  | cons d rest => rfl

theorem parse_scheme_congr (Y : Chars) :
    parseURLChars (httpsLit ++ Y) =
      (parseURLChars (("http://").data ++ Y)).map
        (fun u => { u with scheme := ("https").data }) := by
  unfold parseURLChars
  dsimp only
  have hp1a : (splitAtChar '#' true (httpsLit ++ Y)).1 =
      httpsLit ++ Y.takeWhile (fun c => c != '#') := by
    rw [splitAtChar_fst]
    exact takeWhile_append_all _ (by decide)
  have hp1b : (splitAtChar '#' true (("http://").data ++ Y)).1 =
      ("http://").data ++ Y.takeWhile (fun c => c != '#') := by
    rw [splitAtChar_fst]
    exact takeWhile_append_all _ (by decide)
  have hp2a : (splitAtChar '#' true (httpsLit ++ Y)).2 = (splitAtChar '#' true Y).2 :=
    splitAtChar_snd_append_all true Y (by decide)
  have hp2b : (splitAtChar '#' true (("http://").data ++ Y)).2 =
      (splitAtChar '#' true Y).2 :=
    splitAtChar_snd_append_all true Y (by decide)
  rw [hp1a, hp1b, hp2a, hp2b]
  by_cases hT : (Y.takeWhile (fun c => c != '#')).any isCTL = true
  · have hppA : parsePart (httpsLit ++ Y.takeWhile (fun c => c != '#')) =
        .error ("invalid control character in URL") := by
      unfold parsePart
      rw [if_pos (show (httpsLit ++ Y.takeWhile (fun c => c != '#')).any isCTL = true from by
        rw [List.any_append, show httpsLit.any isCTL = false from by decide, Bool.false_or]
        exact hT)]
    have hppB : parsePart (("http://").data ++ Y.takeWhile (fun c => c != '#')) =
        .error ("invalid control character in URL") := by
      unfold parsePart
      rw [if_pos (show ((("http://").data) ++
          Y.takeWhile (fun c => c != '#')).any isCTL = true from by
        rw [List.any_append, show (("http://").data).any isCTL = false from by decide,
          Bool.false_or]
        exact hT)]
    rw [hppA, hppB]
    rfl
  · have hTf : (Y.takeWhile (fun c => c != '#')).any isCTL = false := by
      cases hval : (Y.takeWhile (fun c => c != '#')).any isCTL with
      | false => rfl
      | true => exact absurd hval hT
    have hctlA : (httpsLit ++ Y.takeWhile (fun c => c != '#')).any isCTL = false := by
      rw [List.any_append, show httpsLit.any isCTL = false from by decide, Bool.false_or]
      exact hTf
    have hctlB : ((("http://").data) ++ Y.takeWhile (fun c => c != '#')).any isCTL = false := by
      rw [List.any_append, show (("http://").data).any isCTL = false from by decide,
        Bool.false_or]
      exact hTf
    have hstarA : httpsLit ++ Y.takeWhile (fun c => c != '#') ≠ ['*'] := by
      intro he
      have hlen := congrArg List.length he
      simp [httpsLit] at hlen
    have hstarB : ("http://").data ++ Y.takeWhile (fun c => c != '#') ≠ ['*'] := by
      intro he
      have hlen := congrArg List.length he
      simp at hlen
    have hgsA : getScheme (httpsLit ++ Y.takeWhile (fun c => c != '#')) =
        .ok (("https").data, '/' :: '/' :: Y.takeWhile (fun c => c != '#')) :=
      @getScheme_found 'h' (("ttps").data)
        ('/' :: '/' :: Y.takeWhile (fun c => c != '#')) (by decide) (by decide)
    have hgsB : getScheme (("http://").data ++ Y.takeWhile (fun c => c != '#')) =
        .ok (("http").data, '/' :: '/' :: Y.takeWhile (fun c => c != '#')) :=
      @getScheme_found 'h' (("ttp").data)
        ('/' :: '/' :: Y.takeWhile (fun c => c != '#')) (by decide) (by decide)
    obtain ⟨⟨main, fq1, rq1⟩, hq⟩ :
        ∃ t, (if ('/' :: '/' :: Y.takeWhile (fun c => c != '#')).getLast? = some '?' ∧
            ¬ containsSub (['?'])
              ('/' :: '/' :: Y.takeWhile (fun c => c != '#')).dropLast then
            (('/' :: '/' :: Y.takeWhile (fun c => c != '#')).dropLast, true, ([] : Chars))
          else
            ((splitAtChar '?' true ('/' :: '/' :: Y.takeWhile (fun c => c != '#'))).1,
              false,
              (splitAtChar '?' true ('/' :: '/' :: Y.takeWhile (fun c => c != '#'))).2)) =
          t := ⟨_, rfl⟩
    rw [parsePart_decomp hctlA hstarA hgsA hq, parsePart_decomp hctlB hstarB hgsB hq]
    rw [show toLowerS (("https").data) = ("https").data from rfl,
        show toLowerS (("http").data) = ("http").data from rfl]
    rw [parseAfterQuery_scheme_congr (show (("https").data : Chars) ≠ [] from by decide)
        (show (("http").data : Chars) ≠ [] from by decide) main fq1 rq1]
    cases hA : parseAfterQuery (("http").data) main fq1 rq1 with
    | error e => rfl
    | ok u1 =>
      rw [show Except.map (fun u => ({ u with scheme := ("https").data } : URL))
          (Except.ok u1) = .ok ({ u1 with scheme := ("https").data }) from rfl]
      dsimp only
      by_cases hF : (splitAtChar '#' true Y).2 = []
      · rw [if_pos hF, if_pos hF]
        rfl
      · rw [if_neg hF, if_neg hF]
        by_cases hve : validEscapes (splitAtChar '#' true Y).2 = true
        · rw [if_pos hve, if_pos hve]
          rfl
        · rw [if_neg hve, if_neg hve]
          rfl

theorem parseURL_http_opq {tail : Chars} {u : URL}
    (h : parseURLChars (("http://").data ++ tail) = .ok u) : u.opq = [] := by
  unfold parseURLChars at h
  dsimp only at h
  have hp1 : (splitAtChar '#' true (("http://").data ++ tail)).1 =
      ("http://").data ++ tail.takeWhile (fun c => c != '#') := by
    rw [splitAtChar_fst]
    exact takeWhile_append_all _ (by decide)
  rw [hp1] at h
  cases hpp : parsePart (("http://").data ++ tail.takeWhile (fun c => c != '#')) with
  | error e =>
    rw [hpp] at h
    exact Except.noConfusion h
  | ok u1 =>
    have hu1 : u1.opq = [] := by
      by_cases hctl :
          ((("http://").data) ++ tail.takeWhile (fun c => c != '#')).any isCTL = true
      · unfold parsePart at hpp
        rw [if_pos hctl] at hpp
        exact Except.noConfusion hpp
      · have hctl' :
            ((("http://").data) ++ tail.takeWhile (fun c => c != '#')).any isCTL = false := by
          cases hval :
              ((("http://").data) ++ tail.takeWhile (fun c => c != '#')).any isCTL with
          | false => rfl
          | true => exact absurd hval hctl
        have hstar : ("http://").data ++ tail.takeWhile (fun c => c != '#') ≠ ['*'] := by
          intro he
          have hlen := congrArg List.length he
          simp at hlen
        have hgs : getScheme (("http://").data ++ tail.takeWhile (fun c => c != '#')) =
            .ok (("http").data, '/' :: '/' :: tail.takeWhile (fun c => c != '#')) :=
          @getScheme_found 'h' (("ttp").data)
            ('/' :: '/' :: tail.takeWhile (fun c => c != '#')) (by decide) (by decide)
        obtain ⟨⟨main, fq1, rq1⟩, hq⟩ :
            ∃ t, (if ('/' :: '/' :: tail.takeWhile (fun c => c != '#')).getLast? =
                  some '?' ∧
                ¬ containsSub (['?'])
                  ('/' :: '/' :: tail.takeWhile (fun c => c != '#')).dropLast then
                (('/' :: '/' :: tail.takeWhile (fun c => c != '#')).dropLast, true,
                  ([] : Chars))
              else
                ((splitAtChar '?' true
                    ('/' :: '/' :: tail.takeWhile (fun c => c != '#'))).1, false,
                  (splitAtChar '?' true
                    ('/' :: '/' :: tail.takeWhile (fun c => c != '#'))).2)) = t :=
          ⟨_, rfl⟩
        rw [parsePart_decomp hctl' hstar hgs hq] at hpp
        have hmain : main = [] ∨ main.head? = some '/' :=
          qsplit_head (show ('/' :: '/' ::
            tail.takeWhile (fun c => c != '#')).head? = some '/' from rfl) hq
        exact parseAfterQuery_slash_opq hmain hpp
    rw [hpp] at h
    dsimp only at h
    by_cases hp2 : (splitAtChar '#' true (("http://").data ++ tail)).2 = []
    · rw [if_pos hp2] at h
      have hu := (Except.ok.inj h).symm
      subst hu
      exact hu1
    · rw [if_neg hp2] at h
      by_cases hve : validEscapes (splitAtChar '#' true (("http://").data ++ tail)).2 = true
      · rw [if_pos hve] at h
        have hu := (Except.ok.inj h).symm
        subst hu
        exact hu1
      · rw [if_neg hve] at h
        exact Except.noConfusion h

theorem fixPath_scheme (u : URL) (s : Chars) :
    fixPath { u with scheme := s } = { fixPath u with scheme := s } := by
  by_cases hp : u.path = []
  · simp [fixPath, hp]
  · simp [fixPath, hp]

theorem c1_swap_core {Y key : Chars}
    (h : normalizeUrl (("http://").data ++ Y) = .ok key) :
    ∃ uk uv, parseURLChars key = .ok uk ∧ uk.scheme = ("http").data ∧
      parseURLChars (httpsLit ++ Y) = .ok uv ∧ uv.scheme = ("https").data ∧
      normalizeUrl (httpsLit ++ Y) = .ok (urlString { uk with scheme := ("https").data }) := by
  unfold normalizeUrl at h
  cases hps : parseURLChars (("http://").data ++ Y) with
  | error e =>
    rw [hps] at h
    exact Except.noConfusion h
  | ok u1 =>
    rw [hps] at h
    have hkey : key = urlString (fixPath u1) := (Except.ok.inj h).symm
    have hwf1 := (WF_parse hps).1
    have hsch1 : u1.scheme = ("http").data := parseURL_http_scheme hps
    have hopq1 : u1.opq = [] := parseURL_http_opq hps
    have hwfF : WF (fixPath u1) := WF_fixPath hwf1
    have hparseKey : parseURLChars key = .ok (eraseOpqPath (fixPath u1)) := by
      rw [hkey]
      exact parse_urlString hwfF
    have hopqF : (fixPath u1).opq = [] := by
      rw [fixPath_opq]
      exact hopq1
    have herase : eraseOpqPath (fixPath u1) = fixPath u1 := by
      unfold eraseOpqPath
      rw [if_pos hopqF]
    rw [herase] at hparseKey
    have hschF : (fixPath u1).scheme = ("http").data := by
      rw [show (fixPath u1).scheme = u1.scheme from by unfold fixPath; split <;> rfl]
      exact hsch1
    have hvs : parseURLChars (httpsLit ++ Y) = .ok { u1 with scheme := ("https").data } := by
      rw [parse_scheme_congr Y, hps]
      rfl
    have hnorm : normalizeUrl (httpsLit ++ Y) =
        .ok (urlString (fixPath { u1 with scheme := ("https").data })) := by
      unfold normalizeUrl
      rw [hvs]
    refine ⟨fixPath u1, { u1 with scheme := ("https").data },
      hparseKey, hschF, hvs, rfl, ?_⟩
    rw [hnorm, fixPath_scheme]

/-! ### C1: the Link-Map entry invariant -/

/-- C1: corrected Link-Map invariant, per storing operation.
(1) A Location downgrade whose header value starts with "https://"
stores one entry: its key url is the normalization of the value with the
scheme swapped to http, the key re-parses with scheme "http", the
original value parses with scheme "https", and normalizing the value
yields exactly the key's url with its scheme replaced by "https".
(2) Every entry stored by the HTML body replacement for a match starting
with "https://" satisfies the same facts.  (3) A CSS url() entry made
under an https-scheme request satisfies the swap literally: the value
starts with "https://", the key url is "http" ++ value.drop 5, and
prepending "https" to the key url's tail restores the value. -/
theorem c1_linkmap_swap :
    (∀ (req : Request) (h : Header) (h2 : Header) (es : List (ClientLink × Chars)),
      stripLocation req h = .ok (h2, es) →
      httpsLit.isPrefixOf (headerGet locationLit h) = true →
      ∃ key uk uv,
        es = [(⟨normalizeIP req.remoteAddr, key⟩, headerGet locationLit h)] ∧
        normalizeUrl (httpPre ++ (headerGet locationLit h).drop 5) = .ok key ∧
        parseURLChars key = .ok uk ∧ uk.scheme = ("http").data ∧
        parseURLChars (headerGet locationLit h) = .ok uv ∧
        uv.scheme = ("https").data ∧
        normalizeUrl (headerGet locationLit h) =
          .ok (urlString { uk with scheme := ("https").data })) ∧
    (∀ (cip m : Chars) (e : ClientLink × Chars), e ∈ (htmlReplace cip m).2 →
      httpsLit.isPrefixOf m = true →
      ∃ uk uv,
        e.1.clientIP = cip ∧ e.2 = m ∧
        normalizeUrl (("http://").data ++ m.drop 8) = .ok e.1.url ∧
        parseURLChars e.1.url = .ok uk ∧ uk.scheme = ("http").data ∧
        parseURLChars m = .ok uv ∧ uv.scheme = ("https").data ∧
        normalizeUrl m = .ok (urlString { uk with scheme := ("https").data })) ∧
    (∀ (req : Request) (m : Chars) (e : ClientLink × Chars),
      e ∈ (cssReplace req m).2 → req.url.scheme = httpsPre →
      e.1.clientIP = normalizeIP req.remoteAddr ∧
      httpsLit.isPrefixOf e.2 = true ∧
      e.1.url = httpPre ++ e.2.drop 5 ∧
      httpsPre ++ e.1.url.drop 4 = e.2) := by
  refine ⟨?_, ?_, ?_⟩
  · intro req h h2 es hstrip hpre
    obtain ⟨Y, hY⟩ := exists_of_isPrefixOf hpre
    rw [hY]
    unfold stripLocation at hstrip
    rw [hY] at hstrip
    rw [if_pos (show httpsPre.isPrefixOf (httpsLit ++ Y) = true from rfl)] at hstrip
    rw [show httpPre ++ (httpsLit ++ Y).drop 5 = ("http://").data ++ Y from rfl] at hstrip
    cases hnk : normalizeUrl (("http://").data ++ Y) with
    | error e =>
      rw [hnk] at hstrip
      exact Except.noConfusion hstrip
    | ok key =>
      rw [hnk] at hstrip
      dsimp only at hstrip
      have hpair := Except.ok.inj hstrip
      have hes : es = [(⟨normalizeIP req.remoteAddr, key⟩, httpsLit ++ Y)] :=
        (congrArg Prod.snd hpair).symm
      obtain ⟨uk, uv, hku, hks, hvu, hvs2, hswap⟩ := c1_swap_core hnk
      refine ⟨key, uk, uv, hes, ?_, hku, hks, hvu, hvs2, hswap⟩
      rw [show httpPre ++ (httpsLit ++ Y).drop 5 = ("http://").data ++ Y from rfl]
      exact hnk
  · intro cip m e he hpre
    obtain ⟨Y, hY⟩ := exists_of_isPrefixOf hpre
    unfold htmlReplace at he
    rw [hY] at he ⊢
    rw [show (httpsLit ++ Y).drop 8 = Y from rfl] at he ⊢
    cases hn : normalizeUrl (("http://").data ++ Y) with
    | error e2 =>
      rw [hn] at he
      dsimp only at he
      cases he
    | ok strippedUrl =>
      rw [hn] at he
      dsimp only at he
      rw [List.mem_singleton] at he
      subst he
      obtain ⟨uk, uv, hku, hks, hvu, hvs2, hswap⟩ := c1_swap_core hn
      exact ⟨uk, uv, rfl, rfl, rfl, hku, hks, hvu, hvs2, hswap⟩
  · intro req m e he hsch
    unfold cssReplace at he
    by_cases hskip : ((urlParenLit ++ [sq] ++ httpPre).isPrefixOf m = true ∨
        (urlParenLit ++ [dq] ++ httpPre).isPrefixOf m = true ∨
        (urlParenLit ++ httpPre).isPrefixOf m = true ∨
        containsSub (("base64").data) m = true)
    · rw [if_pos hskip] at he
      dsimp only at he
      cases he
    · rw [if_neg hskip] at he
      dsimp only at he
      rw [List.mem_singleton] at he
      subst he
      dsimp only
      rw [hsch]
      rw [if_pos (show httpsPre = httpsPre from rfl)]
      by_cases hA1 : ((urlParenLit ++ [sq, '/']).isPrefixOf m = true ∨
          (urlParenLit ++ [dq, '/']).isPrefixOf m = true)
      · rw [if_pos hA1]
        exact ⟨rfl,
          isPrefixOf_of_eq_append (req.host ++ (m.drop 5).dropLast) rfl, rfl, rfl⟩
      · rw [if_neg hA1]
        by_cases hA2 : (urlParenLit ++ ['/']).isPrefixOf m = true
        · rw [if_pos hA2]
          exact ⟨rfl,
            isPrefixOf_of_eq_append (req.host ++ (m.drop 4).dropLast) rfl, rfl, rfl⟩
        · rw [if_neg hA2]
          by_cases hA3 : ((urlParenLit ++ [sq]).isPrefixOf m = true ∨
              (urlParenLit ++ [dq]).isPrefixOf m = true)
          · rw [if_pos hA3]
            exact ⟨rfl, isPrefixOf_of_eq_append
              (req.host ++ req.url.path ++ ['/'] ++ (m.drop 5).dropLast) rfl, rfl, rfl⟩
          · rw [if_neg hA3]
            exact ⟨rfl, isPrefixOf_of_eq_append
              (req.host ++ req.url.path ++ ['/'] ++ (m.drop 4).dropLast) rfl, rfl, rfl⟩

/-- Witness for C1: the Location conjunct evaluated on a concrete
downgrade of "https://x.ya". -/
theorem c1_linkmap_swap_witness :
    ∃ key uk uv,
      ([(⟨("9.9.9.9").data, ("http://x.ya/").data⟩, ("https://x.ya").data)] :
          List (ClientLink × Chars)) =
        [(⟨normalizeIP (("9.9.9.9:80").data), key⟩,
          headerGet locationLit [(locationLit, [("https://x.ya").data])])] ∧
      normalizeUrl (httpPre ++
          (headerGet locationLit [(locationLit, [("https://x.ya").data])]).drop 5) =
        .ok key ∧
      parseURLChars key = .ok uk ∧ uk.scheme = ("http").data ∧
      parseURLChars (headerGet locationLit [(locationLit, [("https://x.ya").data])]) =
        .ok uv ∧
      uv.scheme = ("https").data ∧
      normalizeUrl (headerGet locationLit [(locationLit, [("https://x.ya").data])]) =
        .ok (urlString { uk with scheme := ("https").data }) :=
  c1_linkmap_swap.1
    ⟨{ scheme := ("http").data }, ("a.b").data, ("9.9.9.9:80").data⟩
    [(locationLit, [("https://x.ya").data])]
    (headerSet locationLit (("http://x.ya/").data)
      [(locationLit, [("https://x.ya").data])])
    [(⟨("9.9.9.9").data, ("http://x.ya/").data⟩, ("https://x.ya").data)]
    rfl (by decide)

/-- C1 counterexample: a CSS url() rewrite under a plain-http request
stores an entry whose value is an http-scheme URL, not an https-scheme
one, so the claimed invariant fails; the run goes through stripResponse
on a text/css response exactly as in the source. -/
theorem c1_counterexample :
    stripResponse
        ⟨{ scheme := ("http").data }, ("s.t").data, ("9.9.9.9:1").data⟩
        ⟨200, [(contentTypeLit, [("text/css").data])], ("url(a.png)").data⟩ =
      .ok ((("url('http://s.t/a.png')").data),
        [(contentTypeLit, [("text/css").data])],
        [(⟨("9.9.9.9").data, ("http://s.t/a.png").data⟩, ("http://s.t/a.png").data)]) ∧
    httpsPre.isPrefixOf (("http://s.t/a.png").data) = false ∧
    parseURLChars (("http://s.t/a.png").data) =
      .ok { scheme := ("http").data, host := ("s.t").data, path := ("/a.png").data } ∧
    ¬ ({ scheme := ("http").data, host := ("s.t").data, path := ("/a.png").data } :
        URL).scheme = ("https").data := by
  refine ⟨rfl, by decide, rfl, by decide⟩

end SSLStrip
